import Mathlib

/-!
Verification of the step-resolution core of the va-ai repository: the
canonicalizer (`normalize_step`), the step parser, the semantic matcher,
the difflib similarity ratio, and the two library/search front ends.
All definitions are shallow embeddings of the Python sources
(src/tools/validator/validate.py, step_parser.py, semantic_matcher.py,
src/tools/search-steps/search_steps.py) and of the CPython `difflib`
module they call; strings are modelled as `List Char`, Python floats
holding exact decimal/ratio values as `ℚ`.
-/

namespace VaAi

/-- Characters the embedding treats as whitespace: the ASCII whitespace
set matched by Python's regex class for whitespace and by `str.strip()`.
(Python also accepts a few exotic Unicode spaces; the repository's step
strings contain only these.) -/
def isSpaceCh (c : Char) : Bool :=
  c = ' ' || c = '\t' || c = '\n' || c = '\r' || c = Char.ofNat 11 || c = Char.ofNat 12

/-- ASCII decimal digit, as matched by the digit regex class on this data. -/
def isDigitCh (c : Char) : Bool :=
  decide ('0' ≤ c) && decide (c ≤ '9')

/-- Word characters for the word-boundary rule of the number regex:
ASCII alphanumerics, underscore, and the Cyrillic letters used by the
repository's step language (Python's word class on Unicode restricted to
the program's alphabet). -/
def isWordCh (c : Char) : Bool :=
  isDigitCh c || (decide ('a' ≤ c) && decide (c ≤ 'z')) ||
  (decide ('A' ≤ c) && decide (c ≤ 'Z')) || c = '_' ||
  (decide (1040 ≤ c.toNat) && decide (c.toNat ≤ 1103)) ||
  c.toNat = 1025 || c.toNat = 1105

/-- Lower-casing as `str.lower()` acts on this repository's alphabet:
ASCII letters and Cyrillic letters (А..Я and Ё); all other characters
are fixed. -/
def toLowerCh (c : Char) : Char :=
  if decide ('A' ≤ c) && decide (c ≤ 'Z') then Char.ofNat (c.toNat + 32)
  else if decide (1040 ≤ c.toNat) && decide (c.toNat ≤ 1071) then Char.ofNat (c.toNat + 32)
  else if c.toNat = 1025 then Char.ofNat 1105
  else c

def toLowerL (s : List Char) : List Char := s.map toLowerCh

def strL (s : String) : List Char := s.data

def dquoteCh : Char := Char.ofNat 34

def squoteCh : Char := Char.ofNat 39

def bslashCh : Char := Char.ofNat 92

def lbraceCh : Char := Char.ofNat 123

def rbraceCh : Char := Char.ofNat 125

/-- The four characters the quote substitutions insert, a double-quoted
pair of braces. -/
def quotePlaceholder : List Char := [dquoteCh, lbraceCh, rbraceCh, dquoteCh]

/-- The four characters the variable substitution inserts, a
dollar-delimited pair of braces. -/
def varPlaceholder : List Char := ['$', lbraceCh, rbraceCh, '$']

def lstrip (s : List Char) : List Char := s.dropWhile isSpaceCh

def rstrip : List Char → List Char
  | [] => []
  | c :: rest =>
    let r := rstrip rest
    if r.isEmpty && isSpaceCh c then [] else c :: r

/-- Python `str.strip()`. -/
def pyStrip (s : List Char) : List Char := rstrip (lstrip s)

/-- `step.split(newline)[0]`. -/
def firstLine (s : List Char) : List Char := s.takeWhile (fun c => c ≠ '\n')

lemma length_dropWhile_le (p : Char → Bool) (l : List Char) :
    (l.dropWhile p).length ≤ l.length := by
  induction l with
  | nil => simp [List.dropWhile]
  | cons c t ih =>
    by_cases h : p c
    · simp only [List.dropWhile, h]
      exact Nat.le_succ_of_le ih
    · simp only [List.dropWhile, h]
      simp

/-- The Gherkin keywords stripped by the leading-keyword regex, in the
alternation order of the source pattern, stored lower-cased for the
case-insensitive match. -/
def gherkinKeywords : List (List Char) :=
  [strL ("дано"), strL ("когда"), strL ("тогда"), strL ("и"),
   strL ("также"), strL ("затем"), strL ("но")]

/-- One alternative of the keyword regex matches at the start: the
keyword itself case-insensitively, followed by at least one whitespace
character. -/
def kwMatch (kw s : List Char) : Bool :=
  decide (toLowerL (s.take kw.length) = kw) &&
  (match s.drop kw.length with
   | c :: _ => isSpaceCh c
   | [] => false)

/-- The leading-keyword substitution: remove the first matching keyword
alternative and the greedy run of whitespace after it; the anchored
pattern can fire at most once. -/
def stripKeywordL (s : List Char) : List Char :=
  match gherkinKeywords.find? (fun kw => kwMatch kw s) with
  | some kw => (s.drop kw.length).dropWhile isSpaceCh
  | none => s

/-- Strip one trailing colon, then strip whitespace, as the
`endswith` branch of `normalize_step` does. -/
def stripColonL (s : List Char) : List Char :=
  if s.getLast? = some ':' then pyStrip s.dropLast else s

/-- The quoted-span substitution: every non-overlapping span from a
quote character `q` to the next `q` becomes the placeholder.  Both the
double-quote and the single-quote substitutions of the source insert the
same double-quoted placeholder. -/
def replQuoted (q : Char) : List Char → List Char
  | [] => []
  | c :: rest =>
    if c = q then
      let tw := rest.takeWhile (fun d => d ≠ q)
      if tw.length < rest.length then
        quotePlaceholder ++ replQuoted q (rest.drop (tw.length + 1))
      else c :: rest
    else c :: replQuoted q rest
termination_by s => s.length
decreasing_by
  · simp only [List.length_drop, List.length_cons]; omega
  · simp only [List.length_cons]; omega

/-- `str.replace` of a backslash-quote pair by a plain quote, scanning
left to right without rescanning the replacement. -/
def unescapeQ : List Char → List Char
  | [] => []
  | [c] => [c]
  | c :: d :: rest =>
    if c = bslashCh && d = dquoteCh then dquoteCh :: unescapeQ rest
    else c :: unescapeQ (d :: rest)

/-- The variable substitution: a dollar, one or more non-dollar
characters, and a closing dollar become the variable placeholder; a
dollar that opens no such span is kept and scanning resumes right after
it. -/
def replVars : List Char → List Char
  | [] => []
  | c :: rest =>
    if c = '$' then
      let tw := rest.takeWhile (fun d => d ≠ '$')
      if tw.length = 0 then c :: replVars rest
      else if tw.length < rest.length then
        varPlaceholder ++ replVars (rest.drop (tw.length + 1))
      else c :: rest
    else c :: replVars rest
termination_by s => s.length
decreasing_by
  · simp only [List.length_cons]; omega
  · simp only [List.length_drop, List.length_cons]; omega
  · simp only [List.length_cons]; omega

/-- The number substitution: a maximal digit run with a word boundary on
both sides becomes a hash.  The flag carries whether the previous
character of the original string is a word character (false at the
start). -/
def replNumsAux : Bool → List Char → List Char
  | _, [] => []
  | prevWord, c :: rest =>
    if isDigitCh c && !prevWord then
      let rest2 := rest.dropWhile isDigitCh
      if (match rest2.head? with
          | none => true
          | some d => !isWordCh d) then
        '#' :: replNumsAux true rest2
      else (c :: rest.takeWhile isDigitCh) ++ replNumsAux true rest2
    else c :: replNumsAux (isWordCh c) rest
termination_by _ s => s.length
decreasing_by
  · have := length_dropWhile_le isDigitCh rest
    simp only [List.length_cons]; omega
  · have := length_dropWhile_le isDigitCh rest
    simp only [List.length_cons]; omega
  · simp only [List.length_cons]; omega

def replNums (s : List Char) : List Char := replNumsAux false s

/-- The whitespace-collapse substitution: every maximal whitespace run
becomes a single space. -/
def collapseWS : List Char → List Char
  | [] => []
  | c :: rest =>
    if isSpaceCh c then ' ' :: collapseWS (rest.dropWhile isSpaceCh)
    else c :: collapseWS rest
termination_by s => s.length
decreasing_by
  · have := length_dropWhile_le isSpaceCh rest
    simp only [List.length_cons]; omega
  · simp only [List.length_cons]; omega

/-- `StepLibrary.normalize_step` of validate.py (the identical
`StepsLibrary.normalize_step` of search_steps.py): first line, strip,
keyword removal, lower-casing, trailing colon, double-quote spans,
single-quote spans, escaped-quote unescaping, variable spans, bare
numbers, whitespace collapse, final strip. -/
def normalize_step (s : List Char) : List Char :=
  pyStrip (collapseWS (replNums (replVars (unescapeQ (replQuoted squoteCh
    (replQuoted dquoteCh (stripColonL (toLowerL (stripKeywordL (pyStrip (firstLine s)))))))))))

/-- Whether `pat` matches at the very start of the second list. -/
def headEq : List Char → List Char → Bool
  | [], _ => true
  | _ :: _, [] => false
  | c :: cs, d :: ds => c = d && headEq cs ds

/-- Python's `pat in s` substring test. -/
def hasSub (pat : List Char) : List Char → Bool
  | [] => headEq pat []
  | c :: t => headEq pat (c :: t) || hasSub pat t

/-- `str.split()`: whitespace-separated tokens, no empties. -/
def splitWS : List Char → List (List Char)
  | [] => []
  | c :: rest =>
    if isSpaceCh c then splitWS rest
    else (c :: rest.takeWhile (fun d => !isSpaceCh d)) :: splitWS (rest.dropWhile (fun d => !isSpaceCh d))
termination_by s => s.length
decreasing_by
  · simp only [List.length_cons]; omega
  · have := length_dropWhile_le (fun d => !isSpaceCh d) rest
    simp only [List.length_cons]; omega

/-- `StepParser.ACTIONS`: the ordered action-category table. -/
def ACTIONS : List (List Char × List (List Char)) :=
  [ (strL ("клик"), [strL ("нажимаю"), strL ("кликаю"), strL ("щелкаю"), strL ("выбираю")]),
    (strL ("ввод"), [strL ("ввожу"), strL ("устанавливаю"), strL ("задаю"), strL ("заполняю")]),
    (strL ("выбор"), [strL ("выбираю из"), strL ("выбираю по"), strL ("выбираю точное")]),
    (strL ("проверка"), [strL ("проверяю"), strL ("сравниваю"), strL ("убеждаюсь"), strL ("жду")]),
    (strL ("навигация"), [strL ("открываю"), strL ("перехожу"), strL ("закрываю"), strL ("активизирую")]) ]

/-- `StepParser.ELEMENTS`: the ordered element-category table. -/
def ELEMENTS : List (List Char × List (List Char)) :=
  [ (strL ("кнопочные"), [strL ("кнопка"), strL ("кнопка с именем"),
      strL ("кнопка командного интерфейса"), strL ("кнопка выбора"), strL ("кнопку")]),
    (strL ("поля"), [strL ("поле"), strL ("поле с именем"), strL ("поле ввода"), strL ("поля")]),
    (strL ("списки"), [strL ("выпадающий список"), strL ("выпадающего списка"),
      strL ("список"), strL ("дерево")]),
    (strL ("ссылки"), [strL ("гиперссылка"), strL ("гиперссылку"),
      strL ("навигационная ссылка"), strL ("навигационную ссылку")]),
    (strL ("таблицы"), [strL ("таблица"), strL ("таблице"), strL ("табличная часть"),
      strL ("табличной части")]),
    (strL ("формы"), [strL ("форма"), strL ("форме"), strL ("окно"), strL ("панель"),
      strL ("группа")]) ]

/-- `StepParser.CONTEXTS`: the ordered context-phrase list. -/
def CONTEXTS : List (List Char) :=
  [strL ("в таблице"), strL ("в табличной части"), strL ("в форме"), strL ("в окне"),
   strL ("в дереве"), strL ("в панели"), strL ("в группе")]

/-- The action phrases in the scan order of `_extract_action`:
categories in table order, each category's phrases in list order. -/
def actionPhrases : List (List Char) := (ACTIONS.map Prod.snd).flatten

def stopWords : List (List Char) := [strL ("я"), strL ("в"), strL ("из"), strL ("у")]

/-- `StepParser._extract_action`. -/
def extract_action (s : List Char) : List Char :=
  match actionPhrases.find? (fun a => hasSub a s) with
  | some a => a
  | none =>
    match splitWS s with
    | [] => []
    | w :: _ => if w ∈ stopWords then [] else w

/-- The element trigger phrases paired with their category, in the scan
order of `_extract_element_type`. -/
def elementPairs : List (List Char × List Char) :=
  (ELEMENTS.map (fun p => p.2.map (fun e => (p.1, e)))).flatten

/-- `StepParser._extract_element_type`: first trigger-phrase hit decides
the category, which is mapped to its normalized representative. -/
def extract_element_type (s : List Char) : List Char :=
  match elementPairs.find? (fun pe => hasSub pe.2 s) with
  | none => []
  | some pe =>
    if pe.1 = strL ("кнопочные") then strL ("кнопка")
    else if pe.1 = strL ("поля") then strL ("поле")
    else if pe.1 = strL ("списки") then
      (if hasSub (strL ("выпадающий")) s || hasSub (strL ("выпадающего")) s then
        strL ("выпадающий список")
      else strL ("список"))
    else if pe.1 = strL ("ссылки") then strL ("гиперссылка")
    else if pe.1 = strL ("таблицы") then strL ("таблица")
    else if pe.1 = strL ("формы") then strL ("форма")
    else []

/-- `StepParser._extract_context`. -/
def extract_context (s : List Char) : List Char :=
  (CONTEXTS.find? (fun c => hasSub c s)).getD []

/-- Contents of the non-overlapping quoted spans, as the findall of the
parameter extraction collects them. -/
def quotedContents (q : Char) : List Char → List (List Char)
  | [] => []
  | c :: rest =>
    if c = q then
      let tw := rest.takeWhile (fun d => d ≠ q)
      if tw.length < rest.length then tw :: quotedContents q (rest.drop (tw.length + 1))
      else []
    else quotedContents q rest
termination_by s => s.length
decreasing_by
  · simp only [List.length_drop, List.length_cons]; omega
  · simp only [List.length_cons]; omega

/-- Contents of the dollar-delimited variable spans (nonempty contents
only), as the findall of the parameter extraction collects them. -/
def varContents : List Char → List (List Char)
  | [] => []
  | c :: rest =>
    if c = '$' then
      let tw := rest.takeWhile (fun d => d ≠ '$')
      if tw.length = 0 then varContents rest
      else if tw.length < rest.length then tw :: varContents (rest.drop (tw.length + 1))
      else []
    else varContents rest
termination_by s => s.length
decreasing_by
  · simp only [List.length_cons]; omega
  · simp only [List.length_drop, List.length_cons]; omega
  · simp only [List.length_cons]; omega

/-- `StepParser._extract_params`: double-quoted contents, then
single-quoted contents, then re-wrapped variable names. -/
def extract_params (s : List Char) : List (List Char) :=
  quotedContents dquoteCh s ++ quotedContents squoteCh s ++
    (varContents s).map (fun v => '$' :: (v ++ ['$']))

/-- `ParsedStep` of step_parser.py. -/
structure ParsedStep where
  action : List Char := []
  element_type : List Char := []
  context : List Char := []
  params : List (List Char) := []
deriving DecidableEq

/-- `StepParser.parse`. -/
def parse_step (step : List Char) : ParsedStep :=
  let fl := pyStrip (firstLine step)
  let normalized := stripKeywordL fl
  let lower := toLowerL normalized
  { action := extract_action lower
    element_type := extract_element_type lower
    context := extract_context lower
    params := extract_params normalized }

/-- `StepParser.get_action_category`. -/
def get_action_category (a : List Char) : List Char :=
  ((ACTIONS.find? (fun p => decide (toLowerL a ∈ p.2))).map Prod.fst).getD (strL ("unknown"))

/-- `StepParser.get_element_category`: containment either way. -/
def get_element_category (e : List Char) : List Char :=
  ((ELEMENTS.find? (fun p =>
      p.2.any (fun el => hasSub el (toLowerL e) || hasSub (toLowerL e) el))).map
    Prod.fst).getD (strL ("unknown"))

/-- `StepParser.are_actions_compatible`. -/
def are_actions_compatible (a1 a2 : List Char) : Bool :=
  decide (get_action_category a1 = get_action_category a2) &&
  decide (get_action_category a1 ≠ strL ("unknown"))

/-- `StepParser.are_elements_compatible`. -/
def are_elements_compatible (e1 e2 : List Char) : Bool :=
  decide (get_element_category e1 = get_element_category e2) &&
  decide (get_element_category e1 ≠ strL ("unknown"))

/-- `SemanticMatcher._compare_actions`. -/
def compare_actions (o s : ParsedStep) : Bool :=
  if o.action = [] || s.action = [] then true
  else if o.action = s.action then true
  else are_actions_compatible o.action s.action

/-- `SemanticMatcher._compare_elements`. -/
def compare_elements (o s : ParsedStep) : Bool :=
  if o.element_type = [] || s.element_type = [] then true
  else if o.element_type = s.element_type then true
  else are_elements_compatible o.element_type s.element_type

def contextSynonyms : List (List Char × List Char) :=
  [ (strL ("в таблице"), strL ("в табличной части")),
    (strL ("в форме"), strL ("в окне")) ]

/-- `SemanticMatcher._compare_context`. -/
def compare_context (o s : ParsedStep) : Bool :=
  if o.context = [] && s.context = [] then true
  else if o.context = [] && decide (s.context ≠ []) then false
  else if decide (o.context ≠ []) && s.context = [] then true
  else if o.context = s.context then true
  else contextSynonyms.any (fun p =>
    (o.context = p.1 && s.context = p.2) || (o.context = p.2 && s.context = p.1))

/-- `SemanticMatcher._compare_params`: false only when the parameter
counts differ by more than one (the source's two remaining branches both
return true). -/
def compare_params (o s : ParsedStep) : Bool :=
  if 1 < ((o.params.length : Int) - (s.params.length : Int)).natAbs then false
  else true

def natChars (n : Nat) : List Char := (Nat.repr n).data

/-- `SemanticMatcher._generate_warnings`. -/
def generate_warnings (o s : ParsedStep) (am em cm pm : Bool) : List (List Char) :=
  (if am then [] else
    [strL ("Different action type: '") ++ o.action ++ strL ("' vs '") ++ s.action ++ [squoteCh]]) ++
  (if em then [] else
    [strL ("Different UI element type: '") ++ o.element_type ++ strL ("' vs '") ++
      s.element_type ++ [squoteCh]]) ++
  (if cm then [] else
    [strL ("Different context: '") ++ o.context ++ strL ("' vs '") ++ s.context ++ [squoteCh]]) ++
  (if pm then [] else
    [strL ("Different number of parameters: ") ++ natChars o.params.length ++
      strL (" vs ") ++ natChars s.params.length])

/-- Round half to even, as Python's `round` does on the exact values this
program feeds it (values away from representation boundaries): the floor
is `fdiv` of the reduced numerator by the denominator, the fractional
part is `fmod` over the denominator, and a fraction below, above, or at
one half rounds down, up, or to the even neighbour. -/
def roundHalfEven (x : ℚ) : Int :=
  let n : Int := Int.fdiv x.num (x.den : Int)
  let r : Int := Int.fmod x.num (x.den : Int)
  if 2 * r < (x.den : Int) then n
  else if (x.den : Int) < 2 * r then n + 1
  else if n % 2 = 0 then n else n + 1

/-- Python `round(x, 2)` on the exact rational value: round half to even
after scaling by 100, then divide back (the scaling is written on the
numerator so the whole pipeline stays kernel-computable). -/
def pyRound2 (x : ℚ) : ℚ := mkRat (roundHalfEven (mkRat (x.num * 100) x.den)) 100

/-- `SemanticMatcher._calculate_confidence` with the source's exact
decimal weights 0.40, 0.40, 0.15, 0.05 written as `mkRat`. -/
def calculate_confidence (am em cm pm : Bool) : ℚ :=
  pyRound2 ((if am then mkRat 40 100 else 0) + (if em then mkRat 40 100 else 0) +
    (if cm then mkRat 15 100 else 0) + (if pm then mkRat 5 100 else 0))

def criticalWarnings : List (List Char) :=
  [strL ("Different action type"), strL ("Different UI element type")]

/-- `SemanticMatcher._is_safe_replacement`: the third parameter
(context agreement) is accepted but unused, as in the source. -/
def is_safe_replacement (am em _cm : Bool) (warnings : List (List Char)) : Bool :=
  if !am || !em then false
  else !(warnings.any (fun w => criticalWarnings.any (fun cw => hasSub cw w)))

/-- `SemanticMatch` of semantic_matcher.py. -/
structure SemanticMatch where
  action_match : Bool
  element_match : Bool
  context_match : Bool
  params_match : Bool
  confidence : ℚ
  is_safe : Bool
  warnings : List (List Char)
deriving DecidableEq

/-- `SemanticMatcher.compare`. -/
def compare_steps (original suggested : List Char) : SemanticMatch :=
  let o := parse_step original
  let s := parse_step suggested
  let am := compare_actions o s
  let em := compare_elements o s
  let cm := compare_context o s
  let pm := compare_params o s
  let ws := generate_warnings o s am em cm pm
  { action_match := am, element_match := em, context_match := cm, params_match := pm,
    confidence := calculate_confidence am em cm pm,
    is_safe := is_safe_replacement am em cm ws,
    warnings := ws }

/-- `SemanticMatcher.get_confidence_level`. -/
def get_confidence_level (confidence : ℚ) : List Char :=
  if confidence > mkRat 8 10 then strL ("high")
  else if confidence > mkRat 6 10 then strL ("medium")
  else strL ("low")

/-- Positions of character `c` in `b`, in increasing order: the entry
`b2j[c]` of difflib's `__chain_b` before junk removal. -/
def posOf (b : List Char) (c : Char) : List Nat :=
  (List.range b.length).filter (fun j => b.get? j = some c)

/-- The `b2j` lookup after `__chain_b`: the repository constructs
`SequenceMatcher(None, …)`, so the junk set is empty, and with autojunk
a character is dropped as popular when `b` has at least 200 elements and
the character occurs more than `len(b) // 100 + 1` times. -/
def b2jGet (b : List Char) (c : Char) : List Nat :=
  if 200 ≤ b.length ∧ b.length / 100 + 1 < (posOf b c).length then [] else posOf b c

/-- State of the `find_longest_match` dynamic program: the row
dictionary being built and the best block so far. -/
structure FlmState where
  j2l : Nat → Nat
  bi : Nat
  bj : Nat
  bs : Nat

/-- One inner-loop step of `find_longest_match`: `old` is the previous
row's dictionary (0 for missing keys, matching `j2len.get(j-1, 0)` where
index -1 is never a key). -/
def procJ (i : Nat) (old : Nat → Nat) (st : FlmState) (j : Nat) : FlmState :=
  let k := (if j = 0 then 0 else old (j - 1)) + 1
  let nj := fun x => if x = j then k else st.j2l x
  if st.bs < k then ⟨nj, i + 1 - k, j + 1 - k, k⟩ else ⟨nj, st.bi, st.bj, st.bs⟩

/-- The occurrence list scanned in one row: `continue` below `blo`,
`break` at `bhi` (the list is increasing). -/
def rowJs (b : List Char) (blo bhi : Nat) (c : Char) : List Nat :=
  ((b2jGet b c).filter (fun j => blo ≤ j)).takeWhile (fun j => j < bhi)

/-- One outer-loop row of `find_longest_match`: the new dictionary
starts empty and all reads go to the previous row's dictionary. -/
def procRow (a b : List Char) (blo bhi : Nat) (st : FlmState) (i : Nat) : FlmState :=
  (rowJs b blo bhi (a.getD i ' ')).foldl (procJ i st.j2l) ⟨fun _ => 0, st.bi, st.bj, st.bs⟩

/-- The first extension loop of `find_longest_match` (with an empty
junk set the junk test is vacuous); the fuel bounds the iteration count
and is always supplied large enough. -/
def extendLeft (a b : List Char) (alo blo : Nat) : Nat → Nat × Nat × Nat → Nat × Nat × Nat
  | 0, st => st
  | fuel + 1, (bi, bj, bs) =>
    if alo < bi ∧ blo < bj ∧ a.getD (bi - 1) ' ' = b.getD (bj - 1) ' ' then
      extendLeft a b alo blo fuel (bi - 1, bj - 1, bs + 1)
    else (bi, bj, bs)

/-- The second extension loop of `find_longest_match`. -/
def extendRight (a b : List Char) (ahi bhi : Nat) : Nat → Nat × Nat × Nat → Nat × Nat × Nat
  | 0, st => st
  | fuel + 1, (bi, bj, bs) =>
    if bi + bs < ahi ∧ bj + bs < bhi ∧ a.getD (bi + bs) ' ' = b.getD (bj + bs) ' ' then
      extendRight a b ahi bhi fuel (bi, bj, bs + 1)
    else (bi, bj, bs)

/-- `SequenceMatcher.find_longest_match` on `a[alo:ahi]`, `b[blo:bhi]`
with `isjunk = None`: the row loop, then the two extension loops (the
two junk-extension loops never fire on an empty junk set). -/
def flm (a b : List Char) (alo ahi blo bhi : Nat) : Nat × Nat × Nat :=
  let st := (List.range' alo (ahi - alo)).foldl (procRow a b blo bhi) ⟨fun _ => 0, alo, blo, 0⟩
  extendRight a b ahi bhi ahi (extendLeft a b alo blo st.bi (st.bi, st.bj, st.bs))

/-- Total size of the matching blocks of `get_matching_blocks`,
computed by the same divide-around-the-longest-match recursion (the
final sort and merge of adjacent blocks do not change the total).  The
fuel dominates the recursion depth and is always supplied large enough. -/
def matchTotalF (a b : List Char) : Nat → Nat → Nat → Nat → Nat → Nat
  | 0, _, _, _, _ => 0
  | fuel + 1, alo, ahi, blo, bhi =>
    let m := flm a b alo ahi blo bhi
    if m.2.2 = 0 then 0
    else m.2.2 + matchTotalF a b fuel alo m.1 blo m.2.1 +
         matchTotalF a b fuel (m.1 + m.2.2) ahi (m.2.1 + m.2.2) bhi

def matchTotal (a b : List Char) : Nat :=
  matchTotalF a b (a.length + b.length + 1) 0 a.length 0 b.length

/-- `SequenceMatcher(None, a, b).ratio()` as the exact value
`2 * matches / (len(a) + len(b))` it computes (1 for two empty
sequences). -/
def ratioQ (a b : List Char) : ℚ :=
  if a.length + b.length = 0 then 1
  else mkRat (2 * matchTotal a b) (a.length + b.length)

/-- Stable insertion for a descending sort: the element goes before the
first entry whose key is not larger. -/
def insDescBy {α : Type} (key : α → ℚ) (x : α) : List α → List α
  | [] => [x]
  | y :: ys => if key x < key y then y :: insDescBy key x ys else x :: y :: ys

/-- Python's stable `list.sort(key=…, reverse=True)`: descending by
key, ties kept in original order. -/
def sortDescBy {α : Type} (key : α → ℚ) : List α → List α
  | [] => []
  | x :: xs => insDescBy key x (sortDescBy key xs)

/-- Python dict assignment `m[k] = v`: an existing key keeps its
position and gets the new value, a new key is appended. -/
def dictInsert {β : Type} (m : List (List Char × β)) (k : List Char) (v : β) :
    List (List Char × β) :=
  if m.any (fun p => decide (p.1 = k)) then
    m.map (fun p => if p.1 = k then (k, v) else p)
  else m ++ [(k, v)]

def dictLookup {β : Type} (m : List (List Char × β)) (k : List Char) : Option β :=
  (m.find? (fun p => decide (p.1 = k))).map Prod.snd

/-- `StepLibrary.steps_normalized` of validate.py: canonical form to
original step, last write wins. -/
def steps_normalized (steps : List (List Char)) : List (List Char × List Char) :=
  steps.foldl (fun m st => dictInsert m (normalize_step st) st) []

/-- `StepLibrary.find_step`: `(found, exact_match, similar_steps)`. -/
def find_step (steps : List (List Char)) (step : List Char) :
    Bool × List Char × List (List Char) :=
  let m := steps_normalized steps
  let normalized := normalize_step step
  match dictLookup m normalized with
  | some orig => (true, orig, [])
  | none =>
    let similar := m.foldl (fun acc p =>
      if mkRat 7 10 < ratioQ normalized p.1 then acc ++ [(p.2, ratioQ normalized p.1)]
      else acc) []
    (false, [], ((sortDescBy (fun pr => pr.2) similar).take 5).map Prod.fst)

/-- One library entry of search_steps.py with its category metadata. -/
structure StepInfo where
  step : List Char
  category : List Char
  subcategory : List Char
  description : List Char
deriving DecidableEq

/-- One search result of `StepsSearcher._search_direct`. -/
structure SearchResult where
  step : List Char
  category : List Char
  relevance : ℚ
  subcategory : Option (List Char)
deriving DecidableEq

/-- `StepsLibrary.steps_normalized` of search_steps.py. -/
def search_steps_normalized (infos : List StepInfo) : List (List Char × StepInfo) :=
  infos.foldl (fun m info => dictInsert m (normalize_step info.step) info) []

/-- `StepsSearcher._search_direct`: category filters apply only when
the filter string is truthy (nonempty); kept results carry the
relevance rounded to two decimals, and the sort runs on that rounded
relevance. -/
def search_direct (infos : List StepInfo) (query : List Char) (top_n : Nat)
    (category subcategory : Option (List Char)) : List SearchResult :=
  let nq := normalize_step query
  let kept := (search_steps_normalized infos).foldl (fun acc p =>
    if (match category with
        | some c => !c.isEmpty && decide (p.2.category ≠ c)
        | none => false) then acc
    else if (match subcategory with
        | some sc => !sc.isEmpty && decide (p.2.subcategory ≠ sc)
        | none => false) then acc
    else if mkRat 3 10 < ratioQ nq p.1 then
      acc ++ [{ step := p.2.step, category := p.2.category,
                relevance := pyRound2 (ratioQ nq p.1),
                subcategory := if p.2.subcategory.isEmpty then none else some p.2.subcategory }]
    else acc) []
  (sortDescBy (fun r => r.relevance) kept).take top_n

/-- A JSON object as the loaders read it: a flat mapping with string
values (`dict.get(key, empty)` semantics via `pyGet`). -/
structure PyObj where
  fields : List (List Char × List Char)
deriving DecidableEq

/-- A parsed library source: the sequence shape, the mapping shape, or
any other JSON value. -/
inductive PyData where
  | plist (items : List PyObj)
  | pdict (entries : List (List Char × List PyObj))
  | other
deriving DecidableEq

/-- The fatal outcomes of library loading: an unreadable source, a
source that is not well-formed JSON, a wrong-shaped source, an empty
library. -/
inductive LoadErr where
  | notFound
  | parseError
  | wrongShape
  | emptyLibrary
deriving DecidableEq

def pyGet (o : PyObj) (k : List Char) : List Char :=
  ((o.fields.find? (fun p => decide (p.1 = k))).map Prod.snd).getD []

/-- `StepLibrary.load_library` of validate.py past the JSON parse: the
sequence shape reads the title field of every record, the mapping shape
reads the per-category step field; any other JSON value silently yields
an empty step list.  A read or parse failure is fatal and passed
through. -/
def load_library_validator : Except LoadErr PyData → Except LoadErr (List (List Char))
  | .error e => .error e
  | .ok (.plist items) => .ok (items.map (fun o => pyGet o (strL ("ИмяШага"))))
  | .ok (.pdict entries) =>
      .ok (entries.foldl (fun acc e => acc ++ e.2.map (fun o => pyGet o (strL ("шаг")))) [])
  | .ok .other => .ok []

/-- The record-to-StepInfo conversion of `StepsLibrary.load_library`:
category is the type path up to the first dot, subcategory the rest
(the `parts else` default is dead code since a split is never empty). -/
def mkStepInfo (o : PyObj) : StepInfo :=
  let ft := pyGet o (strL ("ПолныйТипШага"))
  { step := pyGet o (strL ("ИмяШага"))
    category := ft.takeWhile (fun c => c ≠ '.')
    subcategory := (ft.dropWhile (fun c => c ≠ '.')).tail
    description := pyGet o (strL ("ОписаниеШага")) }

/-- `StepsLibrary.load_library` of search_steps.py past the JSON parse:
only the sequence shape is accepted (a mapping raises the format
error), records with an empty title are skipped, and an empty resulting
library is itself an error.  All failures are fatal. -/
def load_library_search : Except LoadErr PyData → Except LoadErr (List StepInfo)
  | .error e => .error e
  | .ok (.plist items) =>
      let steps := items.foldl (fun acc o =>
        if pyGet o (strL ("ИмяШага")) = [] then acc else acc ++ [mkStepInfo o]) []
      if steps.isEmpty then .error .emptyLibrary else .ok steps
  | .ok _ => .error .wrongShape

lemma headEq_iff (p s : List Char) : headEq p s = true ↔ ∃ t, p ++ t = s := by
  induction p generalizing s with
  | nil => simp [headEq]
  | cons c cs ih =>
    cases s with
    | nil => simp [headEq]
    | cons d ds =>
      simp only [headEq, Bool.and_eq_true, decide_eq_true_eq, ih]
      constructor
      · rintro ⟨rfl, t, rfl⟩; exact ⟨t, rfl⟩
      · rintro ⟨t, h⟩
        injection h with h1 h2
        exact ⟨h1, t, h2⟩

lemma hasSub_iff (p s : List Char) : hasSub p s = true ↔ ∃ u v, u ++ (p ++ v) = s := by
  induction s with
  | nil =>
    cases p with
    | nil => simp [hasSub, headEq]
    | cons c cs => simp [hasSub, headEq]
  | cons c t ih =>
    simp only [hasSub, Bool.or_eq_true, headEq_iff, ih]
    constructor
    · rintro (⟨v, h⟩ | ⟨u, v, rfl⟩)
      · exact ⟨[], v, by simpa using h⟩
      · exact ⟨c :: u, v, rfl⟩
    · rintro ⟨u, v, h⟩
      cases u with
      | nil => exact Or.inl ⟨v, by simpa using h⟩
      | cons x xs =>
        injection h with h1 h2
        exact Or.inr ⟨xs, v, h2⟩

lemma hasSub_trans {p q s : List Char} (h1 : hasSub p q = true) (h2 : hasSub q s = true) :
    hasSub p s = true := by
  rw [hasSub_iff] at h1 h2 ⊢
  obtain ⟨u1, v1, rfl⟩ := h1
  obtain ⟨u2, v2, rfl⟩ := h2
  exact ⟨u2 ++ u1, v1 ++ v2, by simp⟩

lemma hasSub_append_left (p rest : List Char) : hasSub p (p ++ rest) = true :=
  (hasSub_iff p (p ++ rest)).mpr ⟨[], rest, rfl⟩

lemma is_safe_replacement_true_true (cm : Bool) (ws : List (List Char)) :
    is_safe_replacement true true cm ws =
      !(ws.any fun w => criticalWarnings.any fun cw => hasSub cw w) := by
  simp [is_safe_replacement]

/-- Claim C1: the safety verdict of the semantic comparison is true
exactly when both the action-agreement and element-agreement booleans
are true and no generated warning contains the substring
"Different action type" or "Different UI element type"; in particular
disagreement on either axis forces a false verdict. -/
theorem c1_safety_verdict (original suggested : List Char) :
    ((compare_steps original suggested).is_safe = true ↔
      ((compare_steps original suggested).action_match = true ∧
       (compare_steps original suggested).element_match = true ∧
       ∀ w ∈ (compare_steps original suggested).warnings,
         hasSub (strL ("Different action type")) w = false ∧
         hasSub (strL ("Different UI element type")) w = false)) ∧
    (((compare_steps original suggested).action_match = false ∨
       (compare_steps original suggested).element_match = false) →
      (compare_steps original suggested).is_safe = false) := by
  simp only [compare_steps]
  cases ham : compare_actions (parse_step original) (parse_step suggested) with
  | false =>
    constructor
    · simp [is_safe_replacement]
    · intro _; simp [is_safe_replacement]
  | true =>
    cases hem : compare_elements (parse_step original) (parse_step suggested) with
    | false =>
      constructor
      · simp [is_safe_replacement]
      · intro _; simp [is_safe_replacement]
    | true =>
      constructor
      · rw [is_safe_replacement_true_true]
        constructor
        · intro h
          refine ⟨rfl, rfl, fun w hw => ?_⟩
          rw [Bool.not_eq_true', List.any_eq_false] at h
          have hww := h w hw
          simp only [criticalWarnings, List.any_cons, List.any_nil, Bool.or_false,
            Bool.or_eq_true, not_or, Bool.not_eq_true] at hww
          exact hww
        · rintro ⟨-, -, h⟩
          rw [Bool.not_eq_true', List.any_eq_false]
          intro w hw
          simp only [criticalWarnings, List.any_cons, List.any_nil, Bool.or_false,
            Bool.or_eq_true, not_or, Bool.not_eq_true]
          exact h w hw
      · rintro (h | h) <;> exact absurd h (by simp)

lemma rat_add_mkRat (a b : Int) : mkRat a 100 + mkRat b 100 = mkRat (a + b) 100 := by
  rw [Rat.mkRat_eq_div, Rat.mkRat_eq_div, Rat.mkRat_eq_div, div_add_div_same]
  push_cast
  ring

/-- Claim C5: the confidence score is the weighted sum of the four
agreement booleans with weights 0.40, 0.40, 0.15, 0.05 (on these exact
two-decimal sums the rounding of the source is the identity), and
flipping any single agreement from false to true never decreases it. -/
theorem c5_confidence_weighted_sum :
    ∀ am em cm pm : Bool,
      calculate_confidence am em cm pm =
        (if am then (0.40 : ℚ) else 0) + (if em then (0.40 : ℚ) else 0) +
        (if cm then (0.15 : ℚ) else 0) + (if pm then (0.05 : ℚ) else 0) ∧
      calculate_confidence false em cm pm ≤ calculate_confidence true em cm pm ∧
      calculate_confidence am false cm pm ≤ calculate_confidence am true cm pm ∧
      calculate_confidence am em false pm ≤ calculate_confidence am em true pm ∧
      calculate_confidence am em cm false ≤ calculate_confidence am em cm true := by
  have e40 : (0.40 : ℚ) = mkRat 40 100 := by norm_num [Rat.mkRat_eq_div]
  have e15 : (0.15 : ℚ) = mkRat 15 100 := by norm_num [Rat.mkRat_eq_div]
  have e05 : (0.05 : ℚ) = mkRat 5 100 := by norm_num [Rat.mkRat_eq_div]
  intro am em cm pm
  simp only [e40, e15, e05]
  cases am <;> cases em <;> cases cm <;> cases pm <;>
    simp only [calculate_confidence, if_true, if_false, Bool.false_eq_true,
      Bool.true_eq_false, ite_true, ite_false, rat_add_mkRat, add_zero, zero_add] <;>
    decide

/-- The context-agreement rule as the specification words it: true when
neither side has a context; false when only the suggested side has one;
true when only the original side has one; when both are present, true
exactly for equal contexts or one of the fixed synonym pairs. -/
def context_agreement_spec (octx sctx : List Char) : Bool :=
  if octx.isEmpty && sctx.isEmpty then true
  else if octx.isEmpty then false
  else if sctx.isEmpty then true
  else
    decide (octx = sctx) ||
    (decide (octx = strL ("в таблице")) && decide (sctx = strL ("в табличной части"))) ||
    (decide (octx = strL ("в табличной части")) && decide (sctx = strL ("в таблице"))) ||
    (decide (octx = strL ("в форме")) && decide (sctx = strL ("в окне"))) ||
    (decide (octx = strL ("в окне")) && decide (sctx = strL ("в форме")))

/-- Claim C6: the comparison's context agreement coincides with the
four-case rule of the specification on every pair of parsed steps. -/
theorem c6_context_agreement (o s : ParsedStep) :
    compare_context o s = context_agreement_spec o.context s.context := by
  unfold compare_context context_agreement_spec contextSynonyms
  by_cases h1 : o.context = [] <;> by_cases h2 : s.context = []
  · simp [h1, h2]
  · simp [h1, h2]
  · simp [h1, h2, List.isEmpty_iff]
  · by_cases h3 : o.context = s.context
    · simp [h1, h2, h3, List.isEmpty_iff]
    · have c1 : ¬ ((o.context = [] && s.context = []) = true) := by simp [h1]
      have c2 : ¬ ((o.context = [] && decide (s.context ≠ [])) = true) := by simp [h1]
      have c3 : ¬ ((decide (o.context ≠ []) && s.context = []) = true) := by simp [h2]
      have c4 : ¬ ((o.context.isEmpty && s.context.isEmpty) = true) := by
        simp [List.isEmpty_iff, h1]
      have c5 : ¬ (o.context.isEmpty = true) := by simp [List.isEmpty_iff, h1]
      have c6 : ¬ (s.context.isEmpty = true) := by simp [List.isEmpty_iff, h2]
      rw [if_neg c1, if_neg c2, if_neg c3, if_neg h3, if_neg c4, if_neg c5, if_neg c6]
      have e5 : decide (o.context = s.context) = false := by simp [h3]
      simp only [e5, Bool.false_or, List.any_cons, List.any_nil, Bool.or_false]
      simp [Bool.or_assoc]

/-- Claim C8: the confidence-level bucketing returns high exactly above
0.8, medium exactly on the half-open interval from 0.6 exclusive to 0.8
inclusive, low otherwise; in particular 0.8 buckets as medium and 0.6
as low. -/
theorem c8_confidence_level_buckets :
    ∀ c : ℚ,
      (get_confidence_level c = strL ("high") ↔ (0.8 : ℚ) < c) ∧
      (get_confidence_level c = strL ("medium") ↔ ((0.6 : ℚ) < c ∧ c ≤ (0.8 : ℚ))) ∧
      (get_confidence_level c = strL ("low") ↔ c ≤ (0.6 : ℚ)) ∧
      get_confidence_level (0.8 : ℚ) = strL ("medium") ∧
      get_confidence_level (0.6 : ℚ) = strL ("low") := by
  intro c
  have hm8 : mkRat 8 10 = (0.8 : ℚ) := by norm_num [Rat.mkRat_eq_div]
  have hm6 : mkRat 6 10 = (0.6 : ℚ) := by norm_num [Rat.mkRat_eq_div]
  refine ⟨?_, ?_, ?_, by norm_num [get_confidence_level, Rat.mkRat_eq_div],
      by norm_num [get_confidence_level, Rat.mkRat_eq_div]⟩ <;>
    unfold get_confidence_level <;> rw [hm8, hm6] <;> split_ifs with h1 h2
  · simpa using h1
  · constructor
    · intro h; exact absurd h (by decide)
    · intro h; linarith
  · constructor
    · intro h; exact absurd h (by decide)
    · intro h; linarith
  · constructor
    · intro h; exact absurd h (by decide)
    · intro h; linarith
  · simp only [true_iff]
    constructor
    · exact h2
    · linarith
  · constructor
    · intro h; exact absurd h (by decide)
    · intro h; linarith
  · constructor
    · intro h; exact absurd h (by decide)
    · intro h; linarith
  · constructor
    · intro h; exact absurd h (by decide)
    · intro h; linarith
  · simp only [true_iff]
    push_neg at h1 h2
    linarith

lemma splitWS_no_space_aux (n : Nat) :
    ∀ s : List Char, s.length ≤ n → ∀ w ∈ splitWS s, ∀ c ∈ w, isSpaceCh c = false := by
  induction n with
  | zero =>
    intro s hs
    have : s = [] := List.eq_nil_of_length_eq_zero (Nat.le_zero.mp hs)
    subst this
    simp [splitWS]
  | succ n ih =>
    intro s hs
    cases s with
    | nil => simp [splitWS]
    | cons c rest =>
      rw [splitWS]
      by_cases hc : isSpaceCh c = true
      · rw [if_pos hc]
        exact ih rest (by simpa using Nat.le_of_succ_le_succ hs)
      · rw [if_neg hc]
        intro w hw
        rcases List.mem_cons.mp hw with rfl | hw2
        · intro d hd
          rcases List.mem_cons.mp hd with rfl | hd2
          · simpa using hc
          · have hp := List.mem_takeWhile_imp hd2
            simpa using hp
        · have hlen : (rest.dropWhile (fun d => !isSpaceCh d)).length ≤ n := by
            have := length_dropWhile_le (fun d => !isSpaceCh d) rest
            simp only [List.length_cons] at hs
            omega
          exact ih _ hlen w hw2

lemma splitWS_no_space (s : List Char) :
    ∀ w ∈ splitWS s, ∀ c ∈ w, isSpaceCh c = false :=
  splitWS_no_space_aux s.length s (Nat.le_refl _)

lemma find?_first_in_head {p : List Char → Bool} {l₁ l₂ : List (List Char)} {q : List Char}
    (h : (l₁ ++ l₂).find? p = some q) (hx : ∃ y ∈ l₁, p y = true) : q ∈ l₁ := by
  rw [List.find?_append] at h
  obtain ⟨y, hy, hpy⟩ := hx
  have hs : (l₁.find? p).isSome := List.find?_isSome.mpr ⟨y, hy, hpy⟩
  cases hfind : l₁.find? p with
  | none => rw [hfind] at hs; simp at hs
  | some z =>
    rw [hfind] at h
    have hz : some z = some q := h
    injection hz with hz
    subst hz
    exact List.mem_of_find?_eq_some hfind

/-- The first action category's trigger list ("клик"), which the scan
visits before the selection category. -/
def clickPhrases : List (List Char) :=
  [strL ("нажимаю"), strL ("кликаю"), strL ("щелкаю"), strL ("выбираю")]

lemma actionPhrases_decomp :
    actionPhrases = clickPhrases ++
      [strL ("ввожу"), strL ("устанавливаю"), strL ("задаю"), strL ("заполняю"),
       strL ("выбираю из"), strL ("выбираю по"), strL ("выбираю точное"),
       strL ("проверяю"), strL ("сравниваю"), strL ("убеждаюсь"), strL ("жду"),
       strL ("открываю"), strL ("перехожу"), strL ("закрываю"), strL ("активизирую")] := by
  decide

/-- Claim C10: action extraction never returns a trigger phrase of the
selection category: the click category containing the word that is a
proper substring of each such phrase is scanned first, and the
first-token fallback cannot produce a phrase containing a space. -/
theorem c10_selection_actions_unreachable (s : List Char) :
    extract_action s ≠ strL ("выбираю из") ∧
    extract_action s ≠ strL ("выбираю по") ∧
    extract_action s ≠ strL ("выбираю точное") := by
  unfold extract_action
  cases hf : actionPhrases.find? (fun a => hasSub a s) with
  | some q =>
    simp only []
    refine ⟨?_, ?_, ?_⟩ <;> intro hq <;> subst hq
    · have hqs : hasSub (strL ("выбираю из")) s = true := by
        have := List.find?_some hf; simpa using this
      have hsub : hasSub (strL ("выбираю")) s = true := hasSub_trans (by decide) hqs
      have hmem : (strL ("выбираю из")) ∈ clickPhrases := by
        have hf2 : (clickPhrases ++
            [strL ("ввожу"), strL ("устанавливаю"), strL ("задаю"), strL ("заполняю"),
             strL ("выбираю из"), strL ("выбираю по"), strL ("выбираю точное"),
             strL ("проверяю"), strL ("сравниваю"), strL ("убеждаюсь"), strL ("жду"),
             strL ("открываю"), strL ("перехожу"), strL ("закрываю"),
             strL ("активизирую")]).find? (fun a => hasSub a s) = some (strL ("выбираю из")) := by
          rw [← actionPhrases_decomp]; exact hf
        exact find?_first_in_head hf2 ⟨strL ("выбираю"), by decide, by simpa using hsub⟩
      revert hmem; decide
    · have hqs : hasSub (strL ("выбираю по")) s = true := by
        have := List.find?_some hf; simpa using this
      have hsub : hasSub (strL ("выбираю")) s = true := hasSub_trans (by decide) hqs
      have hmem : (strL ("выбираю по")) ∈ clickPhrases := by
        have hf2 : (clickPhrases ++
            [strL ("ввожу"), strL ("устанавливаю"), strL ("задаю"), strL ("заполняю"),
             strL ("выбираю из"), strL ("выбираю по"), strL ("выбираю точное"),
             strL ("проверяю"), strL ("сравниваю"), strL ("убеждаюсь"), strL ("жду"),
             strL ("открываю"), strL ("перехожу"), strL ("закрываю"),
             strL ("активизирую")]).find? (fun a => hasSub a s) = some (strL ("выбираю по")) := by
          rw [← actionPhrases_decomp]; exact hf
        exact find?_first_in_head hf2 ⟨strL ("выбираю"), by decide, by simpa using hsub⟩
      revert hmem; decide
    · have hqs : hasSub (strL ("выбираю точное")) s = true := by
        have := List.find?_some hf; simpa using this
      have hsub : hasSub (strL ("выбираю")) s = true := hasSub_trans (by decide) hqs
      have hmem : (strL ("выбираю точное")) ∈ clickPhrases := by
        have hf2 : (clickPhrases ++
            [strL ("ввожу"), strL ("устанавливаю"), strL ("задаю"), strL ("заполняю"),
             strL ("выбираю из"), strL ("выбираю по"), strL ("выбираю точное"),
             strL ("проверяю"), strL ("сравниваю"), strL ("убеждаюсь"), strL ("жду"),
             strL ("открываю"), strL ("перехожу"), strL ("закрываю"),
             strL ("активизирую")]).find? (fun a => hasSub a s) = some (strL ("выбираю точное")) := by
          rw [← actionPhrases_decomp]; exact hf
        exact find?_first_in_head hf2 ⟨strL ("выбираю"), by decide, by simpa using hsub⟩
      revert hmem; decide
  | none =>
    cases hsp : splitWS s with
    | nil => refine ⟨?_, ?_, ?_⟩ <;> decide
    | cons w ws =>
      simp only []
      by_cases hst : w ∈ stopWords
      · rw [if_pos hst]
        refine ⟨?_, ?_, ?_⟩ <;> decide
      · rw [if_neg hst]
        have hns : ∀ c ∈ w, isSpaceCh c = false := by
          intro c hc
          exact splitWS_no_space s w (hsp ▸ List.mem_cons_self w ws) c hc
        refine ⟨?_, ?_, ?_⟩ <;> intro hq <;>
          exact absurd (hns ' ' (by rw [hq]; decide)) (by decide)

/-- Witness for claim C10: on a concrete step containing a selection
trigger, the extracted action is the click-category word, not the
selection phrase. -/
theorem c10_selection_actions_unreachable_witness :
    extract_action (strL ("выбираю из списка")) ≠ strL ("выбираю из") ∧
    extract_action (strL ("выбираю из списка")) = strL ("выбираю") :=
  ⟨(c10_selection_actions_unreachable (strL ("выбираю из списка"))).1, by decide⟩

lemma dictLookup_cons {β : Type} (p : List Char × β) (rest : List (List Char × β))
    (n : List Char) :
    dictLookup (p :: rest) n = if p.1 = n then some p.2 else dictLookup rest n := by
  by_cases h : p.1 = n <;> simp [dictLookup, List.find?, h]

lemma dictLookup_map_update_self {β : Type} (k : List Char) (v : β) :
    ∀ (m : List (List Char × β)), m.any (fun p => decide (p.1 = k)) = true →
      dictLookup (m.map (fun p => if p.1 = k then (k, v) else p)) k = some v := by
  intro m
  induction m with
  | nil => intro h; simp at h
  | cons p rest ih =>
    intro hany
    by_cases hp : p.1 = k
    · rw [List.map_cons, if_pos hp, dictLookup_cons, if_pos rfl]
    · rw [List.map_cons, if_neg hp, dictLookup_cons, if_neg hp]
      apply ih
      simp only [List.any_cons, Bool.or_eq_true, decide_eq_true_eq] at hany
      rcases hany with h | h
      · exact absurd h hp
      · exact h

lemma dictLookup_map_update_ne {β : Type} (k : List Char) (v : β) (n : List Char)
    (hn : ¬ n = k) :
    ∀ (m : List (List Char × β)),
      dictLookup (m.map (fun p => if p.1 = k then (k, v) else p)) n = dictLookup m n := by
  intro m
  induction m with
  | nil => rfl
  | cons p rest ih =>
    by_cases hp : p.1 = k
    · rw [List.map_cons, if_pos hp, dictLookup_cons, dictLookup_cons,
        if_neg (show ¬ ((k, v).1 = n) from fun h => hn h.symm),
        if_neg (show ¬ (p.1 = n) from fun h => hn (h.symm.trans hp)), ih]
    · rw [List.map_cons, if_neg hp, dictLookup_cons, dictLookup_cons, ih]

lemma find?_eq_none_of_not_any {β : Type} (m : List (List Char × β)) (k : List Char)
    (hany : ¬ m.any (fun p => decide (p.1 = k)) = true) :
    m.find? (fun p => decide (p.1 = k)) = none := by
  rw [List.find?_eq_none]
  intro p hp hcontra
  exact hany (List.any_eq_true.mpr ⟨p, hp, hcontra⟩)

lemma dictLookup_insert {β : Type} (m : List (List Char × β)) (k : List Char) (v : β)
    (n : List Char) :
    dictLookup (dictInsert m k v) n = if n = k then some v else dictLookup m n := by
  unfold dictInsert
  by_cases hany : m.any (fun p => decide (p.1 = k)) = true
  · rw [if_pos hany]
    by_cases hn : n = k
    · rw [if_pos hn, hn]
      exact dictLookup_map_update_self k v m hany
    · rw [if_neg hn]
      exact dictLookup_map_update_ne k v n hn m
  · rw [if_neg hany]
    unfold dictLookup
    rw [List.find?_append]
    by_cases hn : n = k
    · rw [if_pos hn, hn, find?_eq_none_of_not_any m k hany]
      simp [List.find?]
    · rw [if_neg hn]
      cases hfind : m.find? (fun p => decide (p.1 = n)) with
      | some pr => simp [hfind]
      | none =>
        have hkn : decide (k = n) = false := by
          simp only [decide_eq_false_iff_not]
          exact fun h => hn h.symm
        simp [hfind, List.find?, hkn]

lemma getLast?_cons_or {α : Type} (a : α) (l : List α) :
    (a :: l).getLast? = l.getLast?.or (some a) := by
  cases l with
  | nil => rfl
  | cons b t =>
    rw [List.getLast?_cons_cons]
    cases h : (b :: t).getLast? with
    | none => simp at h
    | some x => rfl

lemma dictLookup_foldl_insert {α : Type} (f : α → List Char) :
    ∀ (l : List α) (m : List (List Char × α)) (n : List Char),
      dictLookup (l.foldl (fun m x => dictInsert m (f x) x) m) n =
        ((l.filter (fun x => decide (f x = n))).getLast?).or (dictLookup m n) := by
  intro l
  induction l with
  | nil => intro m n; simp
  | cons x xs ih =>
    intro m n
    rw [List.foldl_cons, ih, dictLookup_insert]
    by_cases hfx : f x = n
    · rw [if_pos hfx.symm]
      have hfil : (x :: xs).filter (fun x => decide (f x = n)) =
          x :: xs.filter (fun x => decide (f x = n)) := by
        simp [List.filter_cons, hfx]
      rw [hfil, getLast?_cons_or]
      cases (xs.filter (fun x => decide (f x = n))).getLast? <;> rfl
    · rw [if_neg (fun h => hfx h.symm)]
      have hfil : (x :: xs).filter (fun x => decide (f x = n)) =
          xs.filter (fun x => decide (f x = n)) := by
        simp [List.filter_cons, hfx]
      rw [hfil]

lemma dictInsert_mem_prop {β : Type} (P : List Char × β → Prop) (m : List (List Char × β))
    (k : List Char) (v : β) (hm : ∀ p ∈ m, P p) (hkv : P (k, v)) :
    ∀ p ∈ dictInsert m k v, P p := by
  unfold dictInsert
  by_cases hany : m.any (fun p => decide (p.1 = k)) = true
  · rw [if_pos hany]
    intro p hp
    obtain ⟨q, hq, hqe⟩ := List.mem_map.mp hp
    by_cases h : q.1 = k
    · rw [if_pos h] at hqe; rw [← hqe]; exact hkv
    · rw [if_neg h] at hqe; rw [← hqe]; exact hm q hq
  · rw [if_neg hany]
    intro p hp
    rcases List.mem_append.mp hp with h | h
    · exact hm p h
    · rw [List.mem_singleton.mp h]; exact hkv

lemma steps_normalized_mem_prop :
    ∀ (steps : List (List Char)), ∀ p ∈ steps_normalized steps, normalize_step p.2 = p.1 := by
  intro steps
  unfold steps_normalized
  suffices h : ∀ (l : List (List Char)) (m : List (List Char × List Char)),
      (∀ p ∈ m, normalize_step p.2 = p.1) →
      ∀ p ∈ l.foldl (fun m st => dictInsert m (normalize_step st) st) m,
        normalize_step p.2 = p.1 by
    exact h steps [] (by simp)
  intro l
  induction l with
  | nil => intro m hm; simpa using hm
  | cons x xs ih =>
    intro m hm
    rw [List.foldl_cons]
    exact ih _ (dictInsert_mem_prop _ m (normalize_step x) x hm rfl)

lemma map_fst_update {β : Type} (k : List Char) (v : β) :
    ∀ (m : List (List Char × β)),
      (m.map (fun p => if p.1 = k then (k, v) else p)).map Prod.fst = m.map Prod.fst := by
  intro m
  induction m with
  | nil => rfl
  | cons p rest ih =>
    by_cases hp : p.1 = k
    · simp only [List.map_cons, if_pos hp, ih]
      rw [hp]
    · simp only [List.map_cons, if_neg hp, ih]

lemma dictInsert_keys {β : Type} (m : List (List Char × β)) (k : List Char) (v : β) :
    (dictInsert m k v).map Prod.fst =
      if m.any (fun p => decide (p.1 = k)) then m.map Prod.fst
      else m.map Prod.fst ++ [k] := by
  unfold dictInsert
  by_cases hany : m.any (fun p => decide (p.1 = k)) = true
  · rw [if_pos hany, if_pos hany, map_fst_update]
  · rw [if_neg hany, if_neg hany]
    simp

lemma dictInsert_keys_nodup {β : Type} (m : List (List Char × β)) (k : List Char) (v : β)
    (h : (m.map Prod.fst).Nodup) : ((dictInsert m k v).map Prod.fst).Nodup := by
  rw [dictInsert_keys]
  by_cases hany : m.any (fun p => decide (p.1 = k)) = true
  · rwa [if_pos hany]
  · rw [if_neg hany]
    have hf : m.any (fun p => decide (p.1 = k)) = false := by
      rw [← Bool.not_eq_true]; exact hany
    have hnotin : k ∉ m.map Prod.fst := by
      intro hk
      obtain ⟨p, hp, hpe⟩ := List.mem_map.mp hk
      have h2 := List.any_eq_false.mp hf p hp
      simp at h2
      exact h2 hpe
    rw [List.nodup_append]
    refine ⟨h, List.nodup_singleton _, ?_⟩
    intro a ha hmem
    rw [List.mem_singleton] at hmem
    exact hnotin (hmem ▸ ha)

lemma steps_normalized_keys_nodup (steps : List (List Char)) :
    ((steps_normalized steps).map Prod.fst).Nodup := by
  unfold steps_normalized
  suffices h : ∀ (l : List (List Char)) (m : List (List Char × List Char)),
      (m.map Prod.fst).Nodup →
      ((l.foldl (fun m st => dictInsert m (normalize_step st) st) m).map Prod.fst).Nodup by
    exact h steps [] (by simp)
  intro l
  induction l with
  | nil => intro m hm; simpa using hm
  | cons x xs ih =>
    intro m hm
    rw [List.foldl_cons]
    exact ih _ (dictInsert_keys_nodup m (normalize_step x) x hm)

lemma dictLookup_of_mem_nodup {β : Type} :
    ∀ (m : List (List Char × β)), ((m.map Prod.fst).Nodup) →
      ∀ (k : List Char) (v : β), (k, v) ∈ m → dictLookup m k = some v := by
  intro m
  induction m with
  | nil => intro _ k v h; simp at h
  | cons p rest ih =>
    intro hnd k v hmem
    rcases List.mem_cons.mp hmem with rfl | hrest
    · rw [dictLookup_cons, if_pos rfl]
    · have hp1 : ¬ (p.1 = k) := by
        intro h
        have hk : k ∈ rest.map Prod.fst := List.mem_map.mpr ⟨(k, v), hrest, rfl⟩
        rw [List.map_cons, List.nodup_cons] at hnd
        exact hnd.1 (h ▸ hk)
      rw [dictLookup_cons, if_neg hp1]
      exact ih (by rw [List.map_cons, List.nodup_cons] at hnd; exact hnd.2) k v hrest

lemma mem_insDescBy {α : Type} (key : α → ℚ) (x y : α) :
    ∀ (l : List α), y ∈ insDescBy key x l ↔ y = x ∨ y ∈ l := by
  intro l
  induction l with
  | nil => simp [insDescBy]
  | cons z t ih =>
    unfold insDescBy
    by_cases h : key x < key z
    · rw [if_pos h]
      simp only [List.mem_cons, ih]
      tauto
    · rw [if_neg h]
      simp

lemma mem_sortDescBy {α : Type} (key : α → ℚ) (y : α) :
    ∀ (l : List α), y ∈ sortDescBy key l ↔ y ∈ l := by
  intro l
  induction l with
  | nil => simp [sortDescBy]
  | cons x t ih =>
    unfold sortDescBy
    rw [mem_insDescBy, ih]
    simp

lemma foldl_if_append {α β : Type} (c : α → Prop) [DecidablePred c] (g : α → β) :
    ∀ (l : List α) (acc : List β),
      l.foldl (fun a p => if c p then a ++ [g p] else a) acc =
        acc ++ (l.filter (fun p => decide (c p))).map g := by
  intro l
  induction l with
  | nil => intro acc; simp
  | cons x xs ih =>
    intro acc
    by_cases h : c x
    · simp only [List.foldl_cons, if_pos h, ih, List.filter_cons, decide_eq_true h,
        if_pos trivial, List.map_cons, List.append_assoc, List.singleton_append]
    · simp only [List.foldl_cons, if_neg h, ih, List.filter_cons, decide_eq_false h]
      simp

lemma foldl_if_skip_append {α β : Type} (c : α → Prop) [DecidablePred c] (g : α → β) :
    ∀ (l : List α) (acc : List β),
      l.foldl (fun a p => if c p then a else a ++ [g p]) acc =
        acc ++ (l.filter (fun p => !decide (c p))).map g := by
  intro l
  induction l with
  | nil => intro acc; simp
  | cons x xs ih =>
    intro acc
    by_cases h : c x
    · simp only [List.foldl_cons, if_pos h, ih, List.filter_cons, decide_eq_true h,
        Bool.not_true]
      simp
    · simp only [List.foldl_cons, if_neg h, ih, List.filter_cons, decide_eq_false h,
        Bool.not_false, if_pos trivial, List.map_cons, List.append_assoc,
        List.singleton_append]

lemma foldl_if3_append {α β : Type} (c1 c2 : α → Bool) (c3 : α → Prop) [DecidablePred c3]
    (g : α → β) :
    ∀ (l : List α) (acc : List β),
      l.foldl (fun a p => if c1 p = true then a else if c2 p = true then a
        else if c3 p then a ++ [g p] else a) acc =
        acc ++ (l.filter (fun p => !c1 p && (!c2 p && decide (c3 p)))).map g := by
  intro l
  induction l with
  | nil => intro acc; simp
  | cons x xs ih =>
    intro acc
    by_cases h1 : c1 x = true
    · simp [h1, ih, List.filter_cons]
    · by_cases h2 : c2 x = true
      · simp [h1, h2, ih, List.filter_cons]
      · by_cases h3 : c3 x
        · simp [h1, h2, h3, ih, List.filter_cons]
        · simp [h1, h2, h3, ih, List.filter_cons]

/-- Claim C9: the canonical map holds, for every canonical form, the
template loaded last (last write wins); a template that the map no
longer holds under its own canonical form (a shadowed collision victim)
is returned neither as the exact match nor among the validator's
similar-step suggestions, whatever the query, because both paths read
only the deduplicated canonical map. -/
theorem c9_last_write_wins (steps : List (List Char)) :
    (∀ n : List Char, dictLookup (steps_normalized steps) n =
      (steps.filter (fun st => decide (normalize_step st = n))).getLast?) ∧
    (∀ t ∈ steps, dictLookup (steps_normalized steps) (normalize_step t) ≠ some t →
      ∀ q : List Char,
        ((find_step steps q).1 = true → (find_step steps q).2.1 ≠ t) ∧
        t ∉ (find_step steps q).2.2) := by
  constructor
  · intro n
    unfold steps_normalized
    rw [dictLookup_foldl_insert]
    simp [dictLookup]
  · intro t ht hshadow q
    have hinv := steps_normalized_mem_prop steps
    have hnd := steps_normalized_keys_nodup steps
    simp only [find_step]
    cases hl : dictLookup (steps_normalized steps) (normalize_step q) with
    | some orig =>
      refine ⟨?_, by simp⟩
      intro _ heq
      have heq2 : orig = t := heq
      apply hshadow
      obtain ⟨pr, hfind, hsnd⟩ := Option.map_eq_some'.mp hl
      have hpr : pr ∈ steps_normalized steps := List.mem_of_find?_eq_some hfind
      have hkey : pr.1 = normalize_step q := by
        have := List.find?_some hfind
        simpa using this
      have hnorm : normalize_step pr.2 = pr.1 := hinv pr hpr
      rw [heq2] at hsnd
      rw [hsnd] at hnorm
      rw [hnorm, hkey, hl, heq2]
    | none =>
      refine ⟨by simp, ?_⟩
      intro hmem
      simp only [List.mem_map] at hmem
      obtain ⟨pr, hprtake, hfst⟩ := hmem
      have hsort : pr ∈ sortDescBy (fun pr => pr.2)
          ((steps_normalized steps).foldl (fun acc p =>
            if mkRat 7 10 < ratioQ (normalize_step q) p.1 then
              acc ++ [(p.2, ratioQ (normalize_step q) p.1)]
            else acc) []) :=
        (List.take_sublist 5 _).subset hprtake
      rw [mem_sortDescBy, foldl_if_append, List.nil_append] at hsort
      obtain ⟨p, hp, hpe⟩ := List.mem_map.mp hsort
      have hpm : p ∈ steps_normalized steps := List.mem_of_mem_filter hp
      have hval : p.2 = t := by
        have : pr.1 = p.2 := by rw [← hpe]
        rw [← this, hfst]
      have hnorm : normalize_step p.2 = p.1 := hinv p hpm
      apply hshadow
      rw [← hval, hnorm]
      have : (p.1, p.2) ∈ steps_normalized steps := by simpa using hpm
      rw [dictLookup_of_mem_nodup _ hnd p.1 p.2 this]

/-- Claim C4 (partly amended): when the query has no exact canonical
match, the validator's similar list is exactly the canonical-map
entries with raw ratio above 0.7, stably sorted descending by raw
ratio, truncated to five; the search tool keeps the entries with raw
ratio above 0.3 that pass the truthy category filters, but sorts them
by the relevance rounded to two decimals (stable ties in pool order)
and truncates to the caller's top-n. -/
theorem c4_similarity_search_pipeline (steps : List (List Char)) (q : List Char)
    (infos : List StepInfo) (query : List Char) (top_n : Nat)
    (category subcategory : Option (List Char)) :
    (dictLookup (steps_normalized steps) (normalize_step q) = none →
      (find_step steps q).2.2 =
        ((sortDescBy (fun pr => pr.2)
            (((steps_normalized steps).filter
                (fun p => decide (mkRat 7 10 < ratioQ (normalize_step q) p.1))).map
              (fun p => (p.2, ratioQ (normalize_step q) p.1)))).take 5).map Prod.fst) ∧
    search_direct infos query top_n category subcategory =
      (sortDescBy (fun r => r.relevance)
        (((search_steps_normalized infos).filter (fun p =>
            !(match category with
              | some c => !c.isEmpty && decide (p.2.category ≠ c)
              | none => false) &&
            (!(match subcategory with
              | some sc => !sc.isEmpty && decide (p.2.subcategory ≠ sc)
              | none => false) &&
            decide (mkRat 3 10 < ratioQ (normalize_step query) p.1)))).map
          (fun p => { step := p.2.step, category := p.2.category,
                      relevance := pyRound2 (ratioQ (normalize_step query) p.1),
                      subcategory := if p.2.subcategory.isEmpty then none
                        else some p.2.subcategory }))).take top_n := by
  constructor
  · intro hl
    simp only [find_step]
    rw [hl]
    simp only []
    rw [foldl_if_append, List.nil_append]
  · simp only [search_direct]
    rw [foldl_if3_append, List.nil_append]

/-- A two-entry search library whose entries tie after rounding. -/
def c4_infos : List StepInfo :=
  [{ step := strL ("aaaaaabbbb"), category := strL ("UI"), subcategory := [],
     description := [] },
   { step := strL ("aaaaabb"), category := strL ("UI"), subcategory := [],
     description := [] }]

set_option maxRecDepth 10000 in
/-- Counterexample to claim C4 as stated: on this library and query the
search tool returns the two candidates in pool order because their
relevances both round to 0.71, although the raw similarity ratio of the
first is strictly smaller than that of the second — the returned list
is not ordered by descending raw ratio. -/
theorem c4_counterexample :
    (search_direct c4_infos (strL ("aaaaaaa")) 10 none none).map (fun r => r.step) =
      [strL ("aaaaaabbbb"), strL ("aaaaabb")] ∧
    ratioQ (normalize_step (strL ("aaaaaaa"))) (normalize_step (strL ("aaaaaabbbb"))) <
      ratioQ (normalize_step (strL ("aaaaaaa"))) (normalize_step (strL ("aaaaabb"))) ∧
    (search_direct c4_infos (strL ("aaaaaaa")) 10 none none).map (fun r => r.relevance) =
      [mkRat 71 100, mkRat 71 100] := by
  have h1 : normalize_step (strL ("aaaaaaa")) = strL ("aaaaaaa") := by
    simp [normalize_step, pyStrip, firstLine, lstrip, rstrip, stripKeywordL, gherkinKeywords,
      kwMatch, toLowerL, toLowerCh, stripColonL, replQuoted, unescapeQ, replVars, replNums,
      replNumsAux, collapseWS, strL, isSpaceCh, isDigitCh, isWordCh, List.find?,
      dquoteCh, squoteCh, bslashCh, lbraceCh, rbraceCh, quotePlaceholder, varPlaceholder]
  have h2 : normalize_step (strL ("aaaaaabbbb")) = strL ("aaaaaabbbb") := by
    simp [normalize_step, pyStrip, firstLine, lstrip, rstrip, stripKeywordL, gherkinKeywords,
      kwMatch, toLowerL, toLowerCh, stripColonL, replQuoted, unescapeQ, replVars, replNums,
      replNumsAux, collapseWS, strL, isSpaceCh, isDigitCh, isWordCh, List.find?,
      dquoteCh, squoteCh, bslashCh, lbraceCh, rbraceCh, quotePlaceholder, varPlaceholder]
  have h3 : normalize_step (strL ("aaaaabb")) = strL ("aaaaabb") := by
    simp [normalize_step, pyStrip, firstLine, lstrip, rstrip, stripKeywordL, gherkinKeywords,
      kwMatch, toLowerL, toLowerCh, stripColonL, replQuoted, unescapeQ, replVars, replNums,
      replNumsAux, collapseWS, strL, isSpaceCh, isDigitCh, isWordCh, List.find?,
      dquoteCh, squoteCh, bslashCh, lbraceCh, rbraceCh, quotePlaceholder, varPlaceholder]
  refine ⟨?_, ?_, ?_⟩
  · simp only [search_direct, search_steps_normalized, c4_infos, List.foldl_cons,
      List.foldl_nil, h1, h2, h3]
    decide
  · rw [h1, h2, h3]
    decide
  · simp only [search_direct, search_steps_normalized, c4_infos, List.foldl_cons,
      List.foldl_nil, h1, h2, h3]
    decide

/-- Claim C7 (amended): the validator's loader accepts both source
shapes — the sequence shape through the title field of every record and
the mapping shape through the per-category step field — and any read or
parse failure is passed through fatally with no partial library; the
search tool's loader accepts only the sequence shape: a mapping is a
fatal format error, records with an empty title are skipped, an empty
resulting library is itself fatal, and otherwise the surviving records
are returned in order. -/
theorem c7_library_loading (items : List PyObj)
    (entries : List (List Char × List PyObj)) (e : LoadErr) :
    load_library_validator (Except.ok (PyData.plist items)) =
      Except.ok (items.map (fun o => pyGet o (strL ("ИмяШага")))) ∧
    load_library_validator (Except.ok (PyData.pdict entries)) =
      Except.ok (entries.foldl
        (fun acc en => acc ++ en.2.map (fun o => pyGet o (strL ("шаг")))) []) ∧
    load_library_validator (Except.error e) = Except.error e ∧
    load_library_search (Except.error e) = Except.error e ∧
    load_library_search (Except.ok (PyData.pdict entries)) =
      Except.error LoadErr.wrongShape ∧
    ((∀ o ∈ items, pyGet o (strL ("ИмяШага")) = []) →
      load_library_search (Except.ok (PyData.plist items)) =
        Except.error LoadErr.emptyLibrary) ∧
    ((∃ o ∈ items, pyGet o (strL ("ИмяШага")) ≠ []) →
      load_library_search (Except.ok (PyData.plist items)) =
        Except.ok ((items.filter
          (fun o => !decide (pyGet o (strL ("ИмяШага")) = []))).map mkStepInfo)) := by
  refine ⟨rfl, rfl, rfl, rfl, rfl, ?_, ?_⟩
  · intro hall
    simp only [load_library_search]
    rw [foldl_if_skip_append, List.nil_append]
    have hfil : items.filter (fun o => !decide (pyGet o (strL ("ИмяШага")) = [])) = [] := by
      rw [List.filter_eq_nil_iff]
      intro o ho
      simp [hall o ho]
    rw [hfil]
    rfl
  · rintro ⟨o, ho, hne⟩
    simp only [load_library_search]
    rw [foldl_if_skip_append, List.nil_append]
    have hmem : o ∈ items.filter (fun x => !decide (pyGet x (strL ("ИмяШага")) = [])) :=
      List.mem_filter.mpr ⟨ho, by simp [hne]⟩
    cases hfil : items.filter (fun x => !decide (pyGet x (strL ("ИмяШага")) = [])) with
    | nil => rw [hfil] at hmem; simp at hmem
    | cons a l => rfl

/-- Counterexample to claim C7 as stated: a mapping-shaped library that
the validator's loader accepts is a fatal format error for the search
tool's loader. -/
theorem c7_counterexample :
    load_library_search (Except.ok (PyData.pdict
      [(strL ("UI"), [⟨[(strL ("шаг"), strL ("нажимаю"))]⟩])])) =
      Except.error LoadErr.wrongShape ∧
    load_library_validator (Except.ok (PyData.pdict
      [(strL ("UI"), [⟨[(strL ("шаг"), strL ("нажимаю"))]⟩])])) =
      Except.ok [strL ("нажимаю")] := by
  exact ⟨rfl, rfl⟩

lemma foldl_inv_mem {α β : Type} (f : β → α → β) (P : β → Prop) :
    ∀ (l : List α) (s0 : β), (∀ x ∈ l, ∀ s, P s → P (f s x)) → P s0 → P (l.foldl f s0) := by
  intro l
  induction l with
  | nil => intro s0 _ h0; simpa using h0
  | cons x xs ih =>
    intro s0 hstep h0
    rw [List.foldl_cons]
    exact ih _ (fun y hy s hs => hstep y (List.mem_cons_of_mem x hy) s hs)
      (hstep x (List.mem_cons_self x xs) s0 h0)

lemma foldl_rem_inv {α β : Type} (f : β → α → β) (P : β → List α → Prop) :
    ∀ (l : List α) (s0 : β), (∀ x rest s, P s (x :: rest) → P (f s x) rest) →
      P s0 l → P (l.foldl f s0) [] := by
  intro l
  induction l with
  | nil => intro s0 _ h0; simpa using h0
  | cons x xs ih =>
    intro s0 hstep h0
    rw [List.foldl_cons]
    exact ih _ hstep (hstep x xs s0 h0)

lemma getD_eq_some_of_lt {l : List Char} {x : Nat} (d : Char) (h : x < l.length) :
    l.get? x = some (l.getD x d) := by
  rw [List.getD_eq_getD_get?]
  cases hg : l.get? x with
  | none => rw [List.get?_eq_none] at hg; omega
  | some v => rfl

lemma posOf_mem {b : List Char} {c : Char} {j : Nat} :
    j ∈ posOf b c ↔ j < b.length ∧ b.get? j = some c := by
  unfold posOf
  rw [List.mem_filter, List.mem_range]
  simp

lemma posOf_pairwise (b : List Char) (c : Char) : (posOf b c).Pairwise (· < ·) :=
  List.Pairwise.filter _ (List.pairwise_lt_range b.length)

lemma b2jGet_mem {b : List Char} {c : Char} {j : Nat} (h : j ∈ b2jGet b c) :
    j ∈ posOf b c := by
  unfold b2jGet at h
  split_ifs at h with hc
  · simp at h
  · exact h

lemma b2jGet_pairwise (b : List Char) (c : Char) : (b2jGet b c).Pairwise (· < ·) := by
  unfold b2jGet
  split_ifs with hc
  · exact List.Pairwise.nil
  · exact posOf_pairwise b c

lemma takeWhile_eq_filter_of_sorted (hi : Nat) :
    ∀ l : List Nat, l.Pairwise (· < ·) →
      l.takeWhile (fun j => decide (j < hi)) = l.filter (fun j => decide (j < hi)) := by
  intro l
  induction l with
  | nil => simp
  | cons x xs ih =>
    intro hp
    rw [List.pairwise_cons] at hp
    rw [List.takeWhile_cons, List.filter_cons]
    by_cases hx : x < hi
    · simp [hx, ih hp.2]
    · have hnil : xs.filter (fun j => decide (j < hi)) = [] := by
        rw [List.filter_eq_nil_iff]
        intro y hy
        have := hp.1 y hy
        simp only [decide_eq_true_eq]
        omega
      simp [hx, hnil]

lemma rowJs_mem {b : List Char} {blo bhi : Nat} {c : Char} {j : Nat} :
    j ∈ rowJs b blo bhi c ↔ j ∈ b2jGet b c ∧ blo ≤ j ∧ j < bhi := by
  unfold rowJs
  rw [takeWhile_eq_filter_of_sorted bhi _
    (List.Pairwise.filter _ (b2jGet_pairwise b c)), List.mem_filter, List.mem_filter]
  simp [and_assoc]

lemma rowJs_pairwise (b : List Char) (blo bhi : Nat) (c : Char) :
    (rowJs b blo bhi c).Pairwise (· < ·) := by
  unfold rowJs
  exact List.Pairwise.sublist (List.takeWhile_sublist _)
    (List.Pairwise.filter _ (b2jGet_pairwise b c))

/-- The contiguous slice `a[lo:hi]` of a character list. -/
def sliceL (a : List Char) (lo hi : Nat) : List Char := (a.drop lo).take (hi - lo)

lemma sliceL_empty (a : List Char) {lo hi : Nat} (h : hi ≤ lo) : sliceL a lo hi = [] := by
  unfold sliceL
  rw [Nat.sub_eq_zero_of_le h, List.take_zero]

lemma sliceL_full (a : List Char) : sliceL a 0 a.length = a := by
  unfold sliceL
  rw [List.drop_zero, Nat.sub_zero, List.take_length]

lemma sliceL_split (a : List Char) {lo m hi : Nat} (h1 : lo ≤ m) (h2 : m ≤ hi) :
    sliceL a lo hi = sliceL a lo m ++ sliceL a m hi := by
  unfold sliceL
  have he : hi - lo = (m - lo) + (hi - m) := by omega
  rw [he, List.take_add]
  have h3 : List.drop (m - lo) (List.drop lo a) = List.drop m a := by
    rw [List.drop_drop]
    congr 1
    omega
  rw [h3]

lemma sliceL_length (a : List Char) {lo hi : Nat} (h : hi ≤ a.length) :
    (sliceL a lo hi).length = hi - lo := by
  unfold sliceL
  rw [List.length_take, List.length_drop]
  omega

lemma sliceL_get? (a : List Char) {lo hi : Nat} (t : Nat) (h : hi ≤ a.length)
    (ht : t < hi - lo) : (sliceL a lo hi).get? t = a.get? (lo + t) := by
  unfold sliceL
  rw [List.get?_take ht, List.get?_drop]

lemma sliceL_eq_of_get? {a b : List Char} {lo hi lo' hi' : Nat} (ha : hi ≤ a.length)
    (hb : hi' ≤ b.length) (hlen : hi - lo = hi' - lo')
    (h : ∀ t, t < hi - lo → a.get? (lo + t) = b.get? (lo' + t)) :
    sliceL a lo hi = sliceL b lo' hi' := by
  apply List.ext_get?
  intro t
  by_cases ht : t < hi - lo
  · rw [sliceL_get? a t ha ht, sliceL_get? b t hb (by omega), h t ht]
  · have h1 : (sliceL a lo hi).get? t = none := by
      rw [List.get?_eq_none, sliceL_length a ha]; omega
    have h2 : (sliceL b lo' hi').get? t = none := by
      rw [List.get?_eq_none, sliceL_length b hb]; omega
    rw [h1, h2]

/-- Wellformedness of a candidate block: it lies inside the ranges and
certifies a pointwise equality of the two slices it covers. -/
def blockWF (a b : List Char) (alo ahi blo bhi : Nat) (m : Nat × Nat × Nat) : Prop :=
  alo ≤ m.1 ∧ m.1 + m.2.2 ≤ ahi ∧ blo ≤ m.2.1 ∧ m.2.1 + m.2.2 ≤ bhi ∧
  ∀ t, t < m.2.2 → a.get? (m.1 + t) = b.get? (m.2.1 + t)

/-- The row dictionary of the dynamic program after processing row `r`
of `a`: every entry is a common run ending at `(r, j)` staying inside
the ranges (`alo + t ≤ r`, `blo + t ≤ j`). -/
def dictWF (a b : List Char) (alo blo : Nat) (r : Nat) (d : Nat → Nat) : Prop :=
  ∀ j t, t < d j → b.get? (j - t) = a.get? (r - t) ∧ alo + t ≤ r ∧ blo + t ≤ j

lemma procJ_wf (a b : List Char) (alo ahi blo bhi : Nat) (r : Nat) (old : Nat → Nat)
    (ha : ahi ≤ a.length) (hb : bhi ≤ b.length) (hr1 : alo ≤ r) (hr2 : r < ahi)
    (hold : ∀ j t, t < old j → b.get? (j - t) = a.get? (r - 1 - t) ∧
      alo + t + 1 ≤ r ∧ blo + t ≤ j)
    (j : Nat) (hj : j ∈ rowJs b blo bhi (a.getD r ' '))
    (s : FlmState)
    (hblock : blockWF a b alo ahi blo bhi (s.bi, s.bj, s.bs))
    (hdict : dictWF a b alo blo r s.j2l) :
    blockWF a b alo ahi blo bhi ((procJ r old s j).bi, (procJ r old s j).bj,
      (procJ r old s j).bs) ∧ dictWF a b alo blo r (procJ r old s j).j2l := by
  obtain ⟨hjb, hjlo, hjhi⟩ := rowJs_mem.mp hj
  have hjpos := posOf_mem.mp (b2jGet_mem hjb)
  have hget_r : a.get? r = some (a.getD r ' ') := getD_eq_some_of_lt ' ' (by omega)
  have hrun : ∀ t, t < (if j = 0 then 0 else old (j - 1)) + 1 →
      b.get? (j - t) = a.get? (r - t) ∧ alo + t ≤ r ∧ blo + t ≤ j := by
    intro t ht
    cases t with
    | zero =>
      refine ⟨?_, by omega, by omega⟩
      simp only [Nat.sub_zero]
      rw [hjpos.2, hget_r]
    | succ u =>
      by_cases hj0 : j = 0
      · rw [if_pos hj0] at ht; omega
      · rw [if_neg hj0] at ht
        obtain ⟨he, h1, h2⟩ := hold (j - 1) u (by omega)
        have e1 : j - 1 - u = j - (u + 1) := by omega
        have e2 : r - 1 - u = r - (u + 1) := by omega
        rw [e1, e2] at he
        exact ⟨he, by omega, by omega⟩
  constructor
  · unfold procJ
    by_cases hup : s.bs < (if j = 0 then 0 else old (j - 1)) + 1
    · rw [if_pos hup]
      set k := (if j = 0 then 0 else old (j - 1)) + 1 with hk
      obtain ⟨hrk, hrlo, hrlo2⟩ := hrun (k - 1) (by omega)
      refine ⟨by simp; omega, by simp; omega, by simp; omega, by simp; omega, ?_⟩
      intro t ht
      simp only at ht ⊢
      obtain ⟨he, h1, h2⟩ := hrun (k - 1 - t) (by omega)
      have e1 : r + 1 - k + t = r - (k - 1 - t) := by omega
      have e2 : j + 1 - k + t = j - (k - 1 - t) := by omega
      rw [e1, e2, he]
    · rw [if_neg hup]
      exact hblock
  · unfold procJ
    by_cases hup : s.bs < (if j = 0 then 0 else old (j - 1)) + 1
    · rw [if_pos hup]
      intro x t ht
      simp only at ht
      by_cases hx : x = j
      · rw [if_pos hx] at ht
        subst hx
        exact hrun t ht
      · rw [if_neg hx] at ht
        exact hdict x t ht
    · rw [if_neg hup]
      intro x t ht
      simp only at ht
      by_cases hx : x = j
      · rw [if_pos hx] at ht
        subst hx
        exact hrun t ht
      · rw [if_neg hx] at ht
        exact hdict x t ht

lemma procRow_wf (a b : List Char) (alo ahi blo bhi : Nat) (r : Nat) (st : FlmState)
    (ha : ahi ≤ a.length) (hb : bhi ≤ b.length) (hr1 : alo ≤ r) (hr2 : r < ahi)
    (hblock : blockWF a b alo ahi blo bhi (st.bi, st.bj, st.bs))
    (hold : ∀ j t, t < st.j2l j → b.get? (j - t) = a.get? (r - 1 - t) ∧
      alo + t + 1 ≤ r ∧ blo + t ≤ j) :
    blockWF a b alo ahi blo bhi ((procRow a b blo bhi st r).bi,
      (procRow a b blo bhi st r).bj, (procRow a b blo bhi st r).bs) ∧
    (∀ j t, t < (procRow a b blo bhi st r).j2l j → b.get? (j - t) = a.get? (r + 1 - 1 - t) ∧
      alo + t + 1 ≤ r + 1 ∧ blo + t ≤ j) := by
  unfold procRow
  have h := foldl_inv_mem (procJ r st.j2l)
    (fun s => blockWF a b alo ahi blo bhi (s.bi, s.bj, s.bs) ∧ dictWF a b alo blo r s.j2l)
    (rowJs b blo bhi (a.getD r ' ')) ⟨fun _ => 0, st.bi, st.bj, st.bs⟩
    (fun j hj s hs => procJ_wf a b alo ahi blo bhi r st.j2l ha hb hr1 hr2 hold j hj s
      hs.1 hs.2)
    ⟨hblock, fun j t ht => absurd ht (by simp)⟩
  refine ⟨h.1, ?_⟩
  intro j t ht
  obtain ⟨he, h1, h2⟩ := h.2 j t ht
  have e : r + 1 - 1 - t = r - t := by omega
  rw [e]
  exact ⟨he, by omega, h2⟩

lemma procRows_wf (a b : List Char) (alo ahi blo bhi : Nat)
    (ha : ahi ≤ a.length) (hb : bhi ≤ b.length) :
    ∀ (n r : Nat) (st : FlmState), alo ≤ r → r + n ≤ ahi →
      blockWF a b alo ahi blo bhi (st.bi, st.bj, st.bs) →
      (∀ j t, t < st.j2l j → b.get? (j - t) = a.get? (r - 1 - t) ∧
        alo + t + 1 ≤ r ∧ blo + t ≤ j) →
      blockWF a b alo ahi blo bhi
        (((List.range' r n).foldl (procRow a b blo bhi) st).bi,
         ((List.range' r n).foldl (procRow a b blo bhi) st).bj,
         ((List.range' r n).foldl (procRow a b blo bhi) st).bs) := by
  intro n
  induction n with
  | zero => intro r st _ _ hblock _; simpa using hblock
  | succ m ih =>
    intro r st hr1 hr2 hblock hold
    rw [List.range'_succ, List.foldl_cons]
    obtain ⟨hb2, hd2⟩ := procRow_wf a b alo ahi blo bhi r st ha hb hr1 (by omega) hblock hold
    exact ih (r + 1) _ (by omega) (by omega) hb2 hd2

lemma extendLeft_wf (a b : List Char) (alo ahi blo bhi : Nat)
    (ha : ahi ≤ a.length) (hb : bhi ≤ b.length) :
    ∀ (fuel : Nat) (m : Nat × Nat × Nat), blockWF a b alo ahi blo bhi m →
      blockWF a b alo ahi blo bhi (extendLeft a b alo blo fuel m) := by
  intro fuel
  induction fuel with
  | zero => intro m hm; simpa [extendLeft] using hm
  | succ f ih =>
    intro m hm
    obtain ⟨bi, bj, bs⟩ := m
    rw [extendLeft]
    by_cases hc : alo < bi ∧ blo < bj ∧ a.getD (bi - 1) ' ' = b.getD (bj - 1) ' '
    · rw [if_pos hc]
      apply ih
      obtain ⟨w1, w2, w3, w4, w5⟩ := hm
      simp only at w1 w2 w3 w4 w5
      refine ⟨by simp; omega, by simp; omega, by simp; omega, by simp; omega, ?_⟩
      intro t ht
      simp only at ht ⊢
      cases t with
      | zero =>
        have e1 : a.get? (bi - 1 + 0) = some (a.getD (bi - 1) ' ') := by
          simpa using getD_eq_some_of_lt ' ' (show bi - 1 < a.length by omega)
        have e2 : b.get? (bj - 1 + 0) = some (b.getD (bj - 1) ' ') := by
          simpa using getD_eq_some_of_lt ' ' (show bj - 1 < b.length by omega)
        rw [e1, e2, hc.2.2]
      | succ u =>
        have e1 : bi - 1 + (u + 1) = bi + u := by omega
        have e2 : bj - 1 + (u + 1) = bj + u := by omega
        rw [e1, e2]
        exact w5 u (by omega)
    · rw [if_neg hc]
      exact hm

lemma extendRight_wf (a b : List Char) (alo ahi blo bhi : Nat)
    (ha : ahi ≤ a.length) (hb : bhi ≤ b.length) :
    ∀ (fuel : Nat) (m : Nat × Nat × Nat), blockWF a b alo ahi blo bhi m →
      blockWF a b alo ahi blo bhi (extendRight a b ahi bhi fuel m) := by
  intro fuel
  induction fuel with
  | zero => intro m hm; simpa [extendRight] using hm
  | succ f ih =>
    intro m hm
    obtain ⟨bi, bj, bs⟩ := m
    rw [extendRight]
    by_cases hc : bi + bs < ahi ∧ bj + bs < bhi ∧ a.getD (bi + bs) ' ' = b.getD (bj + bs) ' '
    · rw [if_pos hc]
      apply ih
      obtain ⟨w1, w2, w3, w4, w5⟩ := hm
      simp only at w1 w2 w3 w4 w5
      refine ⟨by simpa using w1, by simp; omega, by simpa using w3, by simp; omega, ?_⟩
      intro t ht
      simp only at ht ⊢
      by_cases htb : t < bs
      · exact w5 t htb
      · have e : t = bs := by omega
        rw [e]
        have e1 : a.get? (bi + bs) = some (a.getD (bi + bs) ' ') :=
          getD_eq_some_of_lt ' ' (by omega)
        have e2 : b.get? (bj + bs) = some (b.getD (bj + bs) ' ') :=
          getD_eq_some_of_lt ' ' (by omega)
        rw [e1, e2, hc.2.2]
    · rw [if_neg hc]
      exact hm

lemma flm_wf (a b : List Char) (alo ahi blo bhi : Nat) (h1 : alo ≤ ahi)
    (ha : ahi ≤ a.length) (h2 : blo ≤ bhi) (hb : bhi ≤ b.length) :
    blockWF a b alo ahi blo bhi (flm a b alo ahi blo bhi) := by
  unfold flm
  apply extendRight_wf a b alo ahi blo bhi ha hb
  apply extendLeft_wf a b alo ahi blo bhi ha hb
  exact procRows_wf a b alo ahi blo bhi ha hb (ahi - alo) alo
    ⟨fun _ => 0, alo, blo, 0⟩ (le_refl alo) (by omega)
    ⟨le_refl alo, by simpa using h1, le_refl blo, by simpa using h2,
      fun t ht => absurd ht (by simp)⟩
    (fun j t ht => absurd ht (by simp))

lemma matchTotalF_le (a b : List Char) :
    ∀ (fuel alo ahi blo bhi : Nat), alo ≤ ahi → ahi ≤ a.length → blo ≤ bhi →
      bhi ≤ b.length →
      matchTotalF a b fuel alo ahi blo bhi ≤ min (ahi - alo) (bhi - blo) := by
  intro fuel
  induction fuel with
  | zero => intro alo ahi blo bhi _ _ _ _; simp [matchTotalF]
  | succ f ih =>
    intro alo ahi blo bhi h1 ha h2 hb
    obtain ⟨w1, w2, w3, w4, _⟩ := flm_wf a b alo ahi blo bhi h1 ha h2 hb
    rw [matchTotalF]
    by_cases hz : (flm a b alo ahi blo bhi).2.2 = 0
    · rw [if_pos hz]; omega
    · rw [if_neg hz]
      have r1 := ih alo (flm a b alo ahi blo bhi).1 blo (flm a b alo ahi blo bhi).2.1
        (by omega) (by omega) (by omega) (by omega)
      have r2 := ih ((flm a b alo ahi blo bhi).1 + (flm a b alo ahi blo bhi).2.2) ahi
        ((flm a b alo ahi blo bhi).2.1 + (flm a b alo ahi blo bhi).2.2) bhi
        (by omega) (by omega) (by omega) (by omega)
      omega

lemma matchTotal_le (a b : List Char) : matchTotal a b ≤ min a.length b.length := by
  unfold matchTotal
  simpa using matchTotalF_le a b (a.length + b.length + 1) 0 a.length 0 b.length
    (by omega) (le_refl _) (by omega) (le_refl _)

lemma matchTotalF_full (a b : List Char) :
    ∀ (fuel alo ahi blo bhi : Nat), alo ≤ ahi → ahi ≤ a.length → blo ≤ bhi →
      bhi ≤ b.length →
      matchTotalF a b fuel alo ahi blo bhi = ahi - alo →
      matchTotalF a b fuel alo ahi blo bhi = bhi - blo →
      sliceL a alo ahi = sliceL b blo bhi := by
  intro fuel
  induction fuel with
  | zero =>
    intro alo ahi blo bhi h1 _ h2 _ e1 e2
    rw [matchTotalF] at e1 e2
    rw [sliceL_empty a (by omega), sliceL_empty b (by omega)]
  | succ f ih =>
    intro alo ahi blo bhi h1 ha h2 hb e1 e2
    obtain ⟨w1, w2, w3, w4, w5⟩ := flm_wf a b alo ahi blo bhi h1 ha h2 hb
    rw [matchTotalF] at e1 e2
    by_cases hz : (flm a b alo ahi blo bhi).2.2 = 0
    · rw [if_pos hz] at e1 e2
      rw [sliceL_empty a (by omega), sliceL_empty b (by omega)]
    · rw [if_neg hz] at e1 e2
      set m := flm a b alo ahi blo bhi with hm
      have r1 := matchTotalF_le a b f alo m.1 blo m.2.1 (by omega) (by omega) (by omega)
        (by omega)
      have r2 := matchTotalF_le a b f (m.1 + m.2.2) ahi (m.2.1 + m.2.2) bhi (by omega)
        (by omega) (by omega) (by omega)
      have hL := ih alo m.1 blo m.2.1 (by omega) (by omega) (by omega) (by omega)
        (by omega) (by omega)
      have hR := ih (m.1 + m.2.2) ahi (m.2.1 + m.2.2) bhi (by omega) (by omega) (by omega)
        (by omega) (by omega) (by omega)
      have hM : sliceL a m.1 (m.1 + m.2.2) = sliceL b m.2.1 (m.2.1 + m.2.2) := by
        apply sliceL_eq_of_get? (by omega) (by omega) (by omega)
        intro t ht
        exact w5 t (by omega)
      rw [sliceL_split a (show alo ≤ m.1 by omega) (show m.1 ≤ ahi by omega),
        sliceL_split a (show m.1 ≤ m.1 + m.2.2 by omega) (show m.1 + m.2.2 ≤ ahi by omega),
        sliceL_split b (show blo ≤ m.2.1 by omega) (show m.2.1 ≤ bhi by omega),
        sliceL_split b (show m.2.1 ≤ m.2.1 + m.2.2 by omega)
          (show m.2.1 + m.2.2 ≤ bhi by omega), hL, hM, hR]

/-- Availability of a diagonal cell in the self comparison: the
character at `j` survives the popularity filter and `j` lies inside the
range. -/
def availD (a : List Char) (lo hi j : Nat) : Bool :=
  decide (j ∈ b2jGet a (a.getD j ' ')) && (decide (lo ≤ j) && decide (j < hi))

/-- Length of the maximal available diagonal run ending at `j`. -/
def drD (a : List Char) (lo hi : Nat) : Nat → Nat
  | 0 => if availD a lo hi 0 then 1 else 0
  | j + 1 => if availD a lo hi (j + 1) then drD a lo hi j + 1 else 0

lemma drD_zero (a : List Char) (lo hi : Nat) :
    drD a lo hi 0 = if availD a lo hi 0 = true then 1 else 0 := rfl

lemma drD_succ (a : List Char) (lo hi j : Nat) :
    drD a lo hi (j + 1) =
      if availD a lo hi (j + 1) = true then drD a lo hi j + 1 else 0 := rfl

lemma dr_zero_of_not_avail {a : List Char} {lo hi j : Nat}
    (h : availD a lo hi j = false) : drD a lo hi j = 0 := by
  cases j with
  | zero => rw [drD_zero, if_neg (by simp [h])]
  | succ u => rw [drD_succ, if_neg (by simp [h])]

lemma avail_false_of_lt {a : List Char} {lo hi j : Nat} (h : j < lo) :
    availD a lo hi j = false := by
  unfold availD
  rw [decide_eq_false (by omega : ¬ lo ≤ j)]
  simp

lemma dr_chain (a : List Char) (lo hi : Nat) :
    ∀ (k j : Nat), (∀ t, t < k → availD a lo hi (j - t) = true ∧ t ≤ j) →
      k ≤ drD a lo hi j := by
  intro k
  induction k with
  | zero => intro j _; omega
  | succ u ih =>
    intro j h
    have h0 := h 0 (by omega)
    cases j with
    | zero =>
      have hu : u = 0 := by
        by_contra hne
        have := (h 1 (by omega)).2
        omega
      rw [hu, drD_zero, if_pos (by simpa using h0.1)]
    | succ v =>
      have hv : u ≤ drD a lo hi v := by
        apply ih
        intro t ht
        obtain ⟨hav, hle⟩ := h (t + 1) (by omega)
        have e : v + 1 - (t + 1) = v - t := by omega
        rw [e] at hav
        exact ⟨hav, by omega⟩
      rw [drD_succ, if_pos (by simpa using h0.1)]
      omega

lemma b2jGet_eq_posOf_of_mem {b : List Char} {c : Char} {x : Nat} (h : x ∈ b2jGet b c) :
    b2jGet b c = posOf b c := by
  unfold b2jGet at h ⊢
  split_ifs at h ⊢ with hc
  · simp at h
  · rfl

lemma avail_mem_rowJs (a : List Char) (lo hi i : Nat) (h : availD a lo hi i = true) :
    i ∈ rowJs a lo hi (a.getD i ' ') := by
  unfold availD at h
  simp only [Bool.and_eq_true, decide_eq_true_eq] at h
  exact rowJs_mem.mpr ⟨h.1, h.2.1, h.2.2⟩

/-- Dictionary invariant of the self comparison before processing row
`i`: every entry of the previous row's dictionary is a run of available
diagonal cells whose characters repeat the run ending at row `i - 1`. -/
def selfDict (a : List Char) (lo hi i : Nat) (d : Nat → Nat) : Prop :=
  ∀ j t, t < d j → 1 ≤ i ∧ availD a lo hi (j - t) = true ∧
    a.getD (j - t) ' ' = a.getD (i - 1 - t) ' ' ∧ lo + t ≤ j ∧ lo + t + 1 ≤ i

/-- Outer invariant of the self comparison before processing row `i`:
the best block is diagonal and inside the range, it dominates every
diagonal run of a processed row, and the dictionary tracks row `i - 1`
with its diagonal entry at full run length. -/
def selfInv (a : List Char) (lo hi i : Nat) (st : FlmState) : Prop :=
  st.bi = st.bj ∧ lo ≤ st.bi ∧ st.bi + st.bs ≤ hi ∧
  (∀ j, j < i → drD a lo hi j ≤ st.bs) ∧
  selfDict a lo hi i st.j2l ∧
  (∀ j, j + 1 = i → drD a lo hi j ≤ st.j2l j)

/-- Invariant of the inner scan over one row of the self comparison:
`rem` is the suffix of occurrence positions still to visit. -/
def rowInv (a : List Char) (lo hi i : Nat) (s : FlmState) (rem : List Nat) : Prop :=
  s.bi = s.bj ∧ lo ≤ s.bi ∧ s.bi + s.bs ≤ hi ∧
  (∀ j, j < i → drD a lo hi j ≤ s.bs) ∧
  (i ∈ rem ∨ drD a lo hi i ≤ s.bs) ∧
  (i ∈ rem ∨ drD a lo hi i ≤ s.j2l i) ∧
  (∀ j t, t < s.j2l j → availD a lo hi (j - t) = true ∧
    a.getD (j - t) ' ' = a.getD (i - t) ' ' ∧ lo + t ≤ j ∧ lo + t ≤ i) ∧
  (∀ x ∈ rem, x ∈ rowJs a lo hi (a.getD i ' ')) ∧
  rem.Pairwise (· < ·)

lemma dr_le_pred_succ (a : List Char) (lo hi j : Nat) :
    drD a lo hi j ≤ drD a lo hi (j - 1) + 1 := by
  cases j with
  | zero => exact Nat.le_succ _
  | succ u =>
    rw [drD_succ, Nat.succ_sub_one]
    split_ifs
    · exact Nat.le_refl _
    · omega

lemma procJSelf (a : List Char) (lo hi i : Nat) (ha : hi ≤ a.length) (hi1 : lo ≤ i)
    (hi2 : i < hi) (old : Nat → Nat)
    (hold : selfDict a lo hi i old)
    (holdG : ∀ j, j + 1 = i → drD a lo hi j ≤ old j)
    (j : Nat) (rest : List Nat) (s : FlmState)
    (hP : rowInv a lo hi i s (j :: rest)) :
    rowInv a lo hi i (procJ i old s j) rest := by
  unfold rowInv at hP
  obtain ⟨p1, p2, p3, p4, p5, p6, p7, p8, p9⟩ := hP
  have hjmem := p8 j (List.mem_cons_self j rest)
  obtain ⟨hjb, hjlo, hjhi⟩ := rowJs_mem.mp hjmem
  have hjpos := posOf_mem.mp (b2jGet_mem hjb)
  have hgj : a.getD j ' ' = a.getD i ' ' := by
    have h2 := getD_eq_some_of_lt ' ' (show j < a.length from hjpos.1)
    exact Option.some.inj (h2.symm.trans hjpos.2)
  have havj : availD a lo hi j = true := by
    unfold availD
    rw [hgj]
    simp only [Bool.and_eq_true, decide_eq_true_eq]
    exact ⟨hjb, hjlo, hjhi⟩
  have hrest_sub : ∀ x ∈ rest, x ∈ rowJs a lo hi (a.getD i ' ') :=
    fun x hx => p8 x (List.mem_cons_of_mem j hx)
  have hrest_pw : rest.Pairwise (· < ·) := (List.pairwise_cons.mp p9).2
  set k := (if j = 0 then 0 else old (j - 1)) + 1 with hk
  have hk1 : 1 ≤ k := by rw [hk]; exact Nat.le_add_left 1 _
  have hrunk : ∀ t, t < k → availD a lo hi (j - t) = true ∧
      a.getD (j - t) ' ' = a.getD (i - t) ' ' ∧ lo + t ≤ j ∧ lo + t ≤ i := by
    intro t ht
    cases t with
    | zero =>
      simp only [Nat.sub_zero, Nat.add_zero]
      exact ⟨havj, hgj, hjlo, hi1⟩
    | succ u =>
      have hj0 : ¬ j = 0 := by
        intro e
        rw [hk, if_pos e] at ht
        omega
      have hu : u < old (j - 1) := by
        rw [hk, if_neg hj0] at ht
        omega
      obtain ⟨hii, hav, hch, hb1, hb2⟩ := hold (j - 1) u hu
      have e1 : j - 1 - u = j - (u + 1) := by omega
      have e2 : i - 1 - u = i - (u + 1) := by omega
      rw [e1] at hav
      rw [e1, e2] at hch
      exact ⟨hav, hch, by omega, by omega⟩
  have hkdrj : k ≤ drD a lo hi j := by
    apply dr_chain
    intro t ht
    refine ⟨(hrunk t ht).1, ?_⟩
    have := (hrunk t ht).2.2.1
    omega
  have hkdri : k ≤ drD a lo hi i := by
    apply dr_chain
    intro t ht
    obtain ⟨hav, hch, hb1, hb2⟩ := hrunk t ht
    refine ⟨?_, by omega⟩
    unfold availD at hav ⊢
    simp only [Bool.and_eq_true, decide_eq_true_eq] at hav
    obtain ⟨hmem, hlo', hhi'⟩ := hav
    have heqpos := b2jGet_eq_posOf_of_mem hmem
    have hmem2 : (i - t) ∈ posOf a (a.getD (j - t) ' ') := by
      rw [posOf_mem]
      refine ⟨by omega, ?_⟩
      rw [hch]
      exact getD_eq_some_of_lt ' ' (by omega)
    simp only [Bool.and_eq_true, decide_eq_true_eq]
    refine ⟨?_, by omega, by omega⟩
    rw [← hch, heqpos]
    exact hmem2
  have hproc : procJ i old s j = if s.bs < k then
      ⟨fun x => if x = j then k else s.j2l x, i + 1 - k, j + 1 - k, k⟩
    else ⟨fun x => if x = j then k else s.j2l x, s.bi, s.bj, s.bs⟩ := by
    rw [hk]
    rfl
  have hdict : ∀ x t, t < (if x = j then k else s.j2l x) →
      availD a lo hi (x - t) = true ∧
      a.getD (x - t) ' ' = a.getD (i - t) ' ' ∧ lo + t ≤ x ∧ lo + t ≤ i := by
    intro x t ht
    by_cases hx : x = j
    · rw [if_pos hx] at ht
      subst hx
      exact hrunk t ht
    · rw [if_neg hx] at ht
      exact p7 x t ht
  rcases Nat.lt_trichotomy j i with hlt | heq | hgt
  · have hnup : ¬ s.bs < k := by
      have := p4 j hlt
      omega
    rw [hproc, if_neg hnup]
    unfold rowInv
    refine ⟨p1, p2, p3, p4, ?_, ?_, hdict, hrest_sub, hrest_pw⟩
    · rcases p5 with hmem | hbs
      · rcases List.mem_cons.mp hmem with he | hmem2
        · omega
        · exact Or.inl hmem2
      · exact Or.inr hbs
    · rcases p6 with hmem | hj2
      · rcases List.mem_cons.mp hmem with he | hmem2
        · omega
        · exact Or.inl hmem2
      · refine Or.inr ?_
        show drD a lo hi i ≤ if i = j then k else s.j2l i
        rw [if_neg (show ¬ i = j by omega)]
        exact hj2
  · subst heq
    have hkge : drD a lo hi j ≤ k := by
      by_cases hj0 : j = 0
      · rw [hj0, drD_zero, hk, if_pos hj0]
        split_ifs <;> omega
      · have hG := holdG (j - 1) (by omega)
        have hle := dr_le_pred_succ a lo hi j
        rw [hk, if_neg hj0]
        omega
    by_cases hup : s.bs < k
    · rw [hproc, if_pos hup]
      unfold rowInv
      have hlok : lo + (k - 1) ≤ j := (hrunk (k - 1) (by omega)).2.2.1
      refine ⟨rfl, ?_, ?_, ?_, ?_, ?_, hdict, hrest_sub, hrest_pw⟩
      · show lo ≤ j + 1 - k
        omega
      · show j + 1 - k + k ≤ hi
        omega
      · intro j' hj'
        show drD a lo hi j' ≤ k
        have := p4 j' hj'
        omega
      · refine Or.inr ?_
        show drD a lo hi j ≤ k
        exact hkge
      · refine Or.inr ?_
        show drD a lo hi j ≤ if j = j then k else s.j2l j
        rw [if_pos rfl]
        exact hkge
    · rw [hproc, if_neg hup]
      unfold rowInv
      refine ⟨p1, p2, p3, p4, ?_, ?_, hdict, hrest_sub, hrest_pw⟩
      · refine Or.inr ?_
        show drD a lo hi j ≤ s.bs
        omega
      · refine Or.inr ?_
        show drD a lo hi j ≤ if j = j then k else s.j2l j
        rw [if_pos rfl]
        exact hkge
  · have hnotin : i ∉ j :: rest := by
      intro hmem
      rcases List.mem_cons.mp hmem with he | hmem2
      · omega
      · have := (List.pairwise_cons.mp p9).1 i hmem2
        omega
    have hbs := p5.resolve_left hnotin
    have hnup : ¬ s.bs < k := by omega
    rw [hproc, if_neg hnup]
    unfold rowInv
    refine ⟨p1, p2, p3, p4, Or.inr hbs, ?_, hdict, hrest_sub, hrest_pw⟩
    refine Or.inr ?_
    show drD a lo hi i ≤ if i = j then k else s.j2l i
    rw [if_neg (show ¬ i = j by omega)]
    exact p6.resolve_left hnotin

lemma procRowSelf (a : List Char) (lo hi : Nat) (ha : hi ≤ a.length) (i : Nat)
    (hi1 : lo ≤ i) (hi2 : i < hi) (st : FlmState) (hSI : selfInv a lo hi i st) :
    selfInv a lo hi (i + 1) (procRow a a lo hi st i) := by
  unfold selfInv at hSI
  obtain ⟨q1, q2, q3, q4, q5, q6⟩ := hSI
  have hinit : rowInv a lo hi i ⟨fun _ => 0, st.bi, st.bj, st.bs⟩
      (rowJs a lo hi (a.getD i ' ')) := by
    unfold rowInv
    refine ⟨q1, q2, q3, q4, ?_, ?_, ?_, fun x hx => hx, rowJs_pairwise a lo hi _⟩
    · by_cases hav : availD a lo hi i = true
      · exact Or.inl (avail_mem_rowJs a lo hi i hav)
      · have hf : availD a lo hi i = false := by simpa using hav
        refine Or.inr ?_
        rw [dr_zero_of_not_avail hf]
        exact Nat.zero_le _
    · by_cases hav : availD a lo hi i = true
      · exact Or.inl (avail_mem_rowJs a lo hi i hav)
      · have hf : availD a lo hi i = false := by simpa using hav
        refine Or.inr ?_
        simp [dr_zero_of_not_avail hf]
    · intro j t ht
      simp at ht
  have hmain := foldl_rem_inv (procJ i st.j2l) (rowInv a lo hi i)
    (rowJs a lo hi (a.getD i ' ')) ⟨fun _ => 0, st.bi, st.bj, st.bs⟩
    (fun x rest s hs => procJSelf a lo hi i ha hi1 hi2 st.j2l q5 q6 x rest s hs)
    hinit
  have hpr : procRow a a lo hi st i =
      (rowJs a lo hi (a.getD i ' ')).foldl (procJ i st.j2l)
        ⟨fun _ => 0, st.bi, st.bj, st.bs⟩ := rfl
  rw [hpr]
  unfold rowInv at hmain
  obtain ⟨r1, r2, r3, r4, r5, r6, r7, r8, r9⟩ := hmain
  unfold selfInv
  refine ⟨r1, r2, r3, ?_, ?_, ?_⟩
  · intro j hj
    by_cases hji : j < i
    · exact r4 j hji
    · have he : j = i := by omega
      subst he
      exact r5.resolve_left (by simp)
  · intro j t ht
    obtain ⟨hav, hch, hb1, hb2⟩ := r7 j t ht
    have e : i + 1 - 1 - t = i - t := by omega
    rw [e]
    exact ⟨by omega, hav, hch, hb1, by omega⟩
  · intro j hj
    have he : j = i := by omega
    subst he
    exact r6.resolve_left (by simp)

lemma procRowsSelf (a : List Char) (lo hi : Nat) (ha : hi ≤ a.length) :
    ∀ (n r : Nat) (st : FlmState), lo ≤ r → r + n ≤ hi → selfInv a lo hi r st →
      selfInv a lo hi (r + n) ((List.range' r n).foldl (procRow a a lo hi) st) := by
  intro n
  induction n with
  | zero => intro r st _ _ h; simpa using h
  | succ m ih =>
    intro r st hr1 hr2 h
    rw [List.range'_succ, List.foldl_cons]
    have hstep := procRowSelf a lo hi ha r hr1 (by omega) st h
    have hrec := ih (r + 1) _ (by omega) (by omega) hstep
    have e : r + 1 + m = r + (m + 1) := by omega
    rwa [e] at hrec

lemma extendLeft_self (a : List Char) (lo : Nat) :
    ∀ (fuel bi bs : Nat), bi - lo ≤ fuel → lo ≤ bi →
      extendLeft a a lo lo fuel (bi, bi, bs) = (lo, lo, bs + (bi - lo)) := by
  intro fuel
  induction fuel with
  | zero =>
    intro bi bs h1 h2
    have he : bi = lo := by omega
    subst he
    simp [extendLeft]
  | succ f ih =>
    intro bi bs h1 h2
    rw [extendLeft]
    by_cases hc : lo < bi
    · rw [if_pos ⟨hc, hc, rfl⟩, ih (bi - 1) (bs + 1) (by omega) (by omega)]
      have e : bs + 1 + (bi - 1 - lo) = bs + (bi - lo) := by omega
      rw [e]
    · have he : bi = lo := by omega
      subst he
      rw [if_neg (fun h => absurd h.1 hc)]
      simp

lemma extendRight_self (a : List Char) (lo hi : Nat) :
    ∀ (fuel bs : Nat), hi - lo - bs ≤ fuel → bs ≤ hi - lo →
      extendRight a a hi hi fuel (lo, lo, bs) = (lo, lo, hi - lo) := by
  intro fuel
  induction fuel with
  | zero =>
    intro bs h1 h2
    have he : bs = hi - lo := by omega
    subst he
    rfl
  | succ f ih =>
    intro bs h1 h2
    rw [extendRight]
    by_cases hc : lo + bs < hi
    · rw [if_pos ⟨hc, hc, rfl⟩]
      exact ih (bs + 1) (by omega) (by omega)
    · have he : bs = hi - lo := by omega
      subst he
      rw [if_neg (fun h => absurd h.1 hc)]

lemma flm_self (a : List Char) (lo hi : Nat) (h1 : lo ≤ hi) (ha : hi ≤ a.length) :
    flm a a lo hi lo hi = (lo, lo, hi - lo) := by
  have hinit0 : selfInv a lo hi lo ⟨fun _ => 0, lo, lo, 0⟩ := by
    unfold selfInv
    refine ⟨rfl, Nat.le_refl lo, by simpa using h1, ?_, ?_, ?_⟩
    · intro j hj
      simp [dr_zero_of_not_avail (avail_false_of_lt hj)]
    · intro j t ht
      simp at ht
    · intro j hj
      simp [dr_zero_of_not_avail (avail_false_of_lt (show j < lo by omega))]
  have hrows := procRowsSelf a lo hi ha (hi - lo) lo ⟨fun _ => 0, lo, lo, 0⟩
    (Nat.le_refl lo) (by omega) hinit0
  unfold selfInv at hrows
  obtain ⟨s1, s2, s3, _, _, _⟩ := hrows
  have heq : flm a a lo hi lo hi =
      extendRight a a hi hi hi (extendLeft a a lo lo
        ((List.range' lo (hi - lo)).foldl (procRow a a lo hi) ⟨fun _ => 0, lo, lo, 0⟩).bi
        (((List.range' lo (hi - lo)).foldl (procRow a a lo hi)
            ⟨fun _ => 0, lo, lo, 0⟩).bi,
         ((List.range' lo (hi - lo)).foldl (procRow a a lo hi)
            ⟨fun _ => 0, lo, lo, 0⟩).bj,
         ((List.range' lo (hi - lo)).foldl (procRow a a lo hi)
            ⟨fun _ => 0, lo, lo, 0⟩).bs)) := rfl
  rw [heq, ← s1]
  rw [extendLeft_self a lo _ _ _ (by omega) s2]
  rw [extendRight_self a lo hi hi _ (by omega) (by omega)]

lemma extendLeft_noop (a b : List Char) (alo blo bj bs : Nat) :
    ∀ fuel, extendLeft a b alo blo fuel (alo, bj, bs) = (alo, bj, bs) := by
  intro fuel
  cases fuel with
  | zero => rfl
  | succ f =>
    rw [extendLeft, if_neg (fun h => absurd h.1 (lt_irrefl alo))]

lemma extendRight_noop (a b : List Char) (ahi bhi bi bj bs : Nat)
    (h : ¬ bi + bs < ahi) :
    ∀ fuel, extendRight a b ahi bhi fuel (bi, bj, bs) = (bi, bj, bs) := by
  intro fuel
  cases fuel with
  | zero => rfl
  | succ f =>
    rw [extendRight, if_neg (fun hh => absurd hh.1 h)]

lemma flm_empty_a (a b : List Char) (alo blo bhi : Nat) :
    flm a b alo alo blo bhi = (alo, blo, 0) := by
  have e0 : flm a b alo alo blo bhi =
      extendRight a b alo bhi alo (extendLeft a b alo blo alo (alo, blo, 0)) := by
    unfold flm
    rw [Nat.sub_self]
    rfl
  rw [e0, extendLeft_noop, extendRight_noop a b alo bhi alo blo 0 (by omega)]

lemma matchTotalF_empty_a (a b : List Char) (alo blo bhi : Nat) :
    ∀ fuel, matchTotalF a b fuel alo alo blo bhi = 0 := by
  intro fuel
  cases fuel with
  | zero => rfl
  | succ f =>
    simp only [matchTotalF, flm_empty_a]
    simp

lemma matchTotalF_self (a : List Char) (lo hi : Nat) (h1 : lo ≤ hi) (ha : hi ≤ a.length)
    (fuel : Nat) : matchTotalF a a (fuel + 1) lo hi lo hi = hi - lo := by
  simp only [matchTotalF, flm_self a lo hi h1 ha]
  by_cases hz : hi - lo = 0
  · simp [hz]
  · have e : lo + (hi - lo) = hi := by omega
    simp [hz, e, matchTotalF_empty_a]

lemma matchTotal_self (a : List Char) : matchTotal a a = a.length := by
  have h := matchTotalF_self a 0 a.length (by omega) (Nat.le_refl _)
    (a.length + a.length)
  unfold matchTotal
  simpa using h

lemma ratioQ_self (a : List Char) : ratioQ a a = 1 := by
  unfold ratioQ
  by_cases h : a.length + a.length = 0
  · rw [if_pos h]
  · rw [if_neg h, matchTotal_self, Rat.mkRat_eq_div]
    have hlq : (a.length : ℚ) ≠ 0 := Nat.cast_ne_zero.mpr (by omega)
    push_cast
    field_simp
    ring

lemma ratioQ_nonneg_le_one (a b : List Char) : 0 ≤ ratioQ a b ∧ ratioQ a b ≤ 1 := by
  unfold ratioQ
  by_cases h : a.length + b.length = 0
  · rw [if_pos h]
    norm_num
  · rw [if_neg h, Rat.mkRat_eq_div]
    have hM := matchTotal_le a b
    have hpos : (0:ℚ) < ((a.length + b.length : Nat) : ℚ) := by
      exact_mod_cast Nat.pos_of_ne_zero h
    constructor
    · apply div_nonneg _ (le_of_lt hpos)
      positivity
    · rw [div_le_one hpos]
      have h2 : 2 * matchTotal a b ≤ a.length + b.length := by omega
      exact_mod_cast h2

lemma ratioQ_eq_one_imp (a b : List Char) (h : ratioQ a b = 1) : a = b := by
  unfold ratioQ at h
  by_cases hz : a.length + b.length = 0
  · have ha : a = [] := List.length_eq_zero.mp (by omega)
    have hb : b = [] := List.length_eq_zero.mp (by omega)
    rw [ha, hb]
  · rw [if_neg hz, Rat.mkRat_eq_div] at h
    have hpos : (0:ℚ) < ((a.length + b.length : Nat) : ℚ) := by
      exact_mod_cast Nat.pos_of_ne_zero hz
    rw [div_eq_one_iff_eq (ne_of_gt hpos)] at h
    have h2 : 2 * matchTotal a b = a.length + b.length := by exact_mod_cast h
    have hle := matchTotal_le a b
    have hMa : matchTotal a b = a.length := by omega
    have hMb : matchTotal a b = b.length := by omega
    unfold matchTotal at hMa hMb
    have hfull := matchTotalF_full a b (a.length + b.length + 1) 0 a.length 0 b.length
      (by omega) (Nat.le_refl _) (by omega) (Nat.le_refl _) (by simpa using hMa)
      (by simpa using hMb)
    rw [sliceL_full, sliceL_full] at hfull
    exact hfull

/-- Claim C2 (amended): the similarity ratio both tools use is bounded
between 0 and 1, self-similarity is exactly 1 for every string, and the
ratio is 1 exactly for identical strings; symmetry, however, fails in
general. -/
theorem c2_ratio_properties (a b : List Char) :
    (0 ≤ ratioQ a b ∧ ratioQ a b ≤ 1) ∧
    ratioQ a a = 1 ∧
    (ratioQ a b = 1 ↔ a = b) := by
  refine ⟨ratioQ_nonneg_le_one a b, ratioQ_self a,
    fun h => ratioQ_eq_one_imp a b h, fun h => ?_⟩
  rw [h]
  exact ratioQ_self b

/-- Counterexample to claim C2 as stated: the ratio is not symmetric;
on this concrete pair the two argument orders give 3/4 and 1/2. -/
theorem c2_counterexample :
    ratioQ (strL ("aba")) (strL ("babba")) = mkRat 3 4 ∧
    ratioQ (strL ("babba")) (strL ("aba")) = mkRat 1 2 ∧
    ratioQ (strL ("aba")) (strL ("babba")) ≠ ratioQ (strL ("babba")) (strL ("aba")) := by
  refine ⟨by decide, by decide, by decide⟩

lemma charLe_toNat (a b : Char) : (a ≤ b) ↔ a.toNat ≤ b.toNat := Iff.rfl

lemma char_toNat_ofNat {n : Nat} (h : n < 55296) : (Char.ofNat n).toNat = n := by
  rw [Char.ofNat, dif_pos (Or.inl (by exact_mod_cast h))]
  rfl

lemma toLowerCh_eq_of_ranges (c : Char)
    (h1 : ¬(65 ≤ c.toNat ∧ c.toNat ≤ 90))
    (h2 : ¬(1040 ≤ c.toNat ∧ c.toNat ≤ 1071))
    (h3 : ¬ c.toNat = 1025) : toLowerCh c = c := by
  unfold toLowerCh
  have g1 : ¬((decide ('A' ≤ c) && decide (c ≤ 'Z')) = true) := by
    simp only [Bool.and_eq_true, decide_eq_true_eq]
    rintro ⟨ha, hb⟩
    exact h1 ⟨(charLe_toNat 'A' c).mp ha, (charLe_toNat c 'Z').mp hb⟩
  have g2 : ¬((decide (1040 ≤ c.toNat) && decide (c.toNat ≤ 1071)) = true) := by
    simp only [Bool.and_eq_true, decide_eq_true_eq]
    exact h2
  rw [if_neg g1, if_neg g2, if_neg h3]

lemma toLowerCh_idem (c : Char) : toLowerCh (toLowerCh c) = toLowerCh c := by
  by_cases h1 : (decide ('A' ≤ c) && decide (c ≤ 'Z')) = true
  · have hc : 65 ≤ c.toNat ∧ c.toNat ≤ 90 := by
      simp only [Bool.and_eq_true, decide_eq_true_eq] at h1
      exact ⟨(charLe_toNat 'A' c).mp h1.1, (charLe_toNat c 'Z').mp h1.2⟩
    have he : toLowerCh c = Char.ofNat (c.toNat + 32) := by
      unfold toLowerCh
      rw [if_pos h1]
    have ht : (toLowerCh c).toNat = c.toNat + 32 := by
      rw [he]
      exact char_toNat_ofNat (by omega)
    apply toLowerCh_eq_of_ranges <;> rw [ht] <;> omega
  · by_cases h2 : (decide (1040 ≤ c.toNat) && decide (c.toNat ≤ 1071)) = true
    · have hc : 1040 ≤ c.toNat ∧ c.toNat ≤ 1071 := by
        simp only [Bool.and_eq_true, decide_eq_true_eq] at h2
        exact h2
      have he : toLowerCh c = Char.ofNat (c.toNat + 32) := by
        unfold toLowerCh
        rw [if_neg h1, if_pos h2]
      have ht : (toLowerCh c).toNat = c.toNat + 32 := by
        rw [he]
        exact char_toNat_ofNat (by omega)
      apply toLowerCh_eq_of_ranges <;> rw [ht] <;> omega
    · by_cases h3 : c.toNat = 1025
      · have he : toLowerCh c = Char.ofNat 1105 := by
          unfold toLowerCh
          rw [if_neg h1, if_neg h2, if_pos h3]
        have ht : (toLowerCh c).toNat = 1105 := by
          rw [he]
          exact char_toNat_ofNat (by omega)
        apply toLowerCh_eq_of_ranges <;> rw [ht] <;> omega
      · have he : toLowerCh c = c := by
          unfold toLowerCh
          rw [if_neg h1, if_neg h2, if_neg h3]
        rw [he, he]

lemma toLowerL_fix_of : ∀ (s : List Char), (∀ c ∈ s, toLowerCh c = c) → toLowerL s = s := by
  intro s
  unfold toLowerL
  induction s with
  | nil => intro _; rfl
  | cons c t ih =>
    intro h
    rw [List.map_cons, h c (List.mem_cons_self c t),
      ih (fun d hd => h d (List.mem_cons_of_mem c hd))]

lemma mem_lstrip {x : Char} {s : List Char} (h : x ∈ lstrip s) : x ∈ s :=
  (List.dropWhile_sublist _).subset h

lemma mem_rstrip {x : Char} : ∀ {s : List Char}, x ∈ rstrip s → x ∈ s := by
  intro s
  induction s with
  | nil => simp [rstrip]
  | cons c rest ih =>
    simp only [rstrip]
    split_ifs with h
    · intro hx; simp at hx
    · intro hx
      rcases List.mem_cons.mp hx with rfl | hx2
      · exact List.mem_cons_self _ _
      · exact List.mem_cons_of_mem _ (ih hx2)

lemma mem_pyStrip {x : Char} {s : List Char} (h : x ∈ pyStrip s) : x ∈ s :=
  mem_lstrip (mem_rstrip h)

lemma mem_stripColonL {x : Char} {s : List Char} (h : x ∈ stripColonL s) : x ∈ s := by
  unfold stripColonL at h
  split_ifs at h
  · exact (List.dropLast_sublist s).subset (mem_pyStrip h)
  · exact h

lemma mem_replQuoted (q : Char) {x : Char} :
    ∀ (n : Nat) (s : List Char), s.length ≤ n → x ∈ replQuoted q s →
      x ∈ s ∨ x ∈ quotePlaceholder := by
  intro n
  induction n with
  | zero =>
    intro s hs hx
    have : s = [] := List.eq_nil_of_length_eq_zero (by omega)
    subst this
    simp [replQuoted] at hx
  | succ m ih =>
    intro s hs hx
    cases s with
    | nil => simp [replQuoted] at hx
    | cons c rest =>
      simp only [replQuoted] at hx
      by_cases hc : c = q
      · rw [if_pos hc] at hx
        by_cases hlen : (rest.takeWhile (fun d => d ≠ q)).length < rest.length
        · rw [if_pos hlen] at hx
          rcases List.mem_append.mp hx with h | h
          · exact Or.inr h
          · have hdl : (rest.drop ((rest.takeWhile (fun d => d ≠ q)).length + 1)).length ≤ m := by
              rw [List.length_drop]
              simp only [List.length_cons] at hs
              omega
            rcases ih _ hdl h with h2 | h2
            · exact Or.inl (List.mem_cons_of_mem _ ((List.drop_sublist _ _).subset h2))
            · exact Or.inr h2
        · rw [if_neg hlen] at hx
          exact Or.inl hx
      · rw [if_neg hc] at hx
        rcases List.mem_cons.mp hx with rfl | h
        · exact Or.inl (List.mem_cons_self _ _)
        · rcases ih rest (by simp only [List.length_cons] at hs; omega) h with h2 | h2
          · exact Or.inl (List.mem_cons_of_mem _ h2)
          · exact Or.inr h2

lemma mem_unescapeQ {x : Char} :
    ∀ {s : List Char}, x ∈ unescapeQ s → x ∈ s ∨ x = dquoteCh := by
  intro s
  induction s using unescapeQ.induct with
  | case1 => simp [unescapeQ]
  | case2 c =>
    intro hx
    exact Or.inl (by simpa [unescapeQ] using hx)
  | case3 c d rest hcd ih =>
    intro hx
    rw [unescapeQ, if_pos hcd] at hx
    rcases List.mem_cons.mp hx with rfl | h
    · exact Or.inr rfl
    · rcases ih h with h2 | h2
      · exact Or.inl (List.mem_cons_of_mem _ (List.mem_cons_of_mem _ h2))
      · exact Or.inr h2
  | case4 c d rest hcd ih =>
    intro hx
    rw [unescapeQ, if_neg hcd] at hx
    rcases List.mem_cons.mp hx with rfl | h
    · exact Or.inl (List.mem_cons_self _ _)
    · rcases ih h with h2 | h2
      · exact Or.inl (List.mem_cons_of_mem _ h2)
      · exact Or.inr h2

lemma mem_replVars {x : Char} :
    ∀ (n : Nat) (s : List Char), s.length ≤ n → x ∈ replVars s →
      x ∈ s ∨ x ∈ varPlaceholder := by
  intro n
  induction n with
  | zero =>
    intro s hs hx
    have : s = [] := List.eq_nil_of_length_eq_zero (by omega)
    subst this
    simp [replVars] at hx
  | succ m ih =>
    intro s hs hx
    cases s with
    | nil => simp [replVars] at hx
    | cons c rest =>
      simp only [replVars] at hx
      by_cases hc : c = '$'
      · rw [if_pos hc] at hx
        by_cases h0 : (rest.takeWhile (fun d => d ≠ '$')).length = 0
        · rw [if_pos h0] at hx
          rcases List.mem_cons.mp hx with rfl | h
          · exact Or.inl (List.mem_cons_self _ _)
          · rcases ih rest (by simp only [List.length_cons] at hs; omega) h with h2 | h2
            · exact Or.inl (List.mem_cons_of_mem _ h2)
            · exact Or.inr h2
        · rw [if_neg h0] at hx
          by_cases hlen : (rest.takeWhile (fun d => d ≠ '$')).length < rest.length
          · rw [if_pos hlen] at hx
            rcases List.mem_append.mp hx with h | h
            · exact Or.inr h
            · have hdl :
                  (rest.drop ((rest.takeWhile (fun d => d ≠ '$')).length + 1)).length ≤ m := by
                rw [List.length_drop]
                simp only [List.length_cons] at hs
                omega
              rcases ih _ hdl h with h2 | h2
              · exact Or.inl (List.mem_cons_of_mem _ ((List.drop_sublist _ _).subset h2))
              · exact Or.inr h2
          · rw [if_neg hlen] at hx
            exact Or.inl hx
      · rw [if_neg hc] at hx
        rcases List.mem_cons.mp hx with rfl | h
        · exact Or.inl (List.mem_cons_self _ _)
        · rcases ih rest (by simp only [List.length_cons] at hs; omega) h with h2 | h2
          · exact Or.inl (List.mem_cons_of_mem _ h2)
          · exact Or.inr h2

lemma mem_replNumsAux {x : Char} :
    ∀ (n : Nat) (pw : Bool) (s : List Char), s.length ≤ n → x ∈ replNumsAux pw s →
      x ∈ s ∨ x = '#' := by
  intro n
  induction n with
  | zero =>
    intro pw s hs hx
    have : s = [] := List.eq_nil_of_length_eq_zero (by omega)
    subst this
    simp [replNumsAux] at hx
  | succ m ih =>
    intro pw s hs hx
    cases s with
    | nil => simp [replNumsAux] at hx
    | cons c rest =>
      simp only [replNumsAux] at hx
      have hd2 : (rest.dropWhile isDigitCh).length ≤ m := by
        have := length_dropWhile_le isDigitCh rest
        simp only [List.length_cons] at hs
        omega
      by_cases hc : (isDigitCh c && !pw) = true
      · rw [if_pos hc] at hx
        by_cases hb : (match (rest.dropWhile isDigitCh).head? with
            | none => true
            | some d => !isWordCh d) = true
        · rw [if_pos hb] at hx
          rcases List.mem_cons.mp hx with rfl | h
          · exact Or.inr rfl
          · rcases ih true _ hd2 h with h2 | h2
            · exact Or.inl (List.mem_cons_of_mem _ ((List.dropWhile_sublist _).subset h2))
            · exact Or.inr h2
        · rw [if_neg hb] at hx
          rcases List.mem_append.mp hx with h | h
          · rcases List.mem_cons.mp h with rfl | h3
            · exact Or.inl (List.mem_cons_self _ _)
            · exact Or.inl
                (List.mem_cons_of_mem _ ((List.takeWhile_sublist _).subset h3))
          · rcases ih true _ hd2 h with h2 | h2
            · exact Or.inl (List.mem_cons_of_mem _ ((List.dropWhile_sublist _).subset h2))
            · exact Or.inr h2
      · rw [if_neg hc] at hx
        rcases List.mem_cons.mp hx with rfl | h
        · exact Or.inl (List.mem_cons_self _ _)
        · rcases ih (isWordCh c) rest (by simp only [List.length_cons] at hs; omega) h
            with h2 | h2
          · exact Or.inl (List.mem_cons_of_mem _ h2)
          · exact Or.inr h2

lemma mem_collapseWS {x : Char} :
    ∀ (n : Nat) (s : List Char), s.length ≤ n → x ∈ collapseWS s →
      (x ∈ s ∧ isSpaceCh x = false) ∨ x = ' ' := by
  intro n
  induction n with
  | zero =>
    intro s hs hx
    have : s = [] := List.eq_nil_of_length_eq_zero (by omega)
    subst this
    simp [collapseWS] at hx
  | succ m ih =>
    intro s hs hx
    cases s with
    | nil => simp [collapseWS] at hx
    | cons c rest =>
      simp only [collapseWS] at hx
      by_cases hc : isSpaceCh c = true
      · rw [if_pos hc] at hx
        rcases List.mem_cons.mp hx with rfl | h
        · exact Or.inr rfl
        · have hd2 : (rest.dropWhile isSpaceCh).length ≤ m := by
            have := length_dropWhile_le isSpaceCh rest
            simp only [List.length_cons] at hs
            omega
          rcases ih _ hd2 h with ⟨h2, h3⟩ | h2
          · exact Or.inl ⟨List.mem_cons_of_mem _ ((List.dropWhile_sublist _).subset h2), h3⟩
          · exact Or.inr h2
      · rw [if_neg hc] at hx
        rcases List.mem_cons.mp hx with rfl | h
        · exact Or.inl ⟨List.mem_cons_self _ _, by simpa using hc⟩
        · rcases ih rest (by simp only [List.length_cons] at hs; omega) h with ⟨h2, h3⟩ | h2
          · exact Or.inl ⟨List.mem_cons_of_mem _ h2, h3⟩
          · exact Or.inr h2

lemma takeWhile_all {p : Char → Bool} :
    ∀ {s : List Char}, (∀ x ∈ s, p x = true) → s.takeWhile p = s := by
  intro s
  induction s with
  | nil => intro _; rfl
  | cons c t ih =>
    intro h
    rw [List.takeWhile_cons, if_pos (h c (List.mem_cons_self c t)),
      ih (fun d hd => h d (List.mem_cons_of_mem c hd))]

lemma firstLine_fix {s : List Char} (h : ∀ x ∈ s, ¬ x = '\n') : firstLine s = s := by
  unfold firstLine
  exact takeWhile_all (fun x hx => by simpa using h x hx)

lemma rstrip_idem : ∀ s : List Char, rstrip (rstrip s) = rstrip s := by
  intro s
  induction s with
  | nil => rfl
  | cons c rest ih =>
    simp only [rstrip]
    split_ifs with h
    · rfl
    · simp only [rstrip, ih]
      rw [if_neg h]

lemma rstrip_head : ∀ {s : List Char} {c : Char} {t : List Char},
    rstrip s = c :: t → ∃ t', s = c :: t' := by
  intro s c t h
  cases s with
  | nil => simp [rstrip] at h
  | cons c' rest =>
    simp only [rstrip] at h
    by_cases hc : ((rstrip rest).isEmpty && isSpaceCh c') = true
    · rw [if_pos hc] at h
      simp at h
    · rw [if_neg hc] at h
      injection h with h1 h2
      exact ⟨rest, by rw [h1]⟩

lemma lstrip_head_false : ∀ {s : List Char} {c : Char} {t : List Char},
    lstrip s = c :: t → isSpaceCh c = false := by
  intro s
  induction s with
  | nil => intro c t h; simp [lstrip] at h
  | cons c' rest ih =>
    intro c t h
    unfold lstrip at h
    rw [List.dropWhile_cons] at h
    split_ifs at h with hc
    · exact ih h
    · injection h with h1 h2
      rw [← h1]
      simpa using hc

lemma pyStrip_idem (s : List Char) : pyStrip (pyStrip s) = pyStrip s := by
  unfold pyStrip
  have hl : lstrip (rstrip (lstrip s)) = rstrip (lstrip s) := by
    cases hr : rstrip (lstrip s) with
    | nil => rfl
    | cons c t =>
      obtain ⟨t', ht'⟩ := rstrip_head hr
      have hc : isSpaceCh c = false := lstrip_head_false ht'
      unfold lstrip
      rw [List.dropWhile_cons, if_neg (by simp [hc])]
  rw [hl, rstrip_idem]

lemma rstrip_decomp : ∀ s : List Char,
    ∃ sp, s = rstrip s ++ sp ∧ ∀ x ∈ sp, isSpaceCh x = true := by
  intro s
  induction s with
  | nil => exact ⟨[], rfl, by simp⟩
  | cons c rest ih =>
    obtain ⟨sp, hsp, hall⟩ := ih
    simp only [rstrip]
    split_ifs with h
    · refine ⟨c :: rest, rfl, ?_⟩
      intro x hx
      obtain ⟨he, hc⟩ := Bool.and_eq_true .. |>.mp h
      rcases List.mem_cons.mp hx with rfl | hx2
      · exact hc
      · have hre : rstrip rest = [] := by
          cases hrr : rstrip rest with
          | nil => rfl
          | cons a b => rw [hrr] at he; simp at he
        rw [hre] at hsp
        rw [hsp] at hx2
        exact hall x (by simpa using hx2)
    · refine ⟨sp, ?_, hall⟩
      rw [List.cons_append, ← hsp]

lemma takeWhile_len_eq_all {p : Char → Bool} {rest : List Char}
    (h : (rest.takeWhile p).length = rest.length) : ∀ x ∈ rest, p x = true := by
  have he : rest.takeWhile p = rest :=
    (List.takeWhile_prefix p).eq_of_length h
  intro x hx
  exact List.mem_takeWhile_imp (he ▸ hx)

lemma count_replQuoted_le_one (q : Char) (hq : q ∉ quotePlaceholder) :
    ∀ (n : Nat) (s : List Char), s.length ≤ n → (replQuoted q s).count q ≤ 1 := by
  intro n
  induction n with
  | zero =>
    intro s hs
    have : s = [] := List.eq_nil_of_length_eq_zero (by omega)
    subst this
    simp [replQuoted]
  | succ m ih =>
    intro s hs
    cases s with
    | nil => simp [replQuoted]
    | cons c rest =>
      simp only [replQuoted]
      by_cases hc : c = q
      · rw [if_pos hc]
        by_cases hlen : (rest.takeWhile (fun d => d ≠ q)).length < rest.length
        · rw [if_pos hlen, List.count_append]
          have h0 : quotePlaceholder.count q = 0 := List.count_eq_zero.mpr hq
          have hr := ih (rest.drop ((rest.takeWhile (fun d => d ≠ q)).length + 1))
            (by rw [List.length_drop]; simp only [List.length_cons] at hs; omega)
          omega
        · rw [if_neg hlen]
          have hle : (rest.takeWhile (fun d => decide (d ≠ q))).length ≤ rest.length :=
            (List.takeWhile_prefix _).length_le
          have hall := takeWhile_len_eq_all (Nat.le_antisymm hle (by omega))
          have h0 : rest.count q = 0 := by
            rw [List.count_eq_zero]
            intro hmem
            have := hall q hmem
            simp at this
          rw [hc, List.count_cons_self, h0]
      · rw [if_neg hc]
        rw [List.count_cons_of_ne (fun h => hc h.symm)]
        exact ih rest (by simp only [List.length_cons] at hs; omega)

lemma count_le_one_replQuoted_fix (q : Char) :
    ∀ (n : Nat) (s : List Char), s.length ≤ n → s.count q ≤ 1 → replQuoted q s = s := by
  intro n
  induction n with
  | zero =>
    intro s hs _
    have : s = [] := List.eq_nil_of_length_eq_zero (by omega)
    subst this
    simp [replQuoted]
  | succ m ih =>
    intro s hs hcount
    cases s with
    | nil => simp [replQuoted]
    | cons c rest =>
      simp only [replQuoted]
      by_cases hc : c = q
      · rw [if_pos hc]
        have h0 : rest.count q = 0 := by
          have he : (c :: rest).count q = rest.count q + 1 := by
            rw [hc, List.count_cons_self]
          omega
        have hall : ∀ x ∈ rest, (fun d => decide (d ≠ q)) x = true := by
          intro x hx
          have h2 := List.count_eq_zero.mp h0
          simp only [decide_eq_true_eq]
          intro he
          exact h2 (he ▸ hx)
        have htw : rest.takeWhile (fun d => decide (d ≠ q)) = rest := takeWhile_all hall
        rw [if_neg (by rw [htw]; omega)]
      · rw [if_neg hc]
        have hr : rest.count q ≤ 1 := by
          have he : (c :: rest).count q = rest.count q := List.count_cons_of_ne
            (fun h => hc h.symm) rest
          omega
        rw [ih rest (by simp only [List.length_cons] at hs; omega) hr]

lemma count_unescapeQ_le (x : Char) (hx : ¬ x = dquoteCh) :
    ∀ s : List Char, (unescapeQ s).count x ≤ s.count x := by
  intro s
  induction s using unescapeQ.induct with
  | case1 => simp [unescapeQ]
  | case2 c => simp [unescapeQ]
  | case3 c d rest hcd ih =>
    rw [unescapeQ, if_pos hcd]
    rw [List.count_cons_of_ne hx]
    calc (unescapeQ rest).count x ≤ rest.count x := ih
      _ ≤ (d :: rest).count x := by
          by_cases hd : x = d
          · rw [← hd, List.count_cons_self]; omega
          · rw [List.count_cons_of_ne hd]
      _ ≤ (c :: d :: rest).count x := by
          by_cases hcx : x = c
          · rw [← hcx, List.count_cons_self]; omega
          · rw [List.count_cons_of_ne hcx]
  | case4 c d rest hcd ih =>
    rw [unescapeQ, if_neg hcd]
    by_cases hcx : x = c
    · rw [← hcx, List.count_cons_self, List.count_cons_self]
      omega
    · rw [List.count_cons_of_ne hcx, List.count_cons_of_ne hcx]
      exact ih

lemma rstrip_sublist : ∀ s : List Char, List.Sublist (rstrip s) s := by
  intro s
  induction s with
  | nil => exact List.Sublist.refl []
  | cons c rest ih =>
    simp only [rstrip]
    split_ifs with h
    · exact List.nil_sublist _
    · exact List.Sublist.cons₂ c ih

lemma count_pyStrip_le (x : Char) (s : List Char) : (pyStrip s).count x ≤ s.count x := by
  unfold pyStrip
  calc (rstrip (lstrip s)).count x ≤ (lstrip s).count x :=
        (rstrip_sublist _).count_le x
    _ ≤ s.count x := (List.dropWhile_sublist _).count_le x

lemma count_replVars_le (x : Char) (hx : x ∉ varPlaceholder) :
    ∀ (n : Nat) (s : List Char), s.length ≤ n → (replVars s).count x ≤ s.count x := by
  intro n
  induction n with
  | zero =>
    intro s hs
    have : s = [] := List.eq_nil_of_length_eq_zero (by omega)
    subst this
    simp [replVars]
  | succ m ih =>
    intro s hs
    cases s with
    | nil => simp [replVars]
    | cons c rest =>
      simp only [replVars]
      have hcons : ∀ t : List Char, t.count x ≤ rest.count x →
          (c :: t).count x ≤ (c :: rest).count x := by
        intro t ht
        by_cases hcx : x = c
        · rw [← hcx, List.count_cons_self, List.count_cons_self]; omega
        · rw [List.count_cons_of_ne hcx, List.count_cons_of_ne hcx]; exact ht
      by_cases hc : c = '$'
      · rw [if_pos hc]
        by_cases h0 : (rest.takeWhile (fun d => d ≠ '$')).length = 0
        · rw [if_pos h0]
          exact hcons _ (ih rest (by simp only [List.length_cons] at hs; omega))
        · rw [if_neg h0]
          by_cases hlen : (rest.takeWhile (fun d => d ≠ '$')).length < rest.length
          · rw [if_pos hlen, List.count_append]
            have h1 : varPlaceholder.count x = 0 := List.count_eq_zero.mpr hx
            have h2 := ih (rest.drop ((rest.takeWhile (fun d => d ≠ '$')).length + 1))
              (by rw [List.length_drop]; simp only [List.length_cons] at hs; omega)
            have h3 : (rest.drop ((rest.takeWhile (fun d => d ≠ '$')).length + 1)).count x ≤
                rest.count x := (List.drop_sublist _ _).count_le x
            have h4 : rest.count x ≤ (c :: rest).count x := by
              by_cases hcx : x = c
              · rw [← hcx, List.count_cons_self]; omega
              · rw [List.count_cons_of_ne hcx]
            omega
          · rw [if_neg hlen]
      · rw [if_neg hc]
        exact hcons _ (ih rest (by simp only [List.length_cons] at hs; omega))

lemma count_replNumsAux_le (x : Char) (hx : ¬ x = '#') :
    ∀ (n : Nat) (pw : Bool) (s : List Char), s.length ≤ n →
      (replNumsAux pw s).count x ≤ s.count x := by
  intro n
  induction n with
  | zero =>
    intro pw s hs
    have : s = [] := List.eq_nil_of_length_eq_zero (by omega)
    subst this
    simp [replNumsAux]
  | succ m ih =>
    intro pw s hs
    cases s with
    | nil => simp [replNumsAux]
    | cons c rest =>
      simp only [replNumsAux]
      have hd2 : (rest.dropWhile isDigitCh).length ≤ m := by
        have := length_dropWhile_le isDigitCh rest
        simp only [List.length_cons] at hs
        omega
      have hdc : (rest.dropWhile isDigitCh).count x ≤ rest.count x :=
        (List.dropWhile_sublist _).count_le x
      have hcons : rest.count x ≤ (c :: rest).count x := by
        by_cases hcx : x = c
        · rw [← hcx, List.count_cons_self]; omega
        · rw [List.count_cons_of_ne hcx]
      by_cases hc : (isDigitCh c && !pw) = true
      · rw [if_pos hc]
        by_cases hb : (match (rest.dropWhile isDigitCh).head? with
            | none => true
            | some d => !isWordCh d) = true
        · rw [if_pos hb, List.count_cons_of_ne hx]
          have hr := ih true _ hd2
          omega
        · rw [if_neg hb, List.count_append]
          have hr := ih true _ hd2
          have htk : (c :: rest.takeWhile isDigitCh).count x +
              (rest.dropWhile isDigitCh).count x = (c :: rest).count x := by
            rw [← List.count_append, List.cons_append, List.takeWhile_append_dropWhile]
          omega
      · rw [if_neg hc]
        have hr := ih (isWordCh c) rest (by simp only [List.length_cons] at hs; omega)
        by_cases hcx : x = c
        · rw [← hcx] at hr
          rw [← hcx, List.count_cons_self, List.count_cons_self]
          omega
        · rw [List.count_cons_of_ne hcx, List.count_cons_of_ne hcx]; exact hr

lemma count_collapseWS_le (x : Char) (hx : ¬ x = ' ') :
    ∀ (n : Nat) (s : List Char), s.length ≤ n → (collapseWS s).count x ≤ s.count x := by
  intro n
  induction n with
  | zero =>
    intro s hs
    have : s = [] := List.eq_nil_of_length_eq_zero (by omega)
    subst this
    simp [collapseWS]
  | succ m ih =>
    intro s hs
    cases s with
    | nil => simp [collapseWS]
    | cons c rest =>
      simp only [collapseWS]
      have hcons : rest.count x ≤ (c :: rest).count x := by
        by_cases hcx : x = c
        · rw [← hcx, List.count_cons_self]; omega
        · rw [List.count_cons_of_ne hcx]
      by_cases hc : isSpaceCh c = true
      · rw [if_pos hc, List.count_cons_of_ne hx]
        have hd2 : (rest.dropWhile isSpaceCh).length ≤ m := by
          have := length_dropWhile_le isSpaceCh rest
          simp only [List.length_cons] at hs
          omega
        have hr := ih _ hd2
        have hdc : (rest.dropWhile isSpaceCh).count x ≤ rest.count x :=
          (List.dropWhile_sublist _).count_le x
        omega
      · rw [if_neg hc]
        have hr := ih rest (by simp only [List.length_cons] at hs; omega)
        by_cases hcx : x = c
        · rw [← hcx, List.count_cons_self, List.count_cons_self]; omega
        · rw [List.count_cons_of_ne hcx, List.count_cons_of_ne hcx]; exact hr

/-- Canonical whitespace: every whitespace character is a single space
not followed by another whitespace character. -/
def wsokB : List Char → Bool
  | [] => true
  | c :: rest =>
    if isSpaceCh c then
      (c = ' ') && ((match rest.head? with
        | some d => !isSpaceCh d
        | none => true) && wsokB rest)
    else wsokB rest

lemma dropWhile_head_false {p : Char → Bool} :
    ∀ {s : List Char} {c : Char} {t : List Char}, s.dropWhile p = c :: t → p c = false := by
  intro s
  induction s with
  | nil => intro c t h; simp at h
  | cons c' rest ih =>
    intro c t h
    rw [List.dropWhile_cons] at h
    split_ifs at h with hc
    · exact ih h
    · injection h with h1 h2
      rw [← h1]
      simpa using hc

lemma wsokB_tail {c : Char} {rest : List Char} (h : wsokB (c :: rest) = true) :
    wsokB rest = true := by
  rw [wsokB] at h
  split_ifs at h with hc
  · simp only [Bool.and_eq_true] at h
    exact h.2.2
  · exact h

lemma wsokB_dropWhile (p : Char → Bool) :
    ∀ {s : List Char}, wsokB s = true → wsokB (s.dropWhile p) = true := by
  intro s
  induction s with
  | nil => intro h; simpa using h
  | cons c rest ih =>
    intro h
    rw [List.dropWhile_cons]
    split_ifs with hc
    · exact ih (wsokB_tail h)
    · exact h

lemma wsokB_append_left : ∀ (l m : List Char), wsokB (l ++ m) = true → wsokB l = true := by
  intro l
  induction l with
  | nil => intro m _; rfl
  | cons c l' ih =>
    intro m h
    rw [List.cons_append, wsokB] at h
    rw [wsokB]
    split_ifs at h ⊢ with hc
    · simp only [Bool.and_eq_true] at h
      obtain ⟨h1, h2, h3⟩ := h
      simp only [Bool.and_eq_true]
      refine ⟨h1, ?_, ih m h3⟩
      cases l' with
      | nil => simp
      | cons d t => simpa using h2
    · exact ih m h

lemma collapseWS_fix_of_wsokB :
    ∀ (n : Nat) (s : List Char), s.length ≤ n → wsokB s = true → collapseWS s = s := by
  intro n
  induction n with
  | zero =>
    intro s hs _
    have : s = [] := List.eq_nil_of_length_eq_zero (by omega)
    subst this
    simp [collapseWS]
  | succ m ih =>
    intro s hs hw
    cases s with
    | nil => simp [collapseWS]
    | cons c rest =>
      simp only [collapseWS]
      rw [wsokB] at hw
      by_cases hc : isSpaceCh c = true
      · rw [if_pos hc]
        rw [if_pos hc] at hw
        simp only [Bool.and_eq_true, decide_eq_true_eq] at hw
        obtain ⟨h1, h2, h3⟩ := hw
        have hdw : rest.dropWhile isSpaceCh = rest := by
          cases rest with
          | nil => rfl
          | cons d t =>
            simp only [List.head?_cons, Bool.not_eq_true'] at h2
            rw [List.dropWhile_cons, if_neg (by simp [h2])]
        rw [hdw, h1, ih rest (by simp only [List.length_cons] at hs; omega) h3]
      · rw [if_neg hc]
        rw [if_neg hc] at hw
        rw [ih rest (by simp only [List.length_cons] at hs; omega) hw]

lemma wsokB_collapseWS :
    ∀ (n : Nat) (s : List Char), s.length ≤ n → wsokB (collapseWS s) = true := by
  intro n
  induction n with
  | zero =>
    intro s hs
    have : s = [] := List.eq_nil_of_length_eq_zero (by omega)
    subst this
    simp [collapseWS, wsokB]
  | succ m ih =>
    intro s hs
    cases s with
    | nil => simp [collapseWS, wsokB]
    | cons c rest =>
      simp only [collapseWS]
      by_cases hc : isSpaceCh c = true
      · rw [if_pos hc, wsokB]
        rw [if_pos (by decide : isSpaceCh ' ' = true)]
        simp only [Bool.and_eq_true]
        have hd2 : (rest.dropWhile isSpaceCh).length ≤ m := by
          have := length_dropWhile_le isSpaceCh rest
          simp only [List.length_cons] at hs
          omega
        refine ⟨by simp, ?_, ih _ hd2⟩
        cases hrest : rest.dropWhile isSpaceCh with
        | nil => simp [collapseWS]
        | cons d t =>
          have hd : isSpaceCh d = false := dropWhile_head_false hrest
          simp only [collapseWS]
          rw [if_neg (by simp [hd])]
          simp [hd]
      · rw [if_neg hc, wsokB]
        rw [if_neg hc]
        exact ih rest (by simp only [List.length_cons] at hs; omega)

/-- Dollar spans in the shape the variable substitution itself emits: a
dollar either opens the exact placeholder span, is immediately followed
by another dollar, or has no closing dollar at all. -/
def vok : List Char → Bool
  | [] => true
  | c :: rest =>
    if c = '$' then
      if rest.take 3 = [lbraceCh, rbraceCh, '$'] then vok (rest.drop 3)
      else if rest.head? = some '$' then vok rest
      else decide (¬ '$' ∈ rest)
    else vok rest
termination_by s => s.length
decreasing_by
  · simp only [List.length_drop, List.length_cons]; omega
  · simp only [List.length_cons]; omega
  · simp only [List.length_cons]; omega

lemma vok_cons_ne {c : Char} (hc : ¬ c = '$') (s : List Char) : vok (c :: s) = vok s := by
  rw [vok, if_neg hc]

lemma take3_decomp {rest : List Char} (h : rest.take 3 = [lbraceCh, rbraceCh, '$']) :
    rest = lbraceCh :: rbraceCh :: '$' :: rest.drop 3 := by
  conv_lhs => rw [← List.take_append_drop 3 rest]
  rw [h]
  rfl

lemma tw_placeholder (d3 : List Char) :
    (lbraceCh :: rbraceCh :: '$' :: d3).takeWhile (fun d => decide (d ≠ '$')) =
      [lbraceCh, rbraceCh] := by
  rw [List.takeWhile_cons, if_pos (by decide), List.takeWhile_cons, if_pos (by decide),
    List.takeWhile_cons, if_neg (by decide)]

lemma replVars_eq_of_vok :
    ∀ (n : Nat) (s : List Char), s.length ≤ n → vok s = true → replVars s = s := by
  intro n
  induction n with
  | zero =>
    intro s hs _
    have : s = [] := List.eq_nil_of_length_eq_zero (by omega)
    subst this
    simp [replVars]
  | succ m ih =>
    intro s hs hv
    cases s with
    | nil => simp [replVars]
    | cons c rest =>
      simp only [replVars]
      rw [vok] at hv
      by_cases hc : c = '$'
      · rw [if_pos hc] at hv
        rw [hc, if_pos rfl]
        by_cases hp : rest.take 3 = [lbraceCh, rbraceCh, '$']
        · rw [if_pos hp] at hv
          have hd := take3_decomp hp
          have htw : rest.takeWhile (fun d => decide (d ≠ '$')) =
              [lbraceCh, rbraceCh] := by
            conv_lhs => rw [hd]
            exact tw_placeholder _
          have hlen3 : 3 ≤ rest.length := by
            rw [hd]
            simp
          rw [htw]
          rw [if_neg (by decide : ¬ ([lbraceCh, rbraceCh] : List Char).length = 0)]
          rw [if_pos (show ([lbraceCh, rbraceCh] : List Char).length < rest.length by
            simp only [List.length_cons, List.length_nil]
            omega)]
          rw [show ([lbraceCh, rbraceCh] : List Char).length + 1 = 3 from rfl]
          rw [ih (rest.drop 3)
            (by rw [List.length_drop]; simp only [List.length_cons] at hs; omega) hv]
          conv_rhs => rw [hd]
          rfl
        · rw [if_neg hp] at hv
          by_cases hh : rest.head? = some '$'
          · rw [if_pos hh] at hv
            obtain ⟨r, hr⟩ : ∃ r, rest = '$' :: r := by
              cases rest with
              | nil => simp at hh
              | cons d t =>
                simp only [List.head?_cons, Option.some.injEq] at hh
                exact ⟨t, by rw [hh]⟩
            have htw0 : (rest.takeWhile (fun d => decide (d ≠ '$'))).length = 0 := by
              rw [hr, List.takeWhile_cons, if_neg (by decide)]
              rfl
            rw [if_pos htw0]
            rw [ih rest (by simp only [List.length_cons] at hs; omega) hv]
          · rw [if_neg hh] at hv
            have hnd : ('$' : Char) ∉ rest := of_decide_eq_true hv
            have htw : rest.takeWhile (fun d => decide (d ≠ '$')) = rest :=
              takeWhile_all (fun x hx => by
                simp only [decide_eq_true_eq]
                intro he
                exact hnd (he ▸ hx))
            cases rest with
            | nil =>
              rw [if_pos (by rfl : (([] : List Char).takeWhile
                (fun d => decide (d ≠ '$'))).length = 0)]
              simp [replVars]
            | cons d t =>
              have hne0 : ¬ ((d :: t).takeWhile (fun x => decide (x ≠ '$'))).length = 0 := by
                rw [htw]
                simp
              rw [if_neg hne0]
              rw [if_neg (by rw [htw]; omega)]
      · rw [if_neg hc] at hv
        rw [if_neg hc, ih rest (by simp only [List.length_cons] at hs; omega) hv]

lemma replVars_dollar_head (t : List Char) : ∃ u, replVars ('$' :: t) = '$' :: u := by
  simp only [replVars]
  rw [if_pos trivial]
  by_cases h0 : (t.takeWhile (fun d => d ≠ '$')).length = 0
  · rw [if_pos h0]
    exact ⟨replVars t, rfl⟩
  · rw [if_neg h0]
    by_cases hlen : (t.takeWhile (fun d => d ≠ '$')).length < t.length
    · rw [if_pos hlen]
      exact ⟨lbraceCh :: rbraceCh :: '$' ::
        replVars (t.drop ((t.takeWhile (fun d => d ≠ '$')).length + 1)), rfl⟩
    · rw [if_neg hlen]
      exact ⟨t, rfl⟩

lemma vok_placeholder_cons (X : List Char) :
    vok ('$' :: lbraceCh :: rbraceCh :: '$' :: X) = vok X := by
  rw [vok, if_pos rfl, if_pos (show List.take 3 (lbraceCh :: rbraceCh :: '$' :: X) =
    [lbraceCh, rbraceCh, '$'] from rfl)]
  rfl

lemma vok_dollar_dollar (X : List Char) : vok ('$' :: '$' :: X) = vok ('$' :: X) := by
  rw [vok, if_pos rfl]
  rw [if_neg (show ¬ List.take 3 ('$' :: X) = [lbraceCh, rbraceCh, '$'] by
    intro h
    rw [show List.take 3 ('$' :: X) = '$' :: List.take 2 X from rfl] at h
    injection h with h1
    exact absurd h1 (by decide))]
  rw [if_pos (show ('$' :: X).head? = some '$' from rfl)]

lemma vok_replVars : ∀ (n : Nat) (s : List Char), s.length ≤ n →
    vok (replVars s) = true := by
  intro n
  induction n with
  | zero =>
    intro s hs
    have : s = [] := List.eq_nil_of_length_eq_zero (by omega)
    subst this
    simp [replVars, vok]
  | succ m ih =>
    intro s hs
    cases s with
    | nil => simp [replVars, vok]
    | cons c rest =>
      simp only [replVars]
      by_cases hc : c = '$'
      · rw [if_pos hc]
        by_cases h0 : (rest.takeWhile (fun d => d ≠ '$')).length = 0
        · rw [if_pos h0]
          cases rest with
          | nil =>
            rw [hc]
            rw [show replVars [] = [] by simp [replVars]]
            rw [vok, if_pos rfl]
            rw [if_neg (by decide), if_neg (by decide)]
            decide
          | cons d t =>
            have hd : d = '$' := by
              by_contra hne
              rw [List.takeWhile_cons, if_pos (by simpa using hne)] at h0
              simp at h0
            obtain ⟨u, hu⟩ := replVars_dollar_head t
            rw [hd, hu, hc, vok_dollar_dollar, ← hu]
            exact ih ('$' :: t) (by simp only [List.length_cons] at hs ⊢; omega)
        · rw [if_neg h0]
          by_cases hlen : (rest.takeWhile (fun d => d ≠ '$')).length < rest.length
          · rw [if_pos hlen]
            rw [show varPlaceholder ++
                replVars (rest.drop ((rest.takeWhile (fun d => d ≠ '$')).length + 1)) =
                '$' :: lbraceCh :: rbraceCh :: '$' ::
                replVars (rest.drop ((rest.takeWhile (fun d => d ≠ '$')).length + 1)) from rfl]
            rw [vok_placeholder_cons]
            exact ih _ (by
              rw [List.length_drop]
              simp only [List.length_cons] at hs
              omega)
          · rw [if_neg hlen]
            have hle : (rest.takeWhile (fun d => decide (d ≠ '$'))).length ≤ rest.length :=
              (List.takeWhile_prefix _).length_le
            have hall := takeWhile_len_eq_all (Nat.le_antisymm hle (by omega))
            have hnd : ('$' : Char) ∉ rest := by
              intro hmem
              have := hall '$' hmem
              simp at this
            rw [hc, vok, if_pos rfl]
            rw [if_neg (fun (h : rest.take 3 = [lbraceCh, rbraceCh, '$']) =>
              hnd ((List.take_sublist 3 rest).subset
                (h ▸ (by decide : ('$' : Char) ∈ [lbraceCh, rbraceCh, '$']))))]
            rw [if_neg (fun h => hnd (by
              cases rest with
              | nil => simp at h
              | cons d t =>
                simp only [List.head?_cons, Option.some.injEq] at h
                rw [← h]
                exact List.mem_cons_self d t))]
            exact decide_eq_true hnd
      · rw [if_neg hc, vok_cons_ne hc]
        exact ih rest (by simp only [List.length_cons] at hs; omega)

lemma digit_ne_dollar {c : Char} (h : isDigitCh c = true) : ¬ c = '$' := by
  intro he
  rw [he] at h
  exact absurd h (by decide)

lemma space_ne_dollar {c : Char} (h : isSpaceCh c = true) : ¬ c = '$' := by
  intro he
  rw [he] at h
  exact absurd h (by decide)

lemma mem_of_head? {l : List Char} {a : Char} (h : l.head? = some a) : a ∈ l := by
  cases l with
  | nil => simp at h
  | cons c t =>
    simp only [List.head?_cons, Option.some.injEq] at h
    rw [← h]
    exact List.mem_cons_self c t

lemma vok_dollar_nodollar {X : List Char} (h : ('$' : Char) ∉ X) :
    vok ('$' :: X) = true := by
  rw [vok, if_pos rfl]
  rw [if_neg (fun (hp : X.take 3 = [lbraceCh, rbraceCh, '$']) =>
    h ((List.take_sublist 3 X).subset
      (hp ▸ (by decide : ('$' : Char) ∈ [lbraceCh, rbraceCh, '$']))))]
  rw [if_neg (fun hh => h (mem_of_head? hh))]
  exact decide_eq_true h

lemma vok_dropWhile_pred (p : Char → Bool) (hp : ∀ x, p x = true → ¬ x = '$') :
    ∀ {s : List Char}, vok s = true → vok (s.dropWhile p) = true := by
  intro s
  induction s with
  | nil => intro h; simpa using h
  | cons c rest ih =>
    intro h
    rw [List.dropWhile_cons]
    split_ifs with hc
    · exact ih (by rw [← vok_cons_ne (hp c hc) rest]; exact h)
    · exact h

lemma vok_append_no_dollar : ∀ (l m : List Char), (∀ x ∈ l, ¬ x = '$') →
    vok (l ++ m) = vok m := by
  intro l
  induction l with
  | nil => intro m _; rfl
  | cons c l' ih =>
    intro m h
    rw [List.cons_append, vok_cons_ne (h c (List.mem_cons_self c l'))]
    exact ih m (fun x hx => h x (List.mem_cons_of_mem c hx))

lemma replNumsAux_no_dollar {pw : Bool} {s : List Char} (h : ('$' : Char) ∉ s) :
    ('$' : Char) ∉ replNumsAux pw s := by
  intro hmem
  rcases mem_replNumsAux s.length pw s (Nat.le_refl _) hmem with h1 | h1
  · exact h h1
  · exact absurd h1 (by decide)

lemma collapseWS_no_dollar {s : List Char} (h : ('$' : Char) ∉ s) :
    ('$' : Char) ∉ collapseWS s := by
  intro hmem
  rcases mem_collapseWS s.length s (Nat.le_refl _) hmem with ⟨h1, _⟩ | h1
  · exact h h1
  · exact absurd h1 (by decide)

lemma replNumsAux_cons_else {c : Char} {pw : Bool} (h : ¬ (isDigitCh c && !pw) = true)
    (t : List Char) : replNumsAux pw (c :: t) = c :: replNumsAux (isWordCh c) t := by
  simp only [replNumsAux]
  rw [if_neg h]

lemma replNumsAux_cons_nondigit {c : Char} (h : isDigitCh c = false) (pw : Bool)
    (t : List Char) : replNumsAux pw (c :: t) = c :: replNumsAux (isWordCh c) t :=
  replNumsAux_cons_else (by simp [h]) t

lemma collapseWS_cons_nonspace {c : Char} (h : isSpaceCh c = false) (t : List Char) :
    collapseWS (c :: t) = c :: collapseWS t := by
  simp only [collapseWS]
  rw [if_neg (by simp [h])]

lemma vok_replNumsAux : ∀ (n : Nat) (pw : Bool) (s : List Char), s.length ≤ n →
    vok s = true → vok (replNumsAux pw s) = true := by
  intro n
  induction n with
  | zero =>
    intro pw s hs _
    have : s = [] := List.eq_nil_of_length_eq_zero (by omega)
    subst this
    simp [replNumsAux, vok]
  | succ m ih =>
    intro pw s hs hv
    cases s with
    | nil => simp [replNumsAux, vok]
    | cons c rest =>
      have hd2 : (rest.dropWhile isDigitCh).length ≤ m := by
        have := length_dropWhile_le isDigitCh rest
        simp only [List.length_cons] at hs
        omega
      have hrl : rest.length ≤ m := by simp only [List.length_cons] at hs; omega
      by_cases hc : (isDigitCh c && !pw) = true
      · have hcd : isDigitCh c = true := ((Bool.and_eq_true _ _).mp hc).1
        have hcne : ¬ c = '$' := digit_ne_dollar hcd
        have hvrest : vok rest = true := by rw [← vok_cons_ne hcne rest]; exact hv
        have hvd : vok (rest.dropWhile isDigitCh) = true :=
          vok_dropWhile_pred isDigitCh (fun x h => digit_ne_dollar h) hvrest
        simp only [replNumsAux]
        rw [if_pos hc]
        by_cases hb : (match (rest.dropWhile isDigitCh).head? with
            | none => true
            | some d => !isWordCh d) = true
        · rw [if_pos hb, vok_cons_ne (by decide : ¬ ('#' : Char) = '$')]
          exact ih true _ hd2 hvd
        · rw [if_neg hb]
          rw [vok_append_no_dollar _ _ (by
            intro x hx
            rcases List.mem_cons.mp hx with rfl | hx2
            · exact hcne
            · exact digit_ne_dollar (List.mem_takeWhile_imp hx2))]
          exact ih true _ hd2 hvd
      · by_cases hcdol : c = '$'
        · subst hcdol
          rw [replNumsAux_cons_nondigit (by decide) pw rest]
          rw [vok, if_pos rfl] at hv
          by_cases hp : rest.take 3 = [lbraceCh, rbraceCh, '$']
          · rw [if_pos hp] at hv
            have hd := take3_decomp hp
            rw [hd]
            rw [replNumsAux_cons_nondigit (by decide : isDigitCh lbraceCh = false),
              replNumsAux_cons_nondigit (by decide : isDigitCh rbraceCh = false),
              replNumsAux_cons_nondigit (by decide : isDigitCh '$' = false)]
            rw [vok_placeholder_cons]
            exact ih _ _ (by rw [List.length_drop]; omega) hv
          · rw [if_neg hp] at hv
            by_cases hh : rest.head? = some '$'
            · rw [if_pos hh] at hv
              obtain ⟨r, hr⟩ : ∃ r, rest = '$' :: r := by
                cases rest with
                | nil => simp at hh
                | cons d t =>
                  simp only [List.head?_cons, Option.some.injEq] at hh
                  exact ⟨t, by rw [hh]⟩
              rw [hr, replNumsAux_cons_nondigit (by decide : isDigitCh '$' = false),
                vok_dollar_dollar,
                ← replNumsAux_cons_nondigit (by decide : isDigitCh '$' = false)
                  (isWordCh '$') r]
              rw [← hr]
              exact ih (isWordCh '$') rest hrl hv
            · rw [if_neg hh] at hv
              have hnd : ('$' : Char) ∉ rest := of_decide_eq_true hv
              exact vok_dollar_nodollar (replNumsAux_no_dollar hnd)
        · rw [replNumsAux_cons_else hc rest, vok_cons_ne hcdol]
          rw [vok_cons_ne hcdol rest] at hv
          exact ih _ rest hrl hv

lemma vok_collapseWS : ∀ (n : Nat) (s : List Char), s.length ≤ n →
    vok s = true → vok (collapseWS s) = true := by
  intro n
  induction n with
  | zero =>
    intro s hs _
    have : s = [] := List.eq_nil_of_length_eq_zero (by omega)
    subst this
    simp [collapseWS, vok]
  | succ m ih =>
    intro s hs hv
    cases s with
    | nil => simp [collapseWS, vok]
    | cons c rest =>
      have hrl : rest.length ≤ m := by simp only [List.length_cons] at hs; omega
      by_cases hc : isSpaceCh c = true
      · have hcne : ¬ c = '$' := space_ne_dollar hc
        have hvrest : vok rest = true := by rw [← vok_cons_ne hcne rest]; exact hv
        simp only [collapseWS]
        rw [if_pos hc, vok_cons_ne (by decide : ¬ (' ' : Char) = '$')]
        have hd2 : (rest.dropWhile isSpaceCh).length ≤ m := by
          have := length_dropWhile_le isSpaceCh rest
          omega
        exact ih _ hd2 (vok_dropWhile_pred isSpaceCh (fun x h => space_ne_dollar h) hvrest)
      · by_cases hcdol : c = '$'
        · subst hcdol
          rw [collapseWS_cons_nonspace (by decide) rest]
          rw [vok, if_pos rfl] at hv
          by_cases hp : rest.take 3 = [lbraceCh, rbraceCh, '$']
          · rw [if_pos hp] at hv
            have hd := take3_decomp hp
            rw [hd]
            rw [collapseWS_cons_nonspace (by decide : isSpaceCh lbraceCh = false),
              collapseWS_cons_nonspace (by decide : isSpaceCh rbraceCh = false),
              collapseWS_cons_nonspace (by decide : isSpaceCh '$' = false)]
            rw [vok_placeholder_cons]
            exact ih _ (by rw [List.length_drop]; omega) hv
          · rw [if_neg hp] at hv
            by_cases hh : rest.head? = some '$'
            · rw [if_pos hh] at hv
              obtain ⟨r, hr⟩ : ∃ r, rest = '$' :: r := by
                cases rest with
                | nil => simp at hh
                | cons d t =>
                  simp only [List.head?_cons, Option.some.injEq] at hh
                  exact ⟨t, by rw [hh]⟩
              rw [hr, collapseWS_cons_nonspace (by decide : isSpaceCh '$' = false),
                vok_dollar_dollar,
                ← collapseWS_cons_nonspace (by decide : isSpaceCh '$' = false) r]
              rw [← hr]
              exact ih rest hrl hv
            · rw [if_neg hh] at hv
              have hnd : ('$' : Char) ∉ rest := of_decide_eq_true hv
              exact vok_dollar_nodollar (collapseWS_no_dollar hnd)
        · rw [collapseWS_cons_nonspace (by simpa using hc) rest, vok_cons_ne hcdol]
          rw [vok_cons_ne hcdol rest] at hv
          exact ih rest hrl hv

lemma vok_append_spaces (sp : List Char) (hsp : ∀ x ∈ sp, isSpaceCh x = true) :
    ∀ (n : Nat) (l : List Char), l.length ≤ n → vok (l ++ sp) = true → vok l = true := by
  have hspnd : ('$' : Char) ∉ sp := fun hm => absurd (hsp '$' hm) (by decide)
  intro n
  induction n with
  | zero =>
    intro l hl _
    have : l = [] := List.eq_nil_of_length_eq_zero (by omega)
    subst this
    simp [vok]
  | succ m ih =>
    intro l hl hv
    cases l with
    | nil => simp [vok]
    | cons c l' =>
      have hl' : l'.length ≤ m := by simp only [List.length_cons] at hl; omega
      by_cases hc : c = '$'
      · subst hc
        rw [List.cons_append, vok, if_pos rfl] at hv
        by_cases hp : (l' ++ sp).take 3 = [lbraceCh, rbraceCh, '$']
        · rw [if_pos hp] at hv
          rcases l' with _ | ⟨d, _ | ⟨e, _ | ⟨f, w⟩⟩⟩
          · rw [List.nil_append] at hp
            exact absurd ((List.take_sublist 3 sp).subset
              (hp ▸ (by decide : ('$' : Char) ∈ [lbraceCh, rbraceCh, '$']))) hspnd
          · have hp2 : d :: sp.take 2 = [lbraceCh, rbraceCh, '$'] := hp
            injection hp2 with h1 h2
            exact absurd ((List.take_sublist 2 sp).subset
              (h2 ▸ (by decide : ('$' : Char) ∈ [rbraceCh, '$']))) hspnd
          · have hp2 : d :: e :: sp.take 1 = [lbraceCh, rbraceCh, '$'] := hp
            injection hp2 with h1 hrest
            injection hrest with h2 h3
            exact absurd ((List.take_sublist 1 sp).subset
              (h3 ▸ (by decide : ('$' : Char) ∈ ['$']))) hspnd
          · have hp2 : ([d, e, f] : List Char) = [lbraceCh, rbraceCh, '$'] := by
              have : (d :: e :: f :: (w ++ sp)).take 3 = [d, e, f] := rfl
              rw [← this]
              exact hp
            injection hp2 with h1 hrest
            injection hrest with h2 hrest2
            injection hrest2 with h3
            subst h1
            subst h2
            subst h3
            have hv2 : vok (w ++ sp) = true := hv
            rw [vok_placeholder_cons]
            exact ih w (by simp only [List.length_cons] at hl; omega) hv2
        · rw [if_neg hp] at hv
          by_cases hh : (l' ++ sp).head? = some '$'
          · rw [if_pos hh] at hv
            cases l' with
            | nil =>
              rw [List.nil_append] at hh
              exact absurd (mem_of_head? hh) hspnd
            | cons d t =>
              have hd : d = '$' := by
                rw [List.cons_append, List.head?_cons] at hh
                exact Option.some.inj hh
              subst hd
              rw [vok_dollar_dollar]
              exact ih _ hl' hv
          · rw [if_neg hh] at hv
            have hnd : ('$' : Char) ∉ l' ++ sp := of_decide_eq_true hv
            exact vok_dollar_nodollar (fun hm => hnd (List.mem_append.mpr (Or.inl hm)))
      · rw [List.cons_append, vok_cons_ne hc] at hv
        rw [vok_cons_ne hc]
        exact ih l' hl' hv

lemma space_cases {c : Char} (h : isSpaceCh c = true) :
    c = ' ' ∨ c = '\t' ∨ c = '\n' ∨ c = '\r' ∨ c = Char.ofNat 11 ∨ c = Char.ofNat 12 := by
  simp only [isSpaceCh, Bool.or_eq_true, decide_eq_true_eq] at h
  tauto

lemma space_not_word {c : Char} (h : isSpaceCh c = true) : isWordCh c = false := by
  rcases space_cases h with h | h | h | h | h | h <;> subst h <;> decide

lemma space_not_digit {c : Char} (h : isSpaceCh c = true) : isDigitCh c = false := by
  rcases space_cases h with h | h | h | h | h | h <;> subst h <;> decide

lemma digit_not_space {c : Char} (h : isDigitCh c = true) : isSpaceCh c = false := by
  cases hx : isSpaceCh c with
  | false => rfl
  | true => rw [space_not_digit hx] at h; exact absurd h (by decide)

lemma dropWhile_all_append {p : Char → Bool} :
    ∀ (l m : List Char), (∀ x ∈ l, p x = true) → (l ++ m).dropWhile p = m.dropWhile p := by
  intro l
  induction l with
  | nil => intro m _; rfl
  | cons c l' ih =>
    intro m h
    rw [List.cons_append, List.dropWhile_cons, if_pos (h c (List.mem_cons_self c l'))]
    exact ih m (fun x hx => h x (List.mem_cons_of_mem c hx))

lemma all_of_dropWhile_nil {p : Char → Bool} :
    ∀ {l : List Char}, l.dropWhile p = [] → ∀ x ∈ l, p x = true := by
  intro l
  induction l with
  | nil => intro _ x hx; simp at hx
  | cons c t ih =>
    intro h x hx
    rw [List.dropWhile_cons] at h
    split_ifs at h with hc
    rcases List.mem_cons.mp hx with rfl | hx2
    · exact hc
    · exact ih h x hx2

lemma collapseWS_append_nonspace :
    ∀ (l m : List Char), (∀ x ∈ l, isSpaceCh x = false) →
      collapseWS (l ++ m) = l ++ collapseWS m := by
  intro l
  induction l with
  | nil => intro m _; rfl
  | cons c l' ih =>
    intro m h
    rw [List.cons_append, collapseWS_cons_nonspace (h c (List.mem_cons_self c l')),
      ih m (fun x hx => h x (List.mem_cons_of_mem c hx)), List.cons_append]

/-- Number placeholders already in normal form: every maximal digit run
that opens at a word boundary is followed by a word character, so the
number substitution leaves the string unchanged. -/
def nfB : Bool → List Char → Bool
  | _, [] => true
  | pw, c :: rest =>
    if isDigitCh c && !pw then
      !(rest.dropWhile isDigitCh).isEmpty &&
        (isWordCh ((rest.dropWhile isDigitCh).headD ' ') &&
          nfB true (rest.dropWhile isDigitCh))
    else nfB (isWordCh c) rest
termination_by _ s => s.length
decreasing_by
  · have := length_dropWhile_le isDigitCh rest
    simp only [List.length_cons]; omega
  · simp only [List.length_cons]; omega

lemma nfB_cons_else {c : Char} {pw : Bool} (hc : ¬ (isDigitCh c && !pw) = true)
    (t : List Char) : nfB pw (c :: t) = nfB (isWordCh c) t := by
  simp only [nfB]
  rw [if_neg hc]

lemma nfB_cons_nondigit {c : Char} (h : isDigitCh c = false) {pw : Bool} (t : List Char) :
    nfB pw (c :: t) = nfB (isWordCh c) t :=
  nfB_cons_else (by simp [h]) t

lemma nfB_digit_unfold {c : Char} {pw : Bool} {rest : List Char}
    (hc : (isDigitCh c && !pw) = true) :
    nfB pw (c :: rest) = (!(rest.dropWhile isDigitCh).isEmpty &&
      (isWordCh ((rest.dropWhile isDigitCh).headD ' ') &&
        nfB true (rest.dropWhile isDigitCh))) := by
  simp only [nfB]
  rw [if_pos hc]

lemma nfB_digit_nil {c : Char} {pw : Bool} {rest : List Char}
    (hc : (isDigitCh c && !pw) = true) (h : rest.dropWhile isDigitCh = []) :
    nfB pw (c :: rest) = false := by
  rw [nfB_digit_unfold hc, h, show (([] : List Char)).isEmpty = true from rfl,
    Bool.not_true, Bool.false_and]

lemma nfB_digit_cons {c d : Char} {pw : Bool} {rest t : List Char}
    (hc : (isDigitCh c && !pw) = true) (h : rest.dropWhile isDigitCh = d :: t) :
    nfB pw (c :: rest) = (isWordCh d && nfB true (d :: t)) := by
  rw [nfB_digit_unfold hc, h, show ((d :: t : List Char)).isEmpty = false from rfl,
    show ((d :: t : List Char)).headD ' ' = d from rfl, Bool.not_false, Bool.true_and]

lemma replNumsAux_fix_of_nfB :
    ∀ (n : Nat) (pw : Bool) (s : List Char), s.length ≤ n → nfB pw s = true →
      replNumsAux pw s = s := by
  intro n
  induction n with
  | zero =>
    intro pw s hs _
    have : s = [] := List.eq_nil_of_length_eq_zero (by omega)
    subst this
    simp [replNumsAux]
  | succ m ih =>
    intro pw s hs hv
    cases s with
    | nil => simp [replNumsAux]
    | cons c rest =>
      have hrl : rest.length ≤ m := by simp only [List.length_cons] at hs; omega
      by_cases hc : (isDigitCh c && !pw) = true
      · cases hr2 : rest.dropWhile isDigitCh with
        | nil =>
          rw [nfB_digit_nil hc hr2] at hv
          exact absurd hv (by decide)
        | cons d t =>
          rw [nfB_digit_cons hc hr2, Bool.and_eq_true] at hv
          simp only [replNumsAux]
          rw [if_pos hc]
          by_cases hb : (match (rest.dropWhile isDigitCh).head? with
              | none => true
              | some d => !isWordCh d) = true
          · rw [hr2] at hb
            have hb' : (!isWordCh d) = true := hb
            rw [hv.1] at hb'
            exact absurd hb' (by decide)
          · rw [if_neg hb]
            have htl2 : (d :: t).length ≤ m := by
              rw [← hr2]
              have := length_dropWhile_le isDigitCh rest
              omega
            rw [hr2, ih true (d :: t) htl2 hv.2, ← hr2, List.cons_append,
              List.takeWhile_append_dropWhile]
      · rw [nfB_cons_else hc] at hv
        simp only [replNumsAux]
        rw [if_neg hc, ih (isWordCh c) rest hrl hv]

lemma nfB_replNumsAux :
    ∀ (n : Nat) (pw : Bool) (s : List Char), s.length ≤ n →
      nfB pw (replNumsAux pw s) = true := by
  intro n
  induction n with
  | zero =>
    intro pw s hs
    have : s = [] := List.eq_nil_of_length_eq_zero (by omega)
    subst this
    simp [replNumsAux, nfB]
  | succ m ih =>
    intro pw s hs
    cases s with
    | nil => simp [replNumsAux, nfB]
    | cons c rest =>
      have hrl : rest.length ≤ m := by simp only [List.length_cons] at hs; omega
      simp only [replNumsAux]
      by_cases hc : (isDigitCh c && !pw) = true
      · rw [if_pos hc]
        by_cases hb : (match (rest.dropWhile isDigitCh).head? with
            | none => true
            | some d => !isWordCh d) = true
        · rw [if_pos hb]
          rw [nfB_cons_nondigit (by decide : isDigitCh '#' = false)]
          cases hr2 : rest.dropWhile isDigitCh with
          | nil =>
            rw [show replNumsAux true ([] : List Char) = [] by simp [replNumsAux]]
            simp [nfB]
          | cons d t =>
            have hdnd : isDigitCh d = false := dropWhile_head_false hr2
            have htl2 : t.length ≤ m := by
              have h4 : (d :: t).length ≤ rest.length := by
                rw [← hr2]; exact length_dropWhile_le isDigitCh rest
              simp only [List.length_cons] at h4
              omega
            rw [replNumsAux_cons_nondigit hdnd, nfB_cons_nondigit hdnd]
            exact ih (isWordCh d) t htl2
        · rw [if_neg hb]
          cases hr2 : rest.dropWhile isDigitCh with
          | nil =>
            rw [hr2] at hb
            exact absurd rfl hb
          | cons d t =>
            rw [hr2] at hb
            have hw : isWordCh d = true := by
              cases hx : isWordCh d with
              | true => rfl
              | false => exact absurd (show (!isWordCh d) = true by rw [hx]; rfl) hb
            have hdnd : isDigitCh d = false := dropWhile_head_false hr2
            have htl2 : t.length ≤ m := by
              have h4 : (d :: t).length ≤ rest.length := by
                rw [← hr2]; exact length_dropWhile_le isDigitCh rest
              simp only [List.length_cons] at h4
              omega
            rw [replNumsAux_cons_nondigit hdnd, List.cons_append]
            have hdw2 : (rest.takeWhile isDigitCh ++
                (d :: replNumsAux (isWordCh d) t)).dropWhile isDigitCh
                = d :: replNumsAux (isWordCh d) t := by
              rw [dropWhile_all_append _ _ (fun x hx => List.mem_takeWhile_imp hx),
                List.dropWhile_cons, if_neg (by simp [hdnd])]
            rw [nfB_digit_cons hc hdw2, Bool.and_eq_true]
            refine ⟨hw, ?_⟩
            rw [nfB_cons_nondigit hdnd]
            exact ih (isWordCh d) t htl2
      · rw [if_neg hc, nfB_cons_else hc]
        exact ih (isWordCh c) rest hrl

lemma nfB_false_dropWhile_space : ∀ {s : List Char}, nfB false s = true →
    nfB false (s.dropWhile isSpaceCh) = true := by
  intro s
  induction s with
  | nil => intro h; simpa using h
  | cons c rest ih =>
    intro h
    rw [List.dropWhile_cons]
    split_ifs with hc
    · apply ih
      rw [nfB_cons_else (by simp [space_not_digit hc]) rest] at h
      rw [space_not_word hc] at h
      exact h
    · exact h

lemma nfB_append_spaces {sp : List Char} (hsp : ∀ x ∈ sp, isSpaceCh x = true) :
    ∀ (n : Nat) (b : Bool) (l : List Char), l.length ≤ n →
      nfB b (l ++ sp) = true → nfB b l = true := by
  intro n
  induction n with
  | zero =>
    intro b l hl _
    have : l = [] := List.eq_nil_of_length_eq_zero (by omega)
    subst this
    simp [nfB]
  | succ m ih =>
    intro b l hl hv
    cases l with
    | nil => simp [nfB]
    | cons c l' =>
      have hl' : l'.length ≤ m := by simp only [List.length_cons] at hl; omega
      rw [List.cons_append] at hv
      by_cases hc : (isDigitCh c && !b) = true
      · cases hr2 : l'.dropWhile isDigitCh with
        | nil =>
          have hall : ∀ x ∈ l', isDigitCh x = true := all_of_dropWhile_nil hr2
          have hspd : (l' ++ sp).dropWhile isDigitCh = sp := by
            rw [dropWhile_all_append _ _ hall]
            cases sp with
            | nil => rfl
            | cons y t =>
              rw [List.dropWhile_cons,
                if_neg (by simp [space_not_digit (hsp y (List.mem_cons_self y t))])]
          cases sp with
          | nil =>
            rw [List.append_nil] at hv
            exact hv
          | cons y t =>
            rw [nfB_digit_cons hc hspd, Bool.and_eq_true] at hv
            rw [space_not_word (hsp y (List.mem_cons_self y t))] at hv
            exact absurd hv.1 (by decide)
        | cons d t =>
          have hdnd : isDigitCh d = false := dropWhile_head_false hr2
          have hdw : (l' ++ sp).dropWhile isDigitCh = d :: (t ++ sp) := by
            have h0 : l'.takeWhile isDigitCh ++ l'.dropWhile isDigitCh = l' := by
              rw [List.takeWhile_append_dropWhile]
            rw [hr2] at h0
            calc (l' ++ sp).dropWhile isDigitCh
                = ((l'.takeWhile isDigitCh ++ (d :: t)) ++ sp).dropWhile isDigitCh := by
                  rw [h0]
              _ = (l'.takeWhile isDigitCh ++ (d :: (t ++ sp))).dropWhile isDigitCh := by
                  rw [List.append_assoc, List.cons_append]
              _ = (d :: (t ++ sp)).dropWhile isDigitCh :=
                  dropWhile_all_append _ _ (fun x hx => List.mem_takeWhile_imp hx)
              _ = d :: (t ++ sp) := by
                  rw [List.dropWhile_cons, if_neg (by simp [hdnd])]
          rw [nfB_digit_cons hc hdw, Bool.and_eq_true] at hv
          have htl : (d :: t).length ≤ m := by
            rw [← hr2]
            have := length_dropWhile_le isDigitCh l'
            omega
          have hnf : nfB true (d :: t) = true := by
            apply ih true (d :: t) htl
            rw [List.cons_append]
            exact hv.2
          rw [nfB_digit_cons hc hr2, hv.1, Bool.true_and]
          exact hnf
      · rw [nfB_cons_else hc] at hv
        rw [nfB_cons_else hc]
        exact ih (isWordCh c) l' hl' hv

lemma nfB_collapseWS :
    ∀ (n : Nat) (b : Bool) (s : List Char), s.length ≤ n →
      nfB b s = true → nfB b (collapseWS s) = true := by
  intro n
  induction n with
  | zero =>
    intro b s hs _
    have : s = [] := List.eq_nil_of_length_eq_zero (by omega)
    subst this
    simp [collapseWS, nfB]
  | succ m ih =>
    intro b s hs hv
    cases s with
    | nil => simp [collapseWS, nfB]
    | cons c rest =>
      have hrl : rest.length ≤ m := by simp only [List.length_cons] at hs; omega
      by_cases hsp2 : isSpaceCh c = true
      · simp only [collapseWS]
        rw [if_pos hsp2]
        have hvr : nfB false rest = true := by
          rw [nfB_cons_else (by simp [space_not_digit hsp2]) rest] at hv
          rw [space_not_word hsp2] at hv
          exact hv
        rw [nfB_cons_else (show ¬ (isDigitCh ' ' && !b) = true by
          rw [show isDigitCh ' ' = false from by decide, Bool.false_and]; decide)]
        rw [show isWordCh ' ' = false from by decide]
        have hd2 : (rest.dropWhile isSpaceCh).length ≤ m := by
          have := length_dropWhile_le isSpaceCh rest
          omega
        exact ih false _ hd2 (nfB_false_dropWhile_space hvr)
      · have hcs : isSpaceCh c = false := by
          cases hx : isSpaceCh c with
          | true => exact absurd hx hsp2
          | false => rfl
        rw [collapseWS_cons_nonspace hcs]
        by_cases hc : (isDigitCh c && !b) = true
        · cases hr2 : rest.dropWhile isDigitCh with
          | nil =>
            rw [nfB_digit_nil hc hr2] at hv
            exact absurd hv (by decide)
          | cons d t =>
            rw [nfB_digit_cons hc hr2, Bool.and_eq_true] at hv
            have hdnd : isDigitCh d = false := dropWhile_head_false hr2
            have hdns : isSpaceCh d = false := by
              cases hx : isSpaceCh d with
              | false => rfl
              | true => exact absurd hv.1 (by rw [space_not_word hx]; decide)
            have h0 : rest.takeWhile isDigitCh ++ (d :: t) = rest := by
              rw [← hr2, List.takeWhile_append_dropWhile]
            have hcw : collapseWS rest = rest.takeWhile isDigitCh ++ (d :: collapseWS t) := by
              conv_lhs => rw [← h0]
              rw [collapseWS_append_nonspace _ _
                  (fun x hx => digit_not_space (List.mem_takeWhile_imp hx)),
                collapseWS_cons_nonspace hdns]
            have hdw2 : (rest.takeWhile isDigitCh ++
                (d :: collapseWS t)).dropWhile isDigitCh = d :: collapseWS t := by
              rw [dropWhile_all_append _ _ (fun x hx => List.mem_takeWhile_imp hx),
                List.dropWhile_cons, if_neg (by simp [hdnd])]
            have htl : t.length ≤ m := by
              have h4 : (d :: t).length ≤ rest.length := by
                rw [← hr2]; exact length_dropWhile_le isDigitCh rest
              simp only [List.length_cons] at h4
              omega
            have hnf2 : nfB true (d :: collapseWS t) = true := by
              rw [nfB_cons_nondigit hdnd]
              have h3 : nfB true (d :: t) = true := hv.2
              rw [nfB_cons_nondigit hdnd] at h3
              exact ih (isWordCh d) t htl h3
            rw [hcw, nfB_digit_cons hc hdw2, hv.1, Bool.true_and]
            exact hnf2
        · rw [nfB_cons_else hc] at hv
          rw [nfB_cons_else hc]
          exact ih (isWordCh c) rest hrl hv

lemma normalize_no_newline (x : List Char) : ∀ c ∈ normalize_step x, ¬ c = '\n' := by
  intro c hc he
  subst he
  unfold normalize_step at hc
  have h1 := mem_pyStrip hc
  rcases mem_collapseWS _ _ (Nat.le_refl _) h1 with ⟨_, hsp⟩ | hsp
  · exact absurd hsp (by decide)
  · exact absurd hsp (by decide)

lemma normalize_lower_fixed (x : List Char) :
    toLowerL (normalize_step x) = normalize_step x := by
  apply toLowerL_fix_of
  intro c hc
  unfold normalize_step at hc
  have h1 := mem_pyStrip hc
  rcases mem_collapseWS _ _ (Nat.le_refl _) h1 with ⟨h2, _⟩ | h2
  · rw [replNums] at h2
    rcases mem_replNumsAux _ _ _ (Nat.le_refl _) h2 with h3 | h3
    · rcases mem_replVars _ _ (Nat.le_refl _) h3 with h4 | h4
      · rcases mem_unescapeQ h4 with h5 | h5
        · rcases mem_replQuoted squoteCh _ _ (Nat.le_refl _) h5 with h6 | h6
          · rcases mem_replQuoted dquoteCh _ _ (Nat.le_refl _) h6 with h7 | h7
            · have h8 := mem_stripColonL h7
              rcases List.mem_map.mp h8 with ⟨a, _, ha⟩
              rw [← ha]
              exact toLowerCh_idem a
            · rw [show quotePlaceholder = [dquoteCh, lbraceCh, rbraceCh, dquoteCh]
                from rfl] at h7
              fin_cases h7 <;> decide
          · rw [show quotePlaceholder = [dquoteCh, lbraceCh, rbraceCh, dquoteCh]
              from rfl] at h6
            fin_cases h6 <;> decide
        · subst h5; decide
      · rw [show varPlaceholder = ['$', lbraceCh, rbraceCh, '$'] from rfl] at h4
        fin_cases h4 <;> decide
    · subst h3; decide
  · subst h2; decide

lemma count_squote_normalize (x : List Char) :
    (normalize_step x).count squoteCh ≤ 1 := by
  unfold normalize_step
  refine le_trans (count_pyStrip_le _ _) ?_
  refine le_trans (count_collapseWS_le _ (by decide) _ _ (Nat.le_refl _)) ?_
  refine le_trans (count_replNumsAux_le _ (by decide) _ _ _ (Nat.le_refl _)) ?_
  refine le_trans (count_replVars_le _ (by decide) _ _ (Nat.le_refl _)) ?_
  refine le_trans (count_unescapeQ_le _ (by decide) _) ?_
  exact count_replQuoted_le_one _ (by decide) _ _ (Nat.le_refl _)

lemma normalize_squote_fix (x : List Char) :
    replQuoted squoteCh (normalize_step x) = normalize_step x :=
  count_le_one_replQuoted_fix squoteCh _ _ (Nat.le_refl _) (count_squote_normalize x)

lemma vok_tail_pipeline (z : List Char) :
    vok (pyStrip (collapseWS (replNums (replVars z)))) = true := by
  have h1 : vok (replVars z) = true := vok_replVars _ _ (Nat.le_refl _)
  have h2 : vok (replNums (replVars z)) = true := by
    rw [replNums]
    exact vok_replNumsAux _ _ _ (Nat.le_refl _) h1
  have h3 : vok (collapseWS (replNums (replVars z))) = true :=
    vok_collapseWS _ _ (Nat.le_refl _) h2
  rw [pyStrip]
  have h4 : vok (lstrip (collapseWS (replNums (replVars z)))) = true :=
    vok_dropWhile_pred isSpaceCh (fun y h => space_ne_dollar h) h3
  obtain ⟨sp, hsp, hall⟩ := rstrip_decomp (lstrip (collapseWS (replNums (replVars z))))
  apply vok_append_spaces sp hall _ _ (Nat.le_refl _)
  rw [← hsp]
  exact h4

lemma normalize_vars_fix (x : List Char) :
    replVars (normalize_step x) = normalize_step x := by
  apply replVars_eq_of_vok _ _ (Nat.le_refl _)
  unfold normalize_step
  exact vok_tail_pipeline _

lemma nfB_tail_pipeline (z : List Char) :
    nfB false (pyStrip (collapseWS (replNums z))) = true := by
  have h1 : nfB false (replNums z) = true := by
    rw [replNums]
    exact nfB_replNumsAux _ _ _ (Nat.le_refl _)
  have h2 : nfB false (collapseWS (replNums z)) = true :=
    nfB_collapseWS _ _ _ (Nat.le_refl _) h1
  rw [pyStrip]
  have h3 : nfB false (lstrip (collapseWS (replNums z))) = true :=
    nfB_false_dropWhile_space h2
  obtain ⟨sp, hsp, hall⟩ := rstrip_decomp (lstrip (collapseWS (replNums z)))
  apply nfB_append_spaces hall _ _ _ (Nat.le_refl _)
  rw [← hsp]
  exact h3

lemma normalize_nums_fix (x : List Char) :
    replNums (normalize_step x) = normalize_step x := by
  rw [replNums]
  apply replNumsAux_fix_of_nfB _ _ _ (Nat.le_refl _)
  unfold normalize_step
  exact nfB_tail_pipeline _

lemma normalize_ws_fix (x : List Char) :
    collapseWS (normalize_step x) = normalize_step x := by
  apply collapseWS_fix_of_wsokB _ _ (Nat.le_refl _)
  unfold normalize_step
  have h1 : wsokB (collapseWS (replNums (replVars (unescapeQ (replQuoted squoteCh
      (replQuoted dquoteCh (stripColonL (toLowerL (stripKeywordL
        (pyStrip (firstLine x)))))))))))  = true :=
    wsokB_collapseWS _ _ (Nat.le_refl _)
  rw [pyStrip]
  have h2 := wsokB_dropWhile isSpaceCh h1
  obtain ⟨sp, hsp, hall⟩ := rstrip_decomp (lstrip (collapseWS (replNums (replVars
    (unescapeQ (replQuoted squoteCh (replQuoted dquoteCh (stripColonL (toLowerL
      (stripKeywordL (pyStrip (firstLine x))))))))))))
  apply wsokB_append_left _ sp
  rw [← hsp]
  exact h2

lemma normalize_pyStrip_fix (x : List Char) :
    pyStrip (normalize_step x) = normalize_step x := by
  unfold normalize_step
  exact pyStrip_idem _

/-- C3: `normalize_step` is idempotent on a normalized string provided the
keyword strip, the trailing-colon strip, the double-quote substitution and
the escaped-quote replacement each leave that normalized string unchanged;
all remaining stages of the pipeline (first line, strip, lower-casing, the
single-quote, variable and number substitutions, whitespace collapse) are
proved to always fix a normalized string.  Without the four hypotheses the
unconditional idempotence claim is refuted by `c3_counterexample`. -/
theorem c3_normalize_conditional_idempotent (x : List Char)
    (h1 : stripKeywordL (normalize_step x) = normalize_step x)
    (h2 : stripColonL (normalize_step x) = normalize_step x)
    (h3 : replQuoted dquoteCh (normalize_step x) = normalize_step x)
    (h4 : unescapeQ (normalize_step x) = normalize_step x) :
    normalize_step (normalize_step x) = normalize_step x := by
  have hfl : firstLine (normalize_step x) = normalize_step x :=
    firstLine_fix (normalize_no_newline x)
  have hps := normalize_pyStrip_fix x
  have hlow := normalize_lower_fixed x
  have hsq := normalize_squote_fix x
  have hvv := normalize_vars_fix x
  have hnn := normalize_nums_fix x
  have hcc := normalize_ws_fix x
  rw [normalize_step, hfl, hps, h1, hlow, h2, h3, hsq, h4, hvv, hnn, hcc, hps]

/-- C3 counterexample: normalization is not idempotent in general.  The
keyword strip removes only the first leading keyword, so a step that
starts with two keywords ("Когда и открываю") normalizes to "и открываю",
which still starts with the keyword "и" and is stripped again by a second
normalization, yielding "открываю". -/
theorem c3_counterexample :
    normalize_step (normalize_step (strL ("Когда и открываю"))) ≠
      normalize_step (strL ("Когда и открываю")) := by
  have h1 : normalize_step (strL ("Когда и открываю")) = strL ("и открываю") := by
    simp [normalize_step, pyStrip, firstLine, lstrip, rstrip, stripKeywordL,
      gherkinKeywords, kwMatch, toLowerL, toLowerCh, stripColonL, replQuoted,
      unescapeQ, replVars, replNums, replNumsAux, collapseWS, strL, isSpaceCh,
      isDigitCh, isWordCh, List.find?, dquoteCh, squoteCh, bslashCh, lbraceCh,
      rbraceCh, quotePlaceholder, varPlaceholder]
  have h2 : normalize_step (strL ("и открываю")) = strL ("открываю") := by
    simp [normalize_step, pyStrip, firstLine, lstrip, rstrip, stripKeywordL,
      gherkinKeywords, kwMatch, toLowerL, toLowerCh, stripColonL, replQuoted,
      unescapeQ, replVars, replNums, replNumsAux, collapseWS, strL, isSpaceCh,
      isDigitCh, isWordCh, List.find?, dquoteCh, squoteCh, bslashCh, lbraceCh,
      rbraceCh, quotePlaceholder, varPlaceholder]
  rw [h1, h2]
  decide

/-- Witness for C3: at the concrete input "abc" all four hypotheses hold
and normalization is indeed idempotent there. -/
theorem c3_witness :
    normalize_step (normalize_step (strL ("abc"))) = normalize_step (strL ("abc")) := by
  have hy : normalize_step (strL ("abc")) = strL ("abc") := by
    simp [normalize_step, pyStrip, firstLine, lstrip, rstrip, stripKeywordL,
      gherkinKeywords, kwMatch, toLowerL, toLowerCh, stripColonL, replQuoted,
      unescapeQ, replVars, replNums, replNumsAux, collapseWS, strL, isSpaceCh,
      isDigitCh, isWordCh, List.find?, dquoteCh, squoteCh, bslashCh, lbraceCh,
      rbraceCh, quotePlaceholder, varPlaceholder]
  exact c3_normalize_conditional_idempotent (strL ("abc"))
    (by rw [hy]; decide) (by rw [hy]; decide)
    (by rw [hy]; simp [replQuoted, strL, dquoteCh])
    (by rw [hy]; decide)

end VaAi
